import Mathlib

/-!
# Verification of the go-ard value model and codec layer

This file is a shallow embedding of the core of the `go-ard` repository
(agnostic raw data: a closed dynamic value model with two map variants,
deep structural operations, and an extended-JSON escaping codec), together
with proofs about the embedded definitions.

Modelling conventions:

* Go's dynamic `any` values are embedded as the inductive type `Ard.Value`.
  Narrow integer widths (`int`, `int32`, ...) are normalized to the 64-bit
  representative, as the specification's data model prescribes; `vInt`
  stands for Go `int64` and `vUInt` for Go `uint64`.
* Go `map[any]any` (`Map`) and `map[string]any` (`StringMap`) are embedded
  as association lists.  Go maps are unordered and cannot hold duplicate
  keys, so theorems about maps are stated via lookups and carry a
  well-formedness hypothesis (`keysNodup`) where duplicate-freedom matters.
* Go interface equality `a == b` is partial: it panics at run time when the
  two operands have the same dynamic type and that type is not comparable
  (slices such as `[]byte`).  It is embedded as `goEqDefault : Value →
  Value → Option Bool`, where `none` models the run-time panic.
* Go `float64` is embedded as `GoFloat`: `nan` (for which `==` is never
  true, even reflexively) or a finite numeric value.  No claim below
  depends on floating-point arithmetic or rounding, only on `==`.
* `time.Time` is embedded as an abstract comparable instant (`vTime`).
-/

namespace Ard

/-- Go `float64` for the purposes of `==`: either NaN (never equal to
anything, including itself) or a finite numeric value.  The claims proved
here never perform float arithmetic, so the numeric payload is exact. -/
inductive GoFloat where
  | nan : GoFloat
  | num : Rat → GoFloat
deriving DecidableEq

/-- The embedded Go dynamic value universe used by go-ard (`Value = any`,
src/aliases.go): the ARD leaf types, plus `List = []any`,
`Map = map[any]any` and `StringMap = map[string]any` as association
lists. -/
inductive Value where
  | vNull : Value
  | vBool : Bool → Value
  | vInt : Int → Value
  | vUInt : Nat → Value
  | vFloat : GoFloat → Value
  | vString : String → Value
  | vBytes : List Nat → Value
  | vTime : Nat → Value
  | vList : List Value → Value
  | vMap : List (Value × Value) → Value
  | vStringMap : List (String × Value) → Value

open Value

/-- Go `==` on two `float64` values: NaN compares unequal to everything. -/
def goFloatEq : GoFloat → GoFloat → Bool
  | .nan, _ => false
  | _, .nan => false
  | .num a, .num b => a == b

/-- Go interface equality restricted to values usable as `map[any]any`
keys (the comparable leaf types).  Container and byte-slice keys are
uncomparable in Go and can never have been inserted into a map, so they
match nothing here. -/
def goKeyEq : Value → Value → Bool
  | vNull, vNull => true
  | vBool a, vBool b => a == b
  | vInt a, vInt b => a == b
  | vUInt a, vUInt b => a == b
  | vFloat a, vFloat b => goFloatEq a b
  | vString a, vString b => a == b
  | vTime a, vTime b => a == b
  | _, _ => false

/-- Is this value of a Go-comparable dynamic type (usable as a map key)? -/
def isComparable : Value → Bool
  | vNull | vBool _ | vInt _ | vUInt _ | vFloat _ | vString _ | vTime _ => true
  | _ => false

/-- Lookup in a Go `Map` (`map[any]any`), via Go key equality. -/
def mapLookup : List (Value × Value) → Value → Option Value
  | [], _ => none
  | (k, v) :: rest, key => if goKeyEq k key then some v else mapLookup rest key

/-- Lookup in a Go `StringMap` (`map[string]any`). -/
def smLookup : List (String × Value) → String → Option Value
  | [], _ => none
  | (k, v) :: rest, key => if k == key then some v else smLookup rest key

/-- Go interface equality `a == b` on the embedded universe, as reached by
the `default` arm of `Equals` (src/unnamed/part_014).  `none` models the
run-time panic Go raises when both operands have the same uncomparable
dynamic type (slices and maps); distinct dynamic types compare `false`
without panicking. -/
def goEqDefault : Value → Value → Option Bool
  | vBytes _, vBytes _ => none
  | vList _, vList _ => none
  | vMap _, vMap _ => none
  | vStringMap _, vStringMap _ => none
  | vNull, vNull => some true
  | vBool a, vBool b => some (a == b)
  | vInt a, vInt b => some (a == b)
  | vUInt a, vUInt b => some (a == b)
  | vFloat a, vFloat b => some (goFloatEq a b)
  | vString a, vString b => some (a == b)
  | vTime a, vTime b => some (a == b)
  | _, _ => some false

/-- Does every key of the second map occur in the first (Go `Map`)?
This is the first loop of the `Map` case of `Equals`. -/
def keysContained (bes aes : List (Value × Value)) : Bool :=
  bes.all (fun e => (mapLookup aes e.1).isSome)

/-- Does every key of the second map occur in the first (`StringMap`)? -/
def sKeysContained (bes aes : List (String × Value)) : Bool :=
  bes.all (fun e => (smLookup aes e.1).isSome)

mutual

/-- Deep structural equality, embedded from `Equals`
(src/unnamed/part_014, lines 87-171): `Map` compares only against `Map`,
`StringMap` only against `StringMap` (same length, mutual key containment,
recursively equal values), `List` index-wise, and everything else by Go
interface `==` (`goEqDefault`; `none` models its run-time panic on two
byte slices). -/
def Equals : Value → Value → Option Bool
  | vMap aes, b =>
    match b with
    | vMap bes =>
      if aes.length != bes.length then some false
      else if !(keysContained bes aes) then some false
      else equalsMapEntries aes bes
    | _ => some false
  | vStringMap aes, b =>
    match b with
    | vStringMap bes =>
      if aes.length != bes.length then some false
      else if !(sKeysContained bes aes) then some false
      else equalsSMapEntries aes bes
    | _ => some false
  | vList xs, b =>
    match b with
    | vList ys =>
      if xs.length != ys.length then some false
      else equalsListElems xs ys
    | _ => some false
  | a, b => goEqDefault a b

/-- The second loop of the `Map` case of `Equals`: every entry of the
first map must be found in the second with a recursively equal value.
Propagates the panic (`none`) of a nested comparison. -/
def equalsMapEntries : List (Value × Value) → List (Value × Value) → Option Bool
  | [], _ => some true
  | (k, av) :: rest, bes =>
    match mapLookup bes k with
    | some bv =>
      match Equals av bv with
      | some true => equalsMapEntries rest bes
      | some false => some false
      | none => none
    | none => some false

/-- The second loop of the `StringMap` case of `Equals`. -/
def equalsSMapEntries : List (String × Value) → List (String × Value) → Option Bool
  | [], _ => some true
  | (k, av) :: rest, bes =>
    match smLookup bes k with
    | some bv =>
      match Equals av bv with
      | some true => equalsSMapEntries rest bes
      | some false => some false
      | none => none
    | none => some false

/-- The `List` case of `Equals`: index-wise recursive equality (the two
lists are known to have equal length when this is called). -/
def equalsListElems : List Value → List Value → Option Bool
  | [], _ => some true
  | a :: xs, bs =>
    match bs with
    | [] => some false
    | b :: ys =>
      match Equals a b with
      | some true => equalsListElems xs ys
      | some false => some false
      | none => none

end

/-! ## Deep traversal predicates

Go maps cannot hold duplicate or uncomparable keys; the association-list
embedding can, so theorems carry a well-formedness predicate ruling those
unrepresentable states out.  `deepAll p` checks a local predicate on every
node of a value tree (keys of `Map` entries included). -/

mutual

/-- `deepAll p v`: the local predicate `p` holds at every node of `v`,
including map keys. -/
def deepAll (p : Value → Bool) : Value → Bool
  | vList xs => p (vList xs) && deepAllList p xs
  | vMap es => p (vMap es) && deepAllEntries p es
  | vStringMap es => p (vStringMap es) && deepAllSEntries p es
  | v => p v

def deepAllList (p : Value → Bool) : List Value → Bool
  | [] => true
  | x :: rest => deepAll p x && deepAllList p rest

def deepAllEntries (p : Value → Bool) : List (Value × Value) → Bool
  | [] => true
  | (k, v) :: rest => deepAll p k && deepAll p v && deepAllEntries p rest

def deepAllSEntries (p : Value → Bool) : List (String × Value) → Bool
  | [] => true
  | (_, v) :: rest => deepAll p v && deepAllSEntries p rest

end

/-- Pairwise distinctness of `Map` keys under Go key equality. -/
def nodupKeys : List (Value × Value) → Bool
  | [] => true
  | (k, _) :: rest => rest.all (fun e => !goKeyEq k e.1) && nodupKeys rest

/-- Pairwise distinctness of `StringMap` keys. -/
def sNodupKeys : List (String × Value) → Bool
  | [] => true
  | (k, _) :: rest => rest.all (fun e => !(k == e.1)) && sNodupKeys rest

/-- Local well-formedness of one node: a Go map can only hold comparable,
pairwise-distinct keys. -/
def localWF : Value → Bool
  | vMap es => es.all (fun e => isComparable e.1) && nodupKeys es
  | vStringMap es => sNodupKeys es
  | _ => true

/-- A value is representable as a Go value tree: every map node has
comparable, duplicate-free keys. -/
def WFv (v : Value) : Bool := deepAll localWF v

/-- Local predicate: this node is not a byte slice. -/
def noBytesLeaf : Value → Bool
  | vBytes _ => false
  | _ => true

/-- No byte slice anywhere in the tree (Go `==` panics on two slices). -/
def noBytes (v : Value) : Bool := deepAll noBytesLeaf v

/-- Local predicate: this node is not a float NaN. -/
def noNanLeaf : Value → Bool
  | vFloat .nan => false
  | _ => true

/-- No float NaN anywhere in the tree (`NaN == NaN` is false in Go). -/
def noNaN (v : Value) : Bool := deepAll noNanLeaf v

/-! ## Type classification (src/types.go) -/

def TypeMap : String := "ard.map"
def TypeList : String := "ard.list"
def TypeString : String := "ard.string"
def TypeBoolean : String := "ard.boolean"
def TypeInteger : String := "ard.integer"
def TypeFloat : String := "ard.float"
def TypeNull : String := "ard.null"
def TypeBytes : String := "ard.bytes"
def TypeTimestamp : String := "ard.timestamp"

/-- The name Go's `fmt.Sprintf("%T", value)` produces for the host type of
a `StringMap` (`map[string]any`), the one ARD value `GetTypeName` does not
classify. -/
def stringMapHostTypeName : String := "map[string]interface \x7b\x7d"

/-- Embedded from `GetTypeName` (src/types.go, lines 40-63).  The source
type-switch has cases for `Map`, `List`, `string`, `bool`, all signed and
unsigned integer widths (which the model normalizes to `vInt`/`vUInt`),
floats, `nil`, `[]byte` and `time.Time`; `StringMap` matches none of them
and falls to the `default` arm, which renders the host type via `%%T`. -/
def GetTypeName : Value → String
  | vMap _ => TypeMap
  | vList _ => TypeList
  | vString _ => TypeString
  | vBool _ => TypeBoolean
  | vInt _ => TypeInteger
  | vUInt _ => TypeInteger
  | vFloat _ => TypeFloat
  | vNull => TypeNull
  | vBytes _ => TypeBytes
  | vTime _ => TypeTimestamp
  | vStringMap _ => stringMapHostTypeName

/-- The canonical type names of the spec (Map, List, String, Boolean,
Integer, Float, Null, Bytes, Timestamp). -/
def canonicalTypeNames : List String :=
  [TypeMap, TypeList, TypeString, TypeBoolean, TypeInteger, TypeFloat,
   TypeNull, TypeBytes, TypeTimestamp]

/-- Embedded from `IsPrimitiveType` (src/types.go, lines 157-164): true
for every leaf type, false for `Map`, `List` and `StringMap` (which hits
the `default` arm in the source). -/
def IsPrimitiveType : Value → Bool
  | vMap _ | vList _ | vStringMap _ => false
  | _ => true

/-- Is this value a `StringMap`? -/
def isStringMapV : Value → Bool
  | vStringMap _ => true
  | _ => false

/-! ## Deep copy (src/copy.go) -/

mutual

/-- Embedded from `Copy` (src/copy.go, lines 13-16), i.e. `copy_` with a
nil reflector and no conversion (lines 83-151): recurses into `Map`,
`StringMap` and `List` building fresh containers of the same variant
(map keys are reused, not copied), and passes every other value through
as is. -/
def Copy : Value → Value
  | vMap es => vMap (copyEntries es)
  | vStringMap es => vStringMap (copySEntries es)
  | vList xs => vList (copyList xs)
  | v => v

def copyEntries : List (Value × Value) → List (Value × Value)
  | [] => []
  | (k, v) :: rest => (k, Copy v) :: copyEntries rest

def copySEntries : List (String × Value) → List (String × Value)
  | [] => []
  | (k, v) :: rest => (k, Copy v) :: copySEntries rest

def copyList : List Value → List Value
  | [] => []
  | x :: rest => Copy x :: copyList rest

end

mutual

/-- Embedded from `ValidCopy` (src/copy.go, lines 50-56), i.e. `copy_`
with a (default) reflector: containers are recursed exactly as in `Copy`;
a non-container that is a recognized primitive is passed through; any
other host value goes to `reflector.Unpack`.  In the embedded universe
every non-container constructor is a recognized ARD primitive
(`IsPrimitiveType`), so the reflector arm — modelled as an error, since
reflection over host structs is outside the value model — is
unreachable. -/
def ValidCopy : Value → Except String Value
  | vMap es =>
    match validCopyEntries es with
    | .ok es2 => .ok (vMap es2)
    | .error e => .error e
  | vStringMap es =>
    match validCopySEntries es with
    | .ok es2 => .ok (vStringMap es2)
    | .error e => .error e
  | vList xs =>
    match validCopyList xs with
    | .ok xs2 => .ok (vList xs2)
    | .error e => .error e
  | v => if IsPrimitiveType v then .ok v else .error "reflector: unsupported type"

def validCopyEntries : List (Value × Value) → Except String (List (Value × Value))
  | [] => .ok []
  | (k, v) :: rest =>
    match ValidCopy v with
    | .ok v2 =>
      match validCopyEntries rest with
      | .ok rest2 => .ok ((k, v2) :: rest2)
      | .error e => .error e
    | .error e => .error e

def validCopySEntries : List (String × Value) → Except String (List (String × Value))
  | [] => .ok []
  | (k, v) :: rest =>
    match ValidCopy v with
    | .ok v2 =>
      match validCopySEntries rest with
      | .ok rest2 => .ok ((k, v2) :: rest2)
      | .error e => .error e
    | .error e => .error e

def validCopyList : List Value → Except String (List Value)
  | [] => .ok []
  | x :: rest =>
    match ValidCopy x with
    | .ok x2 =>
      match validCopyList rest with
      | .ok rest2 => .ok (x2 :: rest2)
      | .error e => .error e
    | .error e => .error e

end

/-! ## Deep merge (src/merge.go) -/

/-- Store a value under a key in a Go `Map`: if an entry with a matching
key exists its value is replaced (the stored key object is kept, as a Go
map keeps the original key), otherwise the binding is appended. -/
def mapStore : List (Value × Value) → Value → Value → List (Value × Value)
  | [], k, v => [(k, v)]
  | (k0, v0) :: rest, k, v =>
    if goKeyEq k0 k then (k0, v) :: rest else (k0, v0) :: mapStore rest k v

/-- Store a value under a key in a Go `StringMap`. -/
def smStore : List (String × Value) → String → Value → List (String × Value)
  | [], k, v => [(k, v)]
  | (k0, v0) :: rest, k, v =>
    if k0 == k then (k0, v) :: rest else (k0, v0) :: smStore rest k v

mutual

/-- Embedded from `Merge` (src/merge.go, lines 18-63): two `Map`s (or two
`StringMap`s) merge key by key — a key already present in the target gets
the recursive merge of the two values, a key absent from the target gets
`Copy` of the source key and value; two `List`s with `appendLists` true
concatenate copies of the source elements onto the target; every other
combination yields `Copy source`, discarding the target. -/
def Merge : Value → Value → Bool → Value
  | vMap tes, vMap ses, appendLists => vMap (mergeMapEntries tes ses appendLists)
  | vStringMap tes, vStringMap ses, appendLists =>
    vStringMap (mergeSMapEntries tes ses appendLists)
  | vList txs, vList sxs, appendLists =>
    if appendLists then vList (txs ++ copyList sxs) else Copy (vList sxs)
  | _, source, _ => Copy source

/-- The `Map` loop of `Merge`: fold the source entries into the target
association list. -/
def mergeMapEntries :
    List (Value × Value) → List (Value × Value) → Bool → List (Value × Value)
  | tes, [], _ => tes
  | tes, (k, sv) :: rest, appendLists =>
    match mapLookup tes k with
    | some tv => mergeMapEntries (mapStore tes k (Merge tv sv appendLists)) rest appendLists
    | none => mergeMapEntries (tes ++ [(Copy k, Copy sv)]) rest appendLists

/-- The `StringMap` loop of `Merge`. -/
def mergeSMapEntries :
    List (String × Value) → List (String × Value) → Bool → List (String × Value)
  | tes, [], _ => tes
  | tes, (k, sv) :: rest, appendLists =>
    match smLookup tes k with
    | some tv => mergeSMapEntries (smStore tes k (Merge tv sv appendLists)) rest appendLists
    | none => mergeSMapEntries (tes ++ [(k, Copy sv)]) rest appendLists

end

/-! ## Basic lemmas about the embedded operations -/

mutual

/-- `Copy` is the structural identity on the embedded universe: every
container is rebuilt with the same variant, same keys and (recursively)
equal contents. -/
theorem Copy_id (v : Value) : Copy v = v := by
  match v with
  | vMap es => rw [Copy, copyEntries_id es]
  | vStringMap es => rw [Copy, copySEntries_id es]
  | vList xs => rw [Copy, copyList_id xs]
  | vNull | vBool _ | vInt _ | vUInt _ | vFloat _ | vString _ | vBytes _ | vTime _ => simp [Copy]

theorem copyEntries_id (es : List (Value × Value)) : copyEntries es = es := by
  match es with
  | [] => rw [copyEntries]
  | (k, v) :: rest => rw [copyEntries, Copy_id v, copyEntries_id rest]

theorem copySEntries_id (es : List (String × Value)) : copySEntries es = es := by
  match es with
  | [] => rw [copySEntries]
  | (k, v) :: rest => rw [copySEntries, Copy_id v, copySEntries_id rest]

theorem copyList_id (xs : List Value) : copyList xs = xs := by
  match xs with
  | [] => rw [copyList]
  | x :: rest => rw [copyList, Copy_id x, copyList_id rest]

end

mutual

/-- On the embedded universe `ValidCopy` always succeeds, returning the
deep copy: every leaf constructor is a recognized ARD primitive, so the
reflector arm of `copy_` is never taken. -/
theorem ValidCopy_ok (v : Value) : ValidCopy v = .ok (Copy v) := by
  match v with
  | vMap es => rw [ValidCopy, validCopyEntries_ok es, Copy]
  | vStringMap es => rw [ValidCopy, validCopySEntries_ok es, Copy]
  | vList xs => rw [ValidCopy, validCopyList_ok xs, Copy]
  | vNull | vBool _ | vInt _ | vUInt _ | vFloat _ | vString _ | vBytes _ | vTime _ =>
    simp [ValidCopy, Copy, IsPrimitiveType]

theorem validCopyEntries_ok (es : List (Value × Value)) :
    validCopyEntries es = .ok (copyEntries es) := by
  match es with
  | [] => rw [validCopyEntries, copyEntries]
  | (k, v) :: rest => rw [validCopyEntries, ValidCopy_ok v, validCopyEntries_ok rest, copyEntries]

theorem validCopySEntries_ok (es : List (String × Value)) :
    validCopySEntries es = .ok (copySEntries es) := by
  match es with
  | [] => rw [validCopySEntries, copySEntries]
  | (k, v) :: rest =>
    rw [validCopySEntries, ValidCopy_ok v, validCopySEntries_ok rest, copySEntries]

theorem validCopyList_ok (xs : List Value) : validCopyList xs = .ok (copyList xs) := by
  match xs with
  | [] => rw [validCopyList, copyList]
  | x :: rest => rw [validCopyList, ValidCopy_ok x, validCopyList_ok rest, copyList]

end

/-- Go float equality is symmetric (false on both sides of a NaN). -/
theorem goFloatEq_symm (x y : GoFloat) : goFloatEq x y = goFloatEq y x := by
  cases x <;> cases y <;> simp [goFloatEq] <;> exact eq_comm

/-- Go float equality is transitive on true results. -/
theorem goFloatEq_trans {x y z : GoFloat} (h1 : goFloatEq x y = true)
    (h2 : goFloatEq y z = true) : goFloatEq x z = true := by
  cases x <;> cases y <;> simp [goFloatEq] at h1 <;> cases z <;>
    simp [goFloatEq] at h2 ⊢ <;> exact h1.trans h2

/-- Go key equality is symmetric. -/
theorem goKeyEq_symm (a b : Value) : goKeyEq a b = goKeyEq b a := by
  cases a <;> cases b <;> simp [goKeyEq] <;>
    first
      | exact eq_comm
      | exact goFloatEq_symm _ _

/-- Go key equality is transitive on true results. -/
theorem goKeyEq_trans {a b c : Value} (h1 : goKeyEq a b = true) (h2 : goKeyEq b c = true) :
    goKeyEq a c = true := by
  cases a <;> cases b <;> simp [goKeyEq] at h1 <;> cases c <;> simp [goKeyEq] at h2 ⊢ <;>
    first
      | exact h1.trans h2
      | exact goFloatEq_trans h1 h2

/-! ## Lookup and traversal lemmas -/

theorem mapLookup_mem {es : List (Value × Value)} {k v : Value}
    (h : mapLookup es k = some v) : ∃ k2, (k2, v) ∈ es ∧ goKeyEq k2 k = true := by
  induction es with
  | nil => simp [mapLookup] at h
  | cons e rest ih =>
    obtain ⟨k0, v0⟩ := e
    rw [mapLookup] at h
    by_cases hk : goKeyEq k0 k = true
    · simp [hk] at h
      exact ⟨k0, by simp [h], hk⟩
    · simp [hk] at h
      obtain ⟨k2, hmem, hk2⟩ := ih h
      exact ⟨k2, by simp [hmem], hk2⟩

theorem mapLookup_self {es : List (Value × Value)} {k v : Value}
    (hnodup : nodupKeys es = true) (hmem : (k, v) ∈ es) (hrefl : goKeyEq k k = true) :
    mapLookup es k = some v := by
  induction es with
  | nil => simp at hmem
  | cons e rest ih =>
    obtain ⟨k0, v0⟩ := e
    rw [nodupKeys] at hnodup
    simp only [Bool.and_eq_true] at hnodup
    rw [mapLookup]
    rcases List.mem_cons.mp hmem with h | h
    · obtain ⟨h1, h2⟩ := Prod.mk.injEq .. ▸ h
      simp_all
    · have hne : goKeyEq k0 k = false := by
        have := List.all_eq_true.mp hnodup.1 _ h
        simpa using this
      simp [hne]
      exact ih hnodup.2 h

theorem mapLookup_congr {es : List (Value × Value)} {k1 k2 : Value}
    (h : goKeyEq k1 k2 = true) : mapLookup es k1 = mapLookup es k2 := by
  induction es with
  | nil => simp [mapLookup]
  | cons e rest ih =>
    obtain ⟨k0, v0⟩ := e
    rw [mapLookup, mapLookup]
    by_cases hk : goKeyEq k0 k1 = true
    · rw [hk, goKeyEq_trans hk h]
      simp
    · have hk2 : goKeyEq k0 k2 = false := by
        by_contra hc
        simp only [Bool.not_eq_false] at hc
        exact hk (goKeyEq_trans hc (goKeyEq_symm k2 k1 ▸ h))
      simp only [Bool.not_eq_true] at hk
      rw [hk, hk2]
      exact ih

theorem smLookup_mem {es : List (String × Value)} {k : String} {v : Value}
    (h : smLookup es k = some v) : (k, v) ∈ es := by
  induction es with
  | nil => simp [smLookup] at h
  | cons e rest ih =>
    obtain ⟨k0, v0⟩ := e
    rw [smLookup] at h
    by_cases hk : k0 = k
    · simp [hk] at h
      simp [hk, h]
    · simp [hk] at h
      simp [ih h]

theorem smLookup_self {es : List (String × Value)} {k : String} {v : Value}
    (hnodup : sNodupKeys es = true) (hmem : (k, v) ∈ es) :
    smLookup es k = some v := by
  induction es with
  | nil => simp at hmem
  | cons e rest ih =>
    obtain ⟨k0, v0⟩ := e
    rw [sNodupKeys] at hnodup
    simp only [Bool.and_eq_true] at hnodup
    rw [smLookup]
    rcases List.mem_cons.mp hmem with h | h
    · obtain ⟨h1, h2⟩ := Prod.mk.injEq .. ▸ h
      simp_all
    · have hne : (k0 == k) = false := by
        have := List.all_eq_true.mp hnodup.1 _ h
        simpa using this
      simp [hne]
      exact ih hnodup.2 h

theorem deepAllList_mem {p : Value → Bool} {xs : List Value} {x : Value}
    (h : deepAllList p xs = true) (hm : x ∈ xs) : deepAll p x = true := by
  induction xs with
  | nil => simp at hm
  | cons y rest ih =>
    rw [deepAllList] at h
    simp only [Bool.and_eq_true] at h
    rcases List.mem_cons.mp hm with h2 | h2
    · exact h2 ▸ h.1
    · exact ih h.2 h2

theorem deepAllEntries_mem {p : Value → Bool} {es : List (Value × Value)} {e : Value × Value}
    (h : deepAllEntries p es = true) (hm : e ∈ es) :
    deepAll p e.1 = true ∧ deepAll p e.2 = true := by
  induction es with
  | nil => simp at hm
  | cons e0 rest ih =>
    obtain ⟨k, v⟩ := e0
    rw [deepAllEntries] at h
    simp only [Bool.and_eq_true] at h
    obtain ⟨⟨hk, hv⟩, hrest⟩ := h
    rcases List.mem_cons.mp hm with h2 | h2
    · rw [h2]
      exact ⟨hk, hv⟩
    · exact ih hrest h2

theorem deepAllSEntries_mem {p : Value → Bool} {es : List (String × Value)} {e : String × Value}
    (h : deepAllSEntries p es = true) (hm : e ∈ es) : deepAll p e.2 = true := by
  induction es with
  | nil => simp at hm
  | cons e0 rest ih =>
    obtain ⟨k, v⟩ := e0
    rw [deepAllSEntries] at h
    simp only [Bool.and_eq_true] at h
    rcases List.mem_cons.mp hm with h2 | h2
    · rw [h2]
      exact h.1
    · exact ih h.2 h2

/-! ## Characterizations of the Equals loops -/

theorem equalsMapEntries_true_of {es bes : List (Value × Value)}
    (h : ∀ k av, (k, av) ∈ es → ∃ bv, mapLookup bes k = some bv ∧ Equals av bv = some true) :
    equalsMapEntries es bes = some true := by
  induction es with
  | nil => rw [equalsMapEntries]
  | cons e rest ih =>
    obtain ⟨k, av⟩ := e
    obtain ⟨bv, hbv, heq⟩ := h k av (List.mem_cons_self ..)
    rw [equalsMapEntries]
    simp only [hbv, heq]
    exact ih (fun k2 av2 he => h k2 av2 (List.mem_cons_of_mem _ he))

theorem equalsMapEntries_of_true {es bes : List (Value × Value)}
    (h : equalsMapEntries es bes = some true) :
    ∀ k av, (k, av) ∈ es → ∃ bv, mapLookup bes k = some bv ∧ Equals av bv = some true := by
  induction es with
  | nil => simp
  | cons e rest ih =>
    obtain ⟨k, av⟩ := e
    rw [equalsMapEntries] at h
    intro k2 av2 he2
    rcases hl : mapLookup bes k with _ | bv
    · simp [hl] at h
    · simp only [hl] at h
      rcases he : Equals av bv with _ | b
      · simp [he] at h
      · simp only [he] at h
        cases b with
        | false => simp at h
        | true =>
          rcases List.mem_cons.mp he2 with h3 | h3
          · obtain ⟨hk2, hv2⟩ := Prod.mk.injEq .. ▸ h3
            subst hk2; subst hv2
            exact ⟨bv, hl, he⟩
          · exact ih h k2 av2 h3

theorem equalsMapEntries_ne_none {es bes : List (Value × Value)}
    (h : ∀ k av, (k, av) ∈ es → ∀ bv, mapLookup bes k = some bv → Equals av bv ≠ none) :
    equalsMapEntries es bes ≠ none := by
  induction es with
  | nil => rw [equalsMapEntries]; simp
  | cons e rest ih =>
    obtain ⟨k, av⟩ := e
    rw [equalsMapEntries]
    rcases hl : mapLookup bes k with _ | bv
    · simp
    · rcases he : Equals av bv with _ | b
      · exact absurd he (h k av (List.mem_cons_self ..) bv hl)
      · simp only [he]
        cases b with
        | false => simp
        | true => exact ih (fun k2 av2 he2 => h k2 av2 (List.mem_cons_of_mem _ he2))

theorem equalsSMapEntries_true_of {es bes : List (String × Value)}
    (h : ∀ k av, (k, av) ∈ es → ∃ bv, smLookup bes k = some bv ∧ Equals av bv = some true) :
    equalsSMapEntries es bes = some true := by
  induction es with
  | nil => rw [equalsSMapEntries]
  | cons e rest ih =>
    obtain ⟨k, av⟩ := e
    obtain ⟨bv, hbv, heq⟩ := h k av (List.mem_cons_self ..)
    rw [equalsSMapEntries]
    simp only [hbv, heq]
    exact ih (fun k2 av2 he => h k2 av2 (List.mem_cons_of_mem _ he))

theorem equalsSMapEntries_of_true {es bes : List (String × Value)}
    (h : equalsSMapEntries es bes = some true) :
    ∀ k av, (k, av) ∈ es → ∃ bv, smLookup bes k = some bv ∧ Equals av bv = some true := by
  induction es with
  | nil => simp
  | cons e rest ih =>
    obtain ⟨k, av⟩ := e
    rw [equalsSMapEntries] at h
    intro k2 av2 he2
    rcases hl : smLookup bes k with _ | bv
    · simp [hl] at h
    · simp only [hl] at h
      rcases he : Equals av bv with _ | b
      · simp [he] at h
      · simp only [he] at h
        cases b with
        | false => simp at h
        | true =>
          rcases List.mem_cons.mp he2 with h3 | h3
          · obtain ⟨hk2, hv2⟩ := Prod.mk.injEq .. ▸ h3
            subst hk2; subst hv2
            exact ⟨bv, hl, he⟩
          · exact ih h k2 av2 h3

theorem equalsSMapEntries_ne_none {es bes : List (String × Value)}
    (h : ∀ k av, (k, av) ∈ es → ∀ bv, smLookup bes k = some bv → Equals av bv ≠ none) :
    equalsSMapEntries es bes ≠ none := by
  induction es with
  | nil => rw [equalsSMapEntries]; simp
  | cons e rest ih =>
    obtain ⟨k, av⟩ := e
    rw [equalsSMapEntries]
    rcases hl : smLookup bes k with _ | bv
    · simp
    · rcases he : Equals av bv with _ | b
      · exact absurd he (h k av (List.mem_cons_self ..) bv hl)
      · simp only [he]
        cases b with
        | false => simp
        | true => exact ih (fun k2 av2 he2 => h k2 av2 (List.mem_cons_of_mem _ he2))

theorem equalsListElems_true_of : ∀ {xs ys : List Value},
    xs.length = ys.length →
    (∀ x y, (x, y) ∈ xs.zip ys → Equals x y = some true) →
    equalsListElems xs ys = some true
  | [], _, _, _ => by rw [equalsListElems]
  | x :: xs, [], hl, _ => by simp at hl
  | x :: xs, y :: ys, hl, h => by
    rw [equalsListElems]
    simp only [h x y (by simp)]
    exact equalsListElems_true_of (by simpa using hl) (fun x2 y2 hp => h x2 y2 (by simp [hp]))

theorem equalsListElems_of_true : ∀ {xs ys : List Value},
    equalsListElems xs ys = some true → ∀ x y, (x, y) ∈ xs.zip ys → Equals x y = some true
  | [], _, _, _, _, hp => by simp at hp
  | x :: xs, [], h, _, _, hp => by simp at hp
  | x :: xs, y :: ys, h, x2, y2, hp => by
    rw [equalsListElems] at h
    rcases he : Equals x y with _ | b
    · simp [he] at h
    · simp only [he] at h
      cases b with
      | false => simp at h
      | true =>
        rcases List.mem_cons.mp hp with h3 | h3
        · obtain ⟨h1, h2⟩ := Prod.mk.injEq .. ▸ h3
          subst h1; subst h2
          exact he
        · exact equalsListElems_of_true h x2 y2 h3

theorem equalsListElems_ne_none : ∀ {xs ys : List Value},
    (∀ x y, (x, y) ∈ xs.zip ys → Equals x y ≠ none) → equalsListElems xs ys ≠ none
  | [], ys, _ => by rw [equalsListElems]; exact fun hc => Option.noConfusion hc
  | x :: xs, [], _ => by rw [equalsListElems]; exact fun hc => Option.noConfusion hc
  | x :: xs, y :: ys, h => by
    rw [equalsListElems]
    rcases he : Equals x y with _ | b
    · exact absurd he (h x y (by simp))
    · cases b with
      | false => simp
      | true => exact equalsListElems_ne_none (fun x2 y2 hp => h x2 y2 (by simp [hp]))

/-! ## The panic-free, NaN-free fragment for equality claims -/

/-- Local safety for `Equals` claims: representable as a Go map tree
(`localWF`), no byte slices (Go `==` panics on two slices), no NaN floats
(`NaN == NaN` is false). -/
def eqSafeLocal (v : Value) : Bool := localWF v && noBytesLeaf v && noNanLeaf v

/-- Every node of the tree satisfies `eqSafeLocal`. -/
def eqSafe (v : Value) : Bool := deepAll eqSafeLocal v

/-- On a comparable (hence leaf) value, `deepAll` is just the local
predicate. -/
theorem deepAll_leaf {p : Value → Bool} {k : Value} (hc : isComparable k = true) :
    deepAll p k = p k := by
  cases k <;> simp_all [deepAll, isComparable]

/-- Go key equality is reflexive on comparable non-NaN values. -/
theorem goKeyEq_refl {k : Value} (hc : isComparable k = true) (hn : noNanLeaf k = true) :
    goKeyEq k k = true := by
  cases k <;> simp_all [isComparable, goKeyEq]
  rename_i f
  cases f
  · simp [noNanLeaf] at hn
  · simp [goFloatEq]

/-- Go interface equality (the `default` arm of `Equals`) is symmetric,
panics included. -/
theorem goEqDefault_symm (a b : Value) : goEqDefault a b = goEqDefault b a := by
  cases a <;> cases b <;> simp [goEqDefault] <;>
    first
      | exact eq_comm
      | exact goFloatEq_symm _ _

/-- Unpacking `eqSafe` at a `Map` node. -/
theorem eqSafe_map_parts {es : List (Value × Value)} (h : eqSafe (vMap es) = true) :
    nodupKeys es = true ∧
    (∀ k v, (k, v) ∈ es →
      isComparable k = true ∧ goKeyEq k k = true ∧ eqSafe k = true ∧ eqSafe v = true) := by
  rw [eqSafe, deepAll] at h
  simp only [Bool.and_eq_true] at h
  obtain ⟨hlocal, hentries⟩ := h
  rw [eqSafeLocal, localWF] at hlocal
  simp only [Bool.and_eq_true] at hlocal
  obtain ⟨⟨⟨hcomp, hnodup⟩, _⟩, _⟩ := hlocal
  refine ⟨hnodup, fun k v hm => ?_⟩
  have hc : isComparable k = true := by
    have := List.all_eq_true.mp hcomp _ hm
    simpa using this
  have hk : eqSafe k = true := (deepAllEntries_mem hentries hm).1
  have hv : eqSafe v = true := (deepAllEntries_mem hentries hm).2
  have hn : noNanLeaf k = true := by
    rw [eqSafe, deepAll_leaf hc, eqSafeLocal] at hk
    simp only [Bool.and_eq_true] at hk
    exact hk.2
  exact ⟨hc, goKeyEq_refl hc hn, hk, hv⟩

/-- Unpacking `eqSafe` at a `StringMap` node. -/
theorem eqSafe_smap_parts {es : List (String × Value)} (h : eqSafe (vStringMap es) = true) :
    sNodupKeys es = true ∧ (∀ k v, (k, v) ∈ es → eqSafe v = true) := by
  rw [eqSafe, deepAll] at h
  simp only [Bool.and_eq_true] at h
  obtain ⟨hlocal, hentries⟩ := h
  rw [eqSafeLocal, localWF] at hlocal
  simp only [Bool.and_eq_true] at hlocal
  exact ⟨hlocal.1.1, fun k v hm => deepAllSEntries_mem hentries hm⟩

/-- Unpacking `eqSafe` at a `List` node. -/
theorem eqSafe_list_parts {xs : List Value} (h : eqSafe (vList xs) = true) :
    ∀ x ∈ xs, eqSafe x = true := by
  rw [eqSafe, deepAll] at h
  simp only [Bool.and_eq_true] at h
  exact fun x hx => deepAllList_mem h.2 hx

/-- A list zipped with itself pairs each element with itself. -/
theorem zip_self_diag {xs : List Value} {x y : Value} (h : (x, y) ∈ xs.zip xs) :
    x = y ∧ x ∈ xs := by
  induction xs with
  | nil => simp at h
  | cons z rest ih =>
    rw [List.zip_cons_cons] at h
    rcases List.mem_cons.mp h with h2 | h2
    · obtain ⟨h3, h4⟩ := Prod.mk.injEq .. ▸ h2
      subst h3; subst h4
      exact ⟨rfl, List.mem_cons_self ..⟩
    · obtain ⟨h3, h4⟩ := ih h2
      exact ⟨h3, List.mem_cons_of_mem _ h4⟩

/-- Size bookkeeping: the value of a map entry is smaller than the map. -/
theorem sizeOf_val_lt_map {es : List (Value × Value)} {k v : Value} (h : (k, v) ∈ es) :
    sizeOf v < sizeOf (vMap es) := by
  have h1 : sizeOf (k, v) < sizeOf es := List.sizeOf_lt_of_mem h
  have h2 : sizeOf v < sizeOf (k, v) := by simp
  simp only [vMap.sizeOf_spec]
  omega

/-- Size bookkeeping: the key of a map entry is smaller than the map. -/
theorem sizeOf_key_lt_map {es : List (Value × Value)} {k v : Value} (h : (k, v) ∈ es) :
    sizeOf k < sizeOf (vMap es) := by
  have h1 : sizeOf (k, v) < sizeOf es := List.sizeOf_lt_of_mem h
  have h2 : sizeOf k < sizeOf (k, v) := by simp only [Prod.mk.sizeOf_spec]; omega
  simp only [vMap.sizeOf_spec]
  omega

/-- Size bookkeeping: the value of a string-map entry is smaller than the
map. -/
theorem sizeOf_val_lt_smap {es : List (String × Value)} {k : String} {v : Value}
    (h : (k, v) ∈ es) : sizeOf v < sizeOf (vStringMap es) := by
  have h1 : sizeOf (k, v) < sizeOf es := List.sizeOf_lt_of_mem h
  have h2 : sizeOf v < sizeOf (k, v) := by simp
  simp only [vStringMap.sizeOf_spec]
  omega

/-- Size bookkeeping: a list element is smaller than the list value. -/
theorem sizeOf_elem_lt_list {xs : List Value} {x : Value} (h : x ∈ xs) :
    sizeOf x < sizeOf (vList xs) := by
  have h1 : sizeOf x < sizeOf xs := List.sizeOf_lt_of_mem h
  simp only [vList.sizeOf_spec]
  omega

/-- In Go, zipping pairs positionally, so membership in a zip is symmetric
under swapping both the pair and the lists. -/
theorem mem_zip_swap : ∀ {xs ys : List Value} {x y : Value},
    (y, x) ∈ ys.zip xs → (x, y) ∈ xs.zip ys
  | [], ys, x, y, h => by simp [List.zip_nil_right] at h
  | x0 :: xs, [], x, y, h => by simp at h
  | x0 :: xs, y0 :: ys, x, y, h => by
    rw [List.zip_cons_cons] at h ⊢
    rcases List.mem_cons.mp h with h2 | h2
    · obtain ⟨h3, h4⟩ := Prod.mk.injEq .. ▸ h2
      subst h3; subst h4
      exact List.mem_cons_self ..
    · exact List.mem_cons_of_mem _ (mem_zip_swap h2)

/-- `Equals` is reflexive on the safe fragment (size-bounded induction). -/
theorem equals_refl_bounded :
    ∀ (n : Nat) (v : Value), sizeOf v ≤ n → eqSafe v = true → Equals v v = some true := by
  intro n
  induction n with
  | zero =>
    intro v hs _
    cases v <;> simp at hs
  | succ n ih =>
    intro v hs he
    cases v
    case vBytes bs => simp [eqSafe, deepAll, eqSafeLocal, noBytesLeaf] at he
    case vFloat f =>
      cases f
      · simp [eqSafe, deepAll, eqSafeLocal, noNanLeaf] at he
      · simp [Equals, goEqDefault, goFloatEq]
    case vList xs =>
      have hparts := eqSafe_list_parts he
      simp only [Equals]
      rw [if_neg (by simp)]
      apply equalsListElems_true_of rfl
      intro x y hp
      obtain ⟨hxy, hx⟩ := zip_self_diag hp
      subst hxy
      have hsz := sizeOf_elem_lt_list hx
      exact ih x (by omega) (hparts x hx)
    case vMap es =>
      obtain ⟨hnodup, hparts⟩ := eqSafe_map_parts he
      simp only [Equals]
      rw [if_neg (by simp)]
      have hcont : keysContained es es = true := by
        rw [keysContained]
        apply List.all_eq_true.mpr
        intro e hm
        obtain ⟨k, v⟩ := e
        obtain ⟨_, hkr, _, _⟩ := hparts k v hm
        simp [mapLookup_self hnodup hm hkr]
      rw [if_neg (by simp [hcont])]
      apply equalsMapEntries_true_of
      intro k av hm
      obtain ⟨_, hkr, _, hv⟩ := hparts k av hm
      have hsz := sizeOf_val_lt_map hm
      exact ⟨av, mapLookup_self hnodup hm hkr, ih av (by omega) hv⟩
    case vStringMap es =>
      obtain ⟨hnodup, hparts⟩ := eqSafe_smap_parts he
      simp only [Equals]
      rw [if_neg (by simp)]
      have hcont : sKeysContained es es = true := by
        rw [sKeysContained]
        apply List.all_eq_true.mpr
        intro e hm
        obtain ⟨k, v⟩ := e
        simp [smLookup_self hnodup hm]
      rw [if_neg (by simp [hcont])]
      apply equalsSMapEntries_true_of
      intro k av hm
      have hsz := sizeOf_val_lt_smap hm
      exact ⟨av, smLookup_self hnodup hm, ih av (by omega) (hparts k av hm)⟩
    all_goals simp [Equals, goEqDefault]

/-- `Equals` never panics on the safe fragment (size-bounded induction). -/
theorem equals_ne_none_bounded :
    ∀ (n : Nat) (a b : Value), sizeOf a + sizeOf b ≤ n → eqSafe a = true → eqSafe b = true →
      Equals a b ≠ none := by
  intro n
  induction n with
  | zero =>
    intro a b hs _ _
    exfalso
    cases a <;> simp at hs <;> omega
  | succ n ih =>
    intro a b hs ha hb
    cases a
    case vBytes bs => simp [eqSafe, deepAll, eqSafeLocal, noBytesLeaf] at ha
    case vMap aes =>
      cases b
      case vMap bes =>
        simp only [Equals]
        by_cases h1 : (aes.length != bes.length) = true
        · rw [if_pos h1]; simp
        · rw [if_neg h1]
          by_cases h2 : (!keysContained bes aes) = true
          · rw [if_pos h2]; simp
          · rw [if_neg h2]
            apply equalsMapEntries_ne_none
            intro k av hm bv hlk
            obtain ⟨_, hpartsA⟩ := eqSafe_map_parts ha
            obtain ⟨_, hpartsB⟩ := eqSafe_map_parts hb
            obtain ⟨_, _, _, hav⟩ := hpartsA k av hm
            obtain ⟨k2, hm2, _⟩ := mapLookup_mem hlk
            have hbv : eqSafe bv = true := (hpartsB k2 bv hm2).2.2.2
            have s1 := sizeOf_val_lt_map hm
            have s2 := sizeOf_val_lt_map hm2
            exact ih av bv (by omega) hav hbv
      all_goals simp [Equals]
    case vStringMap aes =>
      cases b
      case vStringMap bes =>
        simp only [Equals]
        by_cases h1 : (aes.length != bes.length) = true
        · rw [if_pos h1]; simp
        · rw [if_neg h1]
          by_cases h2 : (!sKeysContained bes aes) = true
          · rw [if_pos h2]; simp
          · rw [if_neg h2]
            apply equalsSMapEntries_ne_none
            intro k av hm bv hlk
            obtain ⟨_, hpartsA⟩ := eqSafe_smap_parts ha
            obtain ⟨_, hpartsB⟩ := eqSafe_smap_parts hb
            have hav : eqSafe av = true := hpartsA k av hm
            have hm2 := smLookup_mem hlk
            have hbv : eqSafe bv = true := hpartsB k bv hm2
            have s1 := sizeOf_val_lt_smap hm
            have s2 := sizeOf_val_lt_smap hm2
            exact ih av bv (by omega) hav hbv
      all_goals simp [Equals]
    case vList xs =>
      cases b
      case vList ys =>
        simp only [Equals]
        by_cases h1 : (xs.length != ys.length) = true
        · rw [if_pos h1]; simp
        · rw [if_neg h1]
          apply equalsListElems_ne_none
          intro x y hp
          obtain ⟨hx, hy⟩ := List.of_mem_zip hp
          have s1 := sizeOf_elem_lt_list hx
          have s2 := sizeOf_elem_lt_list hy
          exact ih x y (by omega) (eqSafe_list_parts ha x hx) (eqSafe_list_parts hb y hy)
      all_goals simp [Equals]
    all_goals (cases b <;> simp [Equals, goEqDefault])

/-- A true `Equals` verdict transfers to the swapped arguments on the safe
fragment (size-bounded induction). -/
theorem equals_true_symm_bounded :
    ∀ (n : Nat) (a b : Value), sizeOf a + sizeOf b ≤ n → eqSafe a = true → eqSafe b = true →
      Equals a b = some true → Equals b a = some true := by
  intro n
  induction n with
  | zero =>
    intro a b hs _ _ _
    exfalso
    cases a <;> simp at hs <;> omega
  | succ n ih =>
    intro a b hs ha hb heq
    cases a
    case vBytes bs => simp [eqSafe, deepAll, eqSafeLocal, noBytesLeaf] at ha
    case vMap aes =>
      cases b
      case vMap bes =>
        simp only [Equals] at heq
        by_cases h1 : (aes.length != bes.length) = true
        · rw [if_pos h1] at heq; simp at heq
        · rw [if_neg h1] at heq
          by_cases h2 : (!keysContained bes aes) = true
          · rw [if_pos h2] at heq; simp at heq
          · rw [if_neg h2] at heq
            obtain ⟨hnodupA, hpartsA⟩ := eqSafe_map_parts ha
            obtain ⟨hnodupB, hpartsB⟩ := eqSafe_map_parts hb
            have hlen : aes.length = bes.length := by simpa using h1
            have hfwd := equalsMapEntries_of_true heq
            simp only [Equals]
            rw [if_neg (by simp [hlen])]
            have hcontBA : keysContained aes bes = true := by
              rw [keysContained]
              apply List.all_eq_true.mpr
              intro e hm
              obtain ⟨k, av⟩ := e
              obtain ⟨bv, hbv, _⟩ := hfwd k av hm
              simp [hbv]
            rw [if_neg (by simp [hcontBA])]
            apply equalsMapEntries_true_of
            intro k bv hm
            have h2' : keysContained bes aes = true := by
              revert h2
              cases keysContained bes aes <;> simp
            have hsome : (mapLookup aes k).isSome = true := by
              have := List.all_eq_true.mp h2' (k, bv) hm
              simpa using this
            rcases hlk : mapLookup aes k with _ | av
            · rw [hlk] at hsome; simp at hsome
            · obtain ⟨k2, hm2, hk2⟩ := mapLookup_mem hlk
              obtain ⟨bv2, hbv2, heqv⟩ := hfwd k2 av hm2
              have hkk : goKeyEq k k = true := (hpartsB k bv hm).2.1
              have hlkB : mapLookup bes k2 = mapLookup bes k := mapLookup_congr hk2
              have hlkB2 : mapLookup bes k = some bv := mapLookup_self hnodupB hm hkk
              rw [hlkB, hlkB2] at hbv2
              have hbv2eq : bv = bv2 := Option.some.inj hbv2
              rw [← hbv2eq] at heqv
              have hsafeav : eqSafe av = true := (hpartsA k2 av hm2).2.2.2
              have hsafebv : eqSafe bv = true := (hpartsB k bv hm).2.2.2
              have s1 := sizeOf_val_lt_map hm2
              have s2 := sizeOf_val_lt_map hm
              exact ⟨av, rfl, ih av bv (by omega) hsafeav hsafebv heqv⟩
      all_goals simp [Equals] at heq
    case vStringMap aes =>
      cases b
      case vStringMap bes =>
        simp only [Equals] at heq
        by_cases h1 : (aes.length != bes.length) = true
        · rw [if_pos h1] at heq; simp at heq
        · rw [if_neg h1] at heq
          by_cases h2 : (!sKeysContained bes aes) = true
          · rw [if_pos h2] at heq; simp at heq
          · rw [if_neg h2] at heq
            obtain ⟨hnodupA, hpartsA⟩ := eqSafe_smap_parts ha
            obtain ⟨hnodupB, hpartsB⟩ := eqSafe_smap_parts hb
            have hlen : aes.length = bes.length := by simpa using h1
            have hfwd := equalsSMapEntries_of_true heq
            simp only [Equals]
            rw [if_neg (by simp [hlen])]
            have hcontBA : sKeysContained aes bes = true := by
              rw [sKeysContained]
              apply List.all_eq_true.mpr
              intro e hm
              obtain ⟨k, av⟩ := e
              obtain ⟨bv, hbv, _⟩ := hfwd k av hm
              simp [hbv]
            rw [if_neg (by simp [hcontBA])]
            apply equalsSMapEntries_true_of
            intro k bv hm
            have h2' : sKeysContained bes aes = true := by
              revert h2
              cases sKeysContained bes aes <;> simp
            have hsome : (smLookup aes k).isSome = true := by
              have := List.all_eq_true.mp h2' (k, bv) hm
              simpa using this
            rcases hlk : smLookup aes k with _ | av
            · rw [hlk] at hsome; simp at hsome
            · have hm2 := smLookup_mem hlk
              obtain ⟨bv2, hbv2, heqv⟩ := hfwd k av hm2
              have hlkB2 : smLookup bes k = some bv := smLookup_self hnodupB hm
              rw [hlkB2] at hbv2
              have hbv2eq : bv = bv2 := Option.some.inj hbv2
              rw [← hbv2eq] at heqv
              have hsafeav : eqSafe av = true := hpartsA k av hm2
              have hsafebv : eqSafe bv = true := hpartsB k bv hm
              have s1 := sizeOf_val_lt_smap hm2
              have s2 := sizeOf_val_lt_smap hm
              exact ⟨av, rfl, ih av bv (by omega) hsafeav hsafebv heqv⟩
      all_goals simp [Equals] at heq
    case vList xs =>
      cases b
      case vList ys =>
        simp only [Equals] at heq
        by_cases h1 : (xs.length != ys.length) = true
        · rw [if_pos h1] at heq; simp at heq
        · rw [if_neg h1] at heq
          have hlen : xs.length = ys.length := by simpa using h1
          simp only [Equals]
          rw [if_neg (by simp [hlen])]
          apply equalsListElems_true_of hlen.symm
          intro y x hp
          have hp2 := mem_zip_swap hp
          obtain ⟨hx, hy⟩ := List.of_mem_zip hp2
          have s1 := sizeOf_elem_lt_list hx
          have s2 := sizeOf_elem_lt_list hy
          exact ih x y (by omega) (eqSafe_list_parts ha x hx) (eqSafe_list_parts hb y hy)
            (equalsListElems_of_true heq x y hp2)
      all_goals simp [Equals] at heq
    all_goals
      (cases b <;> simp [Equals, goEqDefault] at heq ⊢ <;>
        first
          | exact heq.symm
          | (rw [goFloatEq_symm]; exact heq))

/-! ## Lookup lemmas for merge -/

theorem mapLookup_append_left {tes zs : List (Value × Value)} {k tv : Value}
    (h : mapLookup tes k = some tv) : mapLookup (tes ++ zs) k = some tv := by
  induction tes with
  | nil => simp [mapLookup] at h
  | cons e rest ih =>
    obtain ⟨k0, v0⟩ := e
    rw [mapLookup] at h
    rw [List.cons_append, mapLookup]
    by_cases hk : goKeyEq k0 k = true
    · simp [hk] at h ⊢
      exact h
    · simp [hk] at h ⊢
      exact ih h

theorem mapLookup_append_right {tes zs : List (Value × Value)} {k : Value}
    (h : mapLookup tes k = none) : mapLookup (tes ++ zs) k = mapLookup zs k := by
  induction tes with
  | nil => simp
  | cons e rest ih =>
    obtain ⟨k0, v0⟩ := e
    rw [mapLookup] at h
    rw [List.cons_append, mapLookup]
    by_cases hk : goKeyEq k0 k = true
    · simp [hk] at h
    · simp [hk] at h ⊢
      exact ih h

theorem mapStore_lookup_indep {tes : List (Value × Value)} {ke k v : Value}
    (h : goKeyEq ke k = false) : mapLookup (mapStore tes ke v) k = mapLookup tes k := by
  induction tes with
  | nil => simp [mapStore, mapLookup, h]
  | cons e rest ih =>
    obtain ⟨k0, v0⟩ := e
    rw [mapStore]
    by_cases hk : goKeyEq k0 ke = true
    · rw [if_pos hk, mapLookup, mapLookup]
      have hk0 : goKeyEq k0 k = false := by
        by_contra hc
        simp only [Bool.not_eq_false] at hc
        have := goKeyEq_trans (goKeyEq_symm ke k0 ▸ hk) hc
        simp [this] at h
      simp [hk0]
    · rw [if_neg hk, mapLookup, mapLookup]
      by_cases hk0 : goKeyEq k0 k = true
      · simp [hk0]
      · simp only [Bool.not_eq_true] at hk0
        simp [hk0, ih]

theorem mapStore_lookup_found {tes : List (Value × Value)} {ke k tv v : Value}
    (h : mapLookup tes ke = some tv) (hk : goKeyEq ke k = true) :
    mapLookup (mapStore tes ke v) k = some v := by
  induction tes with
  | nil => simp [mapLookup] at h
  | cons e rest ih =>
    obtain ⟨k0, v0⟩ := e
    rw [mapLookup] at h
    rw [mapStore]
    by_cases hk0 : goKeyEq k0 ke = true
    · rw [if_pos hk0, mapLookup]
      have : goKeyEq k0 k = true := goKeyEq_trans hk0 hk
      simp [this]
    · rw [if_neg hk0, mapLookup]
      simp only [Bool.not_eq_true] at hk0
      simp only [hk0] at h
      have hk0k : goKeyEq k0 k = false := by
        by_contra hc
        simp only [Bool.not_eq_false] at hc
        have := goKeyEq_trans hc (goKeyEq_symm ke k ▸ hk)
        simp [this] at hk0
      simp only [Bool.false_eq_true, if_false] at h
      simp [hk0k]
      exact ih h

/-- If the head key of a duplicate-free map matches `k`, the rest of the
map cannot contain another key matching `k`. -/
theorem nodup_rest_lookup_none {ke sv k : Value} {rest : List (Value × Value)}
    (hnodup : nodupKeys ((ke, sv) :: rest) = true) (hk : goKeyEq ke k = true) :
    mapLookup rest k = none := by
  rw [nodupKeys] at hnodup
  simp only [Bool.and_eq_true] at hnodup
  rcases hl : mapLookup rest k with _ | v
  · rfl
  · exfalso
    obtain ⟨k2, hm2, hk2⟩ := mapLookup_mem hl
    have hke2 : goKeyEq ke k2 = true :=
      goKeyEq_trans hk (goKeyEq_symm k2 k ▸ hk2)
    have := List.all_eq_true.mp hnodup.1 _ hm2
    simp [hke2] at this

theorem smLookup_append_left {tes zs : List (String × Value)} {k : String} {tv : Value}
    (h : smLookup tes k = some tv) : smLookup (tes ++ zs) k = some tv := by
  induction tes with
  | nil => simp [smLookup] at h
  | cons e rest ih =>
    obtain ⟨k0, v0⟩ := e
    rw [smLookup] at h
    rw [List.cons_append, smLookup]
    by_cases hk : k0 = k
    · simp [hk] at h ⊢
      exact h
    · simp [hk] at h ⊢
      exact ih h

theorem smLookup_append_right {tes zs : List (String × Value)} {k : String}
    (h : smLookup tes k = none) : smLookup (tes ++ zs) k = smLookup zs k := by
  induction tes with
  | nil => simp
  | cons e rest ih =>
    obtain ⟨k0, v0⟩ := e
    rw [smLookup] at h
    rw [List.cons_append, smLookup]
    by_cases hk : k0 = k
    · simp [hk] at h
    · simp [hk] at h ⊢
      exact ih h

theorem smStore_lookup_indep {tes : List (String × Value)} {ke k : String} {v : Value}
    (h : ke ≠ k) : smLookup (smStore tes ke v) k = smLookup tes k := by
  induction tes with
  | nil => simp [smStore, smLookup, h]
  | cons e rest ih =>
    obtain ⟨k0, v0⟩ := e
    rw [smStore]
    by_cases hk : k0 = ke
    · subst hk
      rw [if_pos (by simp), smLookup, smLookup]
      simp [h, ih]
    · rw [if_neg (by simpa using hk), smLookup, smLookup]
      simp [ih]

theorem smStore_lookup_found {tes : List (String × Value)} {ke : String} {tv v : Value}
    (h : smLookup tes ke = some tv) :
    smLookup (smStore tes ke v) ke = some v := by
  induction tes with
  | nil => simp [smLookup] at h
  | cons e rest ih =>
    obtain ⟨k0, v0⟩ := e
    rw [smLookup] at h
    rw [smStore]
    by_cases hk0 : k0 = ke
    · subst hk0
      rw [if_pos (by simp), smLookup]
      simp
    · rw [if_neg (by simpa using hk0), smLookup]
      simp only [beq_iff_eq, hk0, if_false] at h ⊢
      exact ih h

theorem snodup_rest_lookup_none {ke : String} {sv : Value} {rest : List (String × Value)}
    (hnodup : sNodupKeys ((ke, sv) :: rest) = true) :
    smLookup rest ke = none := by
  rw [sNodupKeys] at hnodup
  simp only [Bool.and_eq_true] at hnodup
  rcases hl : smLookup rest ke with _ | v
  · rfl
  · exfalso
    have hm2 := smLookup_mem hl
    have := List.all_eq_true.mp hnodup.1 _ hm2
    simp at this

/-! ## Behavior of the merge loops under lookup -/

/-- A key absent from the source is untouched by the merge loop. -/
theorem mergeMap_target_only : ∀ (ses tes : List (Value × Value)) (ap : Bool) (k : Value),
    mapLookup ses k = none →
    mapLookup (mergeMapEntries tes ses ap) k = mapLookup tes k
  | [], tes, ap, k, _ => by rw [mergeMapEntries]
  | (ke, sv) :: rest, tes, ap, k, h => by
    rw [mapLookup] at h
    by_cases hk : goKeyEq ke k = true
    · simp [hk] at h
    · simp only [Bool.not_eq_true] at hk
      rw [if_neg (by simp [hk])] at h
      rw [mergeMapEntries]
      rcases hl : mapLookup tes ke with _ | tv
      · simp only [hl]
        rw [mergeMap_target_only rest _ ap k h]
        rw [Copy_id, Copy_id]
        exact mapLookup_append_left' hk
      · simp only [hl]
        rw [mergeMap_target_only rest _ ap k h]
        exact mapStore_lookup_indep hk
where
  /-- Appending a non-matching binding does not change a lookup. -/
  mapLookup_append_left' {tes : List (Value × Value)} {ke sv k : Value}
      (hk : goKeyEq ke k = false) :
      mapLookup (tes ++ [(ke, sv)]) k = mapLookup tes k := by
    rcases hl : mapLookup tes k with _ | tv
    · rw [mapLookup_append_right hl, mapLookup]
      simp [hk, mapLookup]
    · exact mapLookup_append_left hl

/-- A key present in both maps ends up bound to the recursive merge of the
two values. -/
theorem mergeMap_both : ∀ (ses tes : List (Value × Value)) (ap : Bool) (k tv sv : Value),
    nodupKeys ses = true →
    mapLookup tes k = some tv → mapLookup ses k = some sv →
    mapLookup (mergeMapEntries tes ses ap) k = some (Merge tv sv ap)
  | [], tes, ap, k, tv, sv, _, _, hs => by simp [mapLookup] at hs
  | (ke, sve) :: rest, tes, ap, k, tv, sv, hnodup, ht, hs => by
    rw [mapLookup] at hs
    by_cases hk : goKeyEq ke k = true
    · simp only [hk, if_pos] at hs
      have hsv : sve = sv := by simpa using hs
      subst hsv
      have hrest : mapLookup rest k = none := nodup_rest_lookup_none hnodup hk
      have hte : mapLookup tes ke = some tv := by
        rw [mapLookup_congr hk, ht]
      rw [mergeMapEntries]
      simp only [hte]
      rw [mergeMap_target_only rest _ ap k hrest]
      exact mapStore_lookup_found hte hk
    · simp only [Bool.not_eq_true] at hk
      rw [if_neg (by simp [hk])] at hs
      rw [nodupKeys] at hnodup
      simp only [Bool.and_eq_true] at hnodup
      rw [mergeMapEntries]
      rcases hl : mapLookup tes ke with _ | tv2
      · simp only [hl]
        refine mergeMap_both rest _ ap k tv sv hnodup.2 ?_ hs
        rw [Copy_id, Copy_id, mergeMap_target_only.mapLookup_append_left' hk]
        exact ht
      · simp only [hl]
        refine mergeMap_both rest _ ap k tv sv hnodup.2 ?_ hs
        rw [mapStore_lookup_indep hk]
        exact ht

/-- A key present only in the source is copied into the target. -/
theorem mergeMap_source_only : ∀ (ses tes : List (Value × Value)) (ap : Bool) (k sv : Value),
    nodupKeys ses = true →
    mapLookup tes k = none → mapLookup ses k = some sv →
    mapLookup (mergeMapEntries tes ses ap) k = some sv
  | [], tes, ap, k, sv, _, _, hs => by simp [mapLookup] at hs
  | (ke, sve) :: rest, tes, ap, k, sv, hnodup, ht, hs => by
    rw [mapLookup] at hs
    by_cases hk : goKeyEq ke k = true
    · simp only [hk, if_pos] at hs
      have hsv : sve = sv := by simpa using hs
      subst hsv
      have hrest : mapLookup rest k = none := nodup_rest_lookup_none hnodup hk
      have hte : mapLookup tes ke = none := by
        rw [mapLookup_congr hk, ht]
      rw [mergeMapEntries]
      simp only [hte]
      rw [mergeMap_target_only rest _ ap k hrest]
      rw [Copy_id, Copy_id]
      rw [mapLookup_append_right ht, mapLookup]
      simp [hk, mapLookup]
    · simp only [Bool.not_eq_true] at hk
      rw [if_neg (by simp [hk])] at hs
      rw [nodupKeys] at hnodup
      simp only [Bool.and_eq_true] at hnodup
      rw [mergeMapEntries]
      rcases hl : mapLookup tes ke with _ | tv2
      · simp only [hl]
        refine mergeMap_source_only rest _ ap k sv hnodup.2 ?_ hs
        rw [Copy_id, Copy_id, mergeMap_target_only.mapLookup_append_left' hk]
        exact ht
      · simp only [hl]
        refine mergeMap_source_only rest _ ap k sv hnodup.2 ?_ hs
        rw [mapStore_lookup_indep hk]
        exact ht

/-- `StringMap` variant of `mergeMap_target_only`. -/
theorem mergeSMap_target_only : ∀ (ses tes : List (String × Value)) (ap : Bool) (k : String),
    smLookup ses k = none →
    smLookup (mergeSMapEntries tes ses ap) k = smLookup tes k
  | [], tes, ap, k, _ => by rw [mergeSMapEntries]
  | (ke, sv) :: rest, tes, ap, k, h => by
    rw [smLookup] at h
    by_cases hk : ke = k
    · simp [hk] at h
    · rw [if_neg (by simpa using hk)] at h
      rw [mergeSMapEntries]
      rcases hl : smLookup tes ke with _ | tv
      · simp only [hl]
        rw [mergeSMap_target_only rest _ ap k h]
        rw [Copy_id]
        exact smLookup_append_left' hk
      · simp only [hl]
        rw [mergeSMap_target_only rest _ ap k h]
        exact smStore_lookup_indep hk
where
  /-- Appending a non-matching binding does not change a string lookup. -/
  smLookup_append_left' {tes : List (String × Value)} {ke k : String} {sv : Value}
      (hk : ke ≠ k) :
      smLookup (tes ++ [(ke, sv)]) k = smLookup tes k := by
    rcases hl : smLookup tes k with _ | tv
    · rw [smLookup_append_right hl, smLookup]
      simp [hk, smLookup]
    · exact smLookup_append_left hl

/-- `StringMap` variant of `mergeMap_both`. -/
theorem mergeSMap_both : ∀ (ses tes : List (String × Value)) (ap : Bool) (k : String)
    (tv sv : Value),
    sNodupKeys ses = true →
    smLookup tes k = some tv → smLookup ses k = some sv →
    smLookup (mergeSMapEntries tes ses ap) k = some (Merge tv sv ap)
  | [], tes, ap, k, tv, sv, _, _, hs => by simp [smLookup] at hs
  | (ke, sve) :: rest, tes, ap, k, tv, sv, hnodup, ht, hs => by
    rw [smLookup] at hs
    by_cases hk : ke = k
    · subst hk
      simp only [beq_self_eq_true, if_pos] at hs
      have hsv : sve = sv := by simpa using hs
      subst hsv
      have hrest : smLookup rest ke = none := snodup_rest_lookup_none hnodup
      have hte : smLookup tes ke = some tv := ht
      rw [mergeSMapEntries]
      simp only [hte]
      rw [mergeSMap_target_only rest _ ap ke hrest]
      exact smStore_lookup_found hte
    · rw [if_neg (by simpa using hk)] at hs
      rw [sNodupKeys] at hnodup
      simp only [Bool.and_eq_true] at hnodup
      rw [mergeSMapEntries]
      rcases hl : smLookup tes ke with _ | tv2
      · simp only [hl]
        refine mergeSMap_both rest _ ap k tv sv hnodup.2 ?_ hs
        rw [Copy_id, mergeSMap_target_only.smLookup_append_left' hk]
        exact ht
      · simp only [hl]
        refine mergeSMap_both rest _ ap k tv sv hnodup.2 ?_ hs
        rw [smStore_lookup_indep hk]
        exact ht

/-- `StringMap` variant of `mergeMap_source_only`. -/
theorem mergeSMap_source_only : ∀ (ses tes : List (String × Value)) (ap : Bool) (k : String)
    (sv : Value),
    sNodupKeys ses = true →
    smLookup tes k = none → smLookup ses k = some sv →
    smLookup (mergeSMapEntries tes ses ap) k = some sv
  | [], tes, ap, k, sv, _, _, hs => by simp [smLookup] at hs
  | (ke, sve) :: rest, tes, ap, k, sv, hnodup, ht, hs => by
    rw [smLookup] at hs
    by_cases hk : ke = k
    · subst hk
      simp only [beq_self_eq_true, if_pos] at hs
      have hsv : sve = sv := by simpa using hs
      subst hsv
      have hrest : smLookup rest ke = none := snodup_rest_lookup_none hnodup
      rw [mergeSMapEntries]
      simp only [ht]
      rw [mergeSMap_target_only rest _ ap ke hrest]
      rw [Copy_id]
      rw [smLookup_append_right ht, smLookup]
      simp [smLookup]
    · rw [if_neg (by simpa using hk)] at hs
      rw [sNodupKeys] at hnodup
      simp only [Bool.and_eq_true] at hnodup
      rw [mergeSMapEntries]
      rcases hl : smLookup tes ke with _ | tv2
      · simp only [hl]
        refine mergeSMap_source_only rest _ ap k sv hnodup.2 ?_ hs
        rw [Copy_id, mergeSMap_target_only.smLookup_append_left' hk]
        exact ht
      · simp only [hl]
        refine mergeSMap_source_only rest _ ap k sv hnodup.2 ?_ hs
        rw [smStore_lookup_indep hk]
        exact ht

/-! ## Allocation-instrumented model

To state the no-aliasing guarantees of `Copy` and `Merge` — properties
about Go heap identity that a pure value tree cannot express — values are
re-embedded with an explicit allocation identity on every container
(`AVal`).  `copyA`/`mergeA` are `copy_`/`Merge` instrumented to draw fresh
identities from a counter: every `make(Map)`, `make(StringMap)` and
`make(List)` in the source corresponds to one fresh identity.  "The result
does not alias container X" is then "the identities of the result are
disjoint from the identities of X"; `eraseA` recovers the plain value. -/

/-- A Go value with an allocation identity on every container.  Leaves
(primitives) are copied by value in Go and carry no identity. -/
inductive AVal where
  | aLeaf : Value → AVal
  | aList : Nat → List AVal → AVal
  | aMap : Nat → List (AVal × AVal) → AVal
  | aSMap : Nat → List (String × AVal) → AVal

mutual

/-- The allocation identities of every container in the tree. -/
def idsA : AVal → List Nat
  | .aLeaf _ => []
  | .aList i xs => i :: idsAList xs
  | .aMap i es => i :: idsAEntries es
  | .aSMap i es => i :: idsASEntries es

def idsAList : List AVal → List Nat
  | [] => []
  | x :: rest => idsA x ++ idsAList rest

def idsAEntries : List (AVal × AVal) → List Nat
  | [] => []
  | (k, v) :: rest => idsA k ++ idsA v ++ idsAEntries rest

def idsASEntries : List (String × AVal) → List Nat
  | [] => []
  | (_, v) :: rest => idsA v ++ idsASEntries rest

end

mutual

/-- Forget allocation identities, recovering the plain value. -/
def eraseA : AVal → Value
  | .aLeaf v => v
  | .aList _ xs => vList (eraseAList xs)
  | .aMap _ es => vMap (eraseAEntries es)
  | .aSMap _ es => vStringMap (eraseASEntries es)

def eraseAList : List AVal → List Value
  | [] => []
  | x :: rest => eraseA x :: eraseAList rest

def eraseAEntries : List (AVal × AVal) → List (Value × Value)
  | [] => []
  | (k, v) :: rest => (eraseA k, eraseA v) :: eraseAEntries rest

def eraseASEntries : List (String × AVal) → List (String × Value)
  | [] => []
  | (k, v) :: rest => (k, eraseA v) :: eraseASEntries rest

end

mutual

/-- `copy_` (src/copy.go, lines 83-151) instrumented with allocation: each
container case allocates one fresh container (`make(...)`), so the result
container takes the next free identity; map keys are reused, not copied,
exactly as `copiedMap[key] = ...` reuses the key.  Returns the copy and
the advanced counter. -/
def copyA : AVal → Nat → AVal × Nat
  | .aLeaf v, n => (.aLeaf v, n)
  | .aMap _ es, n =>
    let r := copyAEntries es (n + 1)
    (.aMap n r.1, r.2)
  | .aSMap _ es, n =>
    let r := copyASEntries es (n + 1)
    (.aSMap n r.1, r.2)
  | .aList _ xs, n =>
    let r := copyAList xs (n + 1)
    (.aList n r.1, r.2)

def copyAEntries : List (AVal × AVal) → Nat → List (AVal × AVal) × Nat
  | [], n => ([], n)
  | (k, v) :: rest, n =>
    let rv := copyA v n
    let rr := copyAEntries rest rv.2
    ((k, rv.1) :: rr.1, rr.2)

def copyASEntries : List (String × AVal) → Nat → List (String × AVal) × Nat
  | [], n => ([], n)
  | (k, v) :: rest, n =>
    let rv := copyA v n
    let rr := copyASEntries rest rv.2
    ((k, rv.1) :: rr.1, rr.2)

def copyAList : List AVal → Nat → List AVal × Nat
  | [], n => ([], n)
  | x :: rest, n =>
    let rv := copyA x n
    let rr := copyAList rest rv.2
    (rv.1 :: rr.1, rr.2)

end

/-- Go key equality on instrumented values (map keys are always
comparable leaves). -/
def keyEqA : AVal → AVal → Bool
  | .aLeaf a, .aLeaf b => goKeyEq a b
  | _, _ => false

/-- Lookup in an instrumented `Map`. -/
def alookup : List (AVal × AVal) → AVal → Option AVal
  | [], _ => none
  | (k, v) :: rest, key => if keyEqA k key then some v else alookup rest key

/-- Store into an instrumented `Map` (in-place value replacement, key
object kept). -/
def astore : List (AVal × AVal) → AVal → AVal → List (AVal × AVal)
  | [], k, v => [(k, v)]
  | (k0, v0) :: rest, k, v =>
    if keyEqA k0 k then (k0, v) :: rest else (k0, v0) :: astore rest k v

/-- Lookup in an instrumented `StringMap`. -/
def aslookup : List (String × AVal) → String → Option AVal
  | [], _ => none
  | (k, v) :: rest, key => if k == key then some v else aslookup rest key

/-- Store into an instrumented `StringMap`. -/
def asstore : List (String × AVal) → String → AVal → List (String × AVal)
  | [], k, v => [(k, v)]
  | (k0, v0) :: rest, k, v =>
    if k0 == k then (k0, v) :: rest else (k0, v0) :: asstore rest k v

mutual

/-- `Merge` (src/merge.go, lines 18-63) instrumented with allocation: the
target map is mutated in place (it keeps its identity); recursive merges
and the `Copy` calls on source keys and values thread the allocation
counter.  For two lists with `appendLists`, Go appends copies of the
source elements to the target slice (the claims proved here do not
concern the target's own identity, which `append` may or may not
preserve); every other combination is `Copy(source)`. -/
def mergeA : AVal → AVal → Bool → Nat → AVal × Nat
  | .aMap tid tes, .aMap _ ses, ap, n =>
    let r := mergeAEntries tes ses ap n
    (.aMap tid r.1, r.2)
  | .aSMap tid tes, .aSMap _ ses, ap, n =>
    let r := mergeASEntries tes ses ap n
    (.aSMap tid r.1, r.2)
  | .aList tid txs, .aList sid sxs, ap, n =>
    if ap then
      let r := copyAList sxs n
      (.aList tid (txs ++ r.1), r.2)
    else copyA (.aList sid sxs) n
  | _, s, _, n => copyA s n

def mergeAEntries :
    List (AVal × AVal) → List (AVal × AVal) → Bool → Nat → List (AVal × AVal) × Nat
  | tes, [], _, n => (tes, n)
  | tes, (k, sv) :: rest, ap, n =>
    match alookup tes k with
    | some tv =>
      let r := mergeA tv sv ap n
      mergeAEntries (astore tes k r.1) rest ap r.2
    | none =>
      let rk := copyA k n
      let rv := copyA sv rk.2
      mergeAEntries (tes ++ [(rk.1, rv.1)]) rest ap rv.2

def mergeASEntries :
    List (String × AVal) → List (String × AVal) → Bool → Nat → List (String × AVal) × Nat
  | tes, [], _, n => (tes, n)
  | tes, (k, sv) :: rest, ap, n =>
    match aslookup tes k with
    | some tv =>
      let r := mergeA tv sv ap n
      mergeASEntries (asstore tes k r.1) rest ap r.2
    | none =>
      let rv := copyA sv n
      mergeASEntries (tes ++ [(k, rv.1)]) rest ap rv.2

end

/-- Is this instrumented value a leaf? -/
def isALeaf : AVal → Bool
  | .aLeaf _ => true
  | _ => false

mutual

/-- Every map key in the tree is a leaf — the faithful restriction, since
Go `map[any]any` keys must be comparable and containers are not. -/
def leafKeysA : AVal → Bool
  | .aLeaf _ => true
  | .aList _ xs => leafKeysAList xs
  | .aMap _ es => leafKeysAEntries es
  | .aSMap _ es => leafKeysASEntries es

def leafKeysAList : List AVal → Bool
  | [] => true
  | x :: rest => leafKeysA x && leafKeysAList rest

def leafKeysAEntries : List (AVal × AVal) → Bool
  | [] => true
  | (k, v) :: rest => isALeaf k && leafKeysA v && leafKeysAEntries rest

def leafKeysASEntries : List (String × AVal) → Bool
  | [] => true
  | (_, v) :: rest => leafKeysA v && leafKeysASEntries rest

end

theorem idsAList_append (xs ys : List AVal) :
    idsAList (xs ++ ys) = idsAList xs ++ idsAList ys := by
  induction xs with
  | nil => simp [idsAList]
  | cons x rest ih => simp [idsAList, ih]

theorem idsAEntries_append (xs ys : List (AVal × AVal)) :
    idsAEntries (xs ++ ys) = idsAEntries xs ++ idsAEntries ys := by
  induction xs with
  | nil => simp [idsAEntries]
  | cons e rest ih =>
    obtain ⟨k, v⟩ := e
    simp [idsAEntries, ih]

theorem idsASEntries_append (xs ys : List (String × AVal)) :
    idsASEntries (xs ++ ys) = idsASEntries xs ++ idsASEntries ys := by
  induction xs with
  | nil => simp [idsASEntries]
  | cons e rest ih =>
    obtain ⟨k, v⟩ := e
    simp [idsASEntries, ih]

theorem astore_ids {tes : List (AVal × AVal)} {k v : AVal} {i : Nat}
    (h : i ∈ idsAEntries (astore tes k v)) :
    i ∈ idsAEntries tes ∨ i ∈ idsA v ∨ i ∈ idsA k := by
  induction tes with
  | nil =>
    rw [astore] at h
    simp only [idsAEntries, List.mem_append, List.not_mem_nil, or_false] at h
    tauto
  | cons e rest ih =>
    obtain ⟨k0, v0⟩ := e
    rw [astore] at h
    by_cases hk : keyEqA k0 k = true
    · rw [if_pos hk] at h
      simp only [idsAEntries, List.mem_append] at h ⊢
      tauto
    · rw [if_neg hk] at h
      simp only [idsAEntries, List.mem_append] at h ⊢
      rcases h with (h | h) | h
      · tauto
      · tauto
      · rcases ih h with h2 | h2 | h2 <;> tauto

theorem asstore_ids {tes : List (String × AVal)} {k : String} {v : AVal} {i : Nat}
    (h : i ∈ idsASEntries (asstore tes k v)) : i ∈ idsASEntries tes ∨ i ∈ idsA v := by
  induction tes with
  | nil =>
    rw [asstore] at h
    simp only [idsASEntries, List.mem_append, List.not_mem_nil, or_false] at h
    tauto
  | cons e rest ih =>
    obtain ⟨k0, v0⟩ := e
    rw [asstore] at h
    by_cases hk : (k0 == k) = true
    · rw [if_pos hk] at h
      simp only [idsASEntries, List.mem_append] at h ⊢
      tauto
    · rw [if_neg hk] at h
      simp only [idsASEntries, List.mem_append] at h ⊢
      rcases h with h | h
      · tauto
      · rcases ih h with h2 | h2 <;> tauto

theorem alookup_ids {tes : List (AVal × AVal)} {k tv : AVal}
    (h : alookup tes k = some tv) : ∀ i ∈ idsA tv, i ∈ idsAEntries tes := by
  induction tes with
  | nil => simp [alookup] at h
  | cons e rest ih =>
    obtain ⟨k0, v0⟩ := e
    rw [alookup] at h
    by_cases hk : keyEqA k0 k = true
    · rw [if_pos hk] at h
      have hv : v0 = tv := by simpa using h
      subst hv
      intro i hi
      simp [idsAEntries, hi]
    · rw [if_neg hk] at h
      intro i hi
      simp [idsAEntries, ih h i hi]

theorem aslookup_ids {tes : List (String × AVal)} {k : String} {tv : AVal}
    (h : aslookup tes k = some tv) : ∀ i ∈ idsA tv, i ∈ idsASEntries tes := by
  induction tes with
  | nil => simp [aslookup] at h
  | cons e rest ih =>
    obtain ⟨k0, v0⟩ := e
    rw [aslookup] at h
    by_cases hk : (k0 == k) = true
    · rw [if_pos hk] at h
      have hv : v0 = tv := by simpa using h
      subst hv
      intro i hi
      simp [idsASEntries, hi]
    · rw [if_neg hk] at h
      intro i hi
      simp [idsASEntries, ih h i hi]

mutual

/-- The allocation counter never decreases through `copyA`. -/
theorem copyA_mono : ∀ (v : AVal) (n : Nat), n ≤ (copyA v n).2
  | .aLeaf w, n => by simp [copyA]
  | .aMap j es, n => by
    have h := copyAEntries_mono es (n + 1)
    simp only [copyA]
    omega
  | .aSMap j es, n => by
    have h := copyASEntries_mono es (n + 1)
    simp only [copyA]
    omega
  | .aList j xs, n => by
    have h := copyAList_mono xs (n + 1)
    simp only [copyA]
    omega

theorem copyAEntries_mono : ∀ (es : List (AVal × AVal)) (n : Nat), n ≤ (copyAEntries es n).2
  | [], n => by simp [copyAEntries]
  | (k, v) :: rest, n => by
    have h1 := copyA_mono v n
    have h2 := copyAEntries_mono rest (copyA v n).2
    simp only [copyAEntries]
    omega

theorem copyASEntries_mono : ∀ (es : List (String × AVal)) (n : Nat), n ≤ (copyASEntries es n).2
  | [], n => by simp [copyASEntries]
  | (k, v) :: rest, n => by
    have h1 := copyA_mono v n
    have h2 := copyASEntries_mono rest (copyA v n).2
    simp only [copyASEntries]
    omega

theorem copyAList_mono : ∀ (xs : List AVal) (n : Nat), n ≤ (copyAList xs n).2
  | [], n => by simp [copyAList]
  | x :: rest, n => by
    have h1 := copyA_mono x n
    have h2 := copyAList_mono rest (copyA x n).2
    simp only [copyAList]
    omega

end

mutual

/-- Every container of a `copyA` result is freshly allocated: its identity
is at least the starting counter (given that map keys are leaves, which
carry no identity and are reused by the source). -/
theorem copyA_ids : ∀ (v : AVal) (n : Nat), leafKeysA v = true →
    ∀ i ∈ idsA (copyA v n).1, n ≤ i
  | .aLeaf w, n, _, i, h => by simp [copyA, idsA] at h
  | .aMap j es, n, hlk, i, h => by
    rw [leafKeysA] at hlk
    simp only [copyA, idsA, List.mem_cons] at h
    rcases h with h | h
    · omega
    · have := copyAEntries_ids es (n + 1) hlk i h
      omega
  | .aSMap j es, n, hlk, i, h => by
    rw [leafKeysA] at hlk
    simp only [copyA, idsA, List.mem_cons] at h
    rcases h with h | h
    · omega
    · have := copyASEntries_ids es (n + 1) hlk i h
      omega
  | .aList j xs, n, hlk, i, h => by
    rw [leafKeysA] at hlk
    simp only [copyA, idsA, List.mem_cons] at h
    rcases h with h | h
    · omega
    · have := copyAList_ids xs (n + 1) hlk i h
      omega

theorem copyAEntries_ids : ∀ (es : List (AVal × AVal)) (n : Nat), leafKeysAEntries es = true →
    ∀ i ∈ idsAEntries (copyAEntries es n).1, n ≤ i
  | [], n, _, i, h => by simp [copyAEntries, idsAEntries] at h
  | (k, v) :: rest, n, hlk, i, h => by
    rw [leafKeysAEntries] at hlk
    simp only [Bool.and_eq_true] at hlk
    obtain ⟨⟨hkleaf, hv⟩, hrest⟩ := hlk
    simp only [copyAEntries, idsAEntries, List.mem_append] at h
    rcases h with (h | h) | h
    · cases k with
      | aLeaf w => simp [idsA] at h
      | aList j xs => simp [isALeaf] at hkleaf
      | aMap j es2 => simp [isALeaf] at hkleaf
      | aSMap j es2 => simp [isALeaf] at hkleaf
    · exact copyA_ids v n hv i h
    · have h2 := copyAEntries_ids rest (copyA v n).2 hrest i h
      have h3 := copyA_mono v n
      omega

theorem copyASEntries_ids : ∀ (es : List (String × AVal)) (n : Nat),
    leafKeysASEntries es = true →
    ∀ i ∈ idsASEntries (copyASEntries es n).1, n ≤ i
  | [], n, _, i, h => by simp [copyASEntries, idsASEntries] at h
  | (k, v) :: rest, n, hlk, i, h => by
    rw [leafKeysASEntries] at hlk
    simp only [Bool.and_eq_true] at hlk
    obtain ⟨hv, hrest⟩ := hlk
    simp only [copyASEntries, idsASEntries, List.mem_append] at h
    rcases h with h | h
    · exact copyA_ids v n hv i h
    · have h2 := copyASEntries_ids rest (copyA v n).2 hrest i h
      have h3 := copyA_mono v n
      omega

theorem copyAList_ids : ∀ (xs : List AVal) (n : Nat), leafKeysAList xs = true →
    ∀ i ∈ idsAList (copyAList xs n).1, n ≤ i
  | [], n, _, i, h => by simp [copyAList, idsAList] at h
  | x :: rest, n, hlk, i, h => by
    rw [leafKeysAList] at hlk
    simp only [Bool.and_eq_true] at hlk
    obtain ⟨hx, hrest⟩ := hlk
    simp only [copyAList, idsAList, List.mem_append] at h
    rcases h with h | h
    · exact copyA_ids x n hx i h
    · have h2 := copyAList_ids rest (copyA x n).2 hrest i h
      have h3 := copyA_mono x n
      omega

end

mutual

/-- `copyA` erases to the same plain value: the copy is structurally
identical to the input. -/
theorem copyA_erase : ∀ (v : AVal) (n : Nat), eraseA (copyA v n).1 = eraseA v
  | .aLeaf w, n => by simp [copyA]
  | .aMap j es, n => by
    simp only [copyA, eraseA]
    rw [copyAEntries_erase es (n + 1)]
  | .aSMap j es, n => by
    simp only [copyA, eraseA]
    rw [copyASEntries_erase es (n + 1)]
  | .aList j xs, n => by
    simp only [copyA, eraseA]
    rw [copyAList_erase xs (n + 1)]

theorem copyAEntries_erase : ∀ (es : List (AVal × AVal)) (n : Nat),
    eraseAEntries (copyAEntries es n).1 = eraseAEntries es
  | [], n => by simp [copyAEntries]
  | (k, v) :: rest, n => by
    simp only [copyAEntries, eraseAEntries]
    rw [copyA_erase v n, copyAEntries_erase rest (copyA v n).2]

theorem copyASEntries_erase : ∀ (es : List (String × AVal)) (n : Nat),
    eraseASEntries (copyASEntries es n).1 = eraseASEntries es
  | [], n => by simp [copyASEntries]
  | (k, v) :: rest, n => by
    simp only [copyASEntries, eraseASEntries]
    rw [copyA_erase v n, copyASEntries_erase rest (copyA v n).2]

theorem copyAList_erase : ∀ (xs : List AVal) (n : Nat),
    eraseAList (copyAList xs n).1 = eraseAList xs
  | [], n => by simp [copyAList]
  | x :: rest, n => by
    simp only [copyAList, eraseAList]
    rw [copyA_erase x n, copyAList_erase rest (copyA x n).2]

end

mutual

/-- The allocation counter never decreases through `mergeA`. -/
theorem mergeA_mono : ∀ (t s : AVal) (ap : Bool) (n : Nat), n ≤ (mergeA t s ap n).2
  | .aMap tid tes, s, ap, n => by
    cases s
    case aMap sid ses =>
      have h := mergeAEntries_mono tes ses ap n
      simp only [mergeA]
      omega
    all_goals (simp only [mergeA]; exact copyA_mono _ n)
  | .aSMap tid tes, s, ap, n => by
    cases s
    case aSMap sid ses =>
      have h := mergeASEntries_mono tes ses ap n
      simp only [mergeA]
      omega
    all_goals (simp only [mergeA]; exact copyA_mono _ n)
  | .aList tid txs, s, ap, n => by
    cases s
    case aList sid sxs =>
      cases ap
      · simp only [mergeA, Bool.false_eq_true, if_false]
        exact copyA_mono _ n
      · simp only [mergeA, if_true]
        exact copyAList_mono sxs n
    all_goals (simp only [mergeA]; exact copyA_mono _ n)
  | .aLeaf w, s, ap, n => by
    cases s <;> (simp only [mergeA]; exact copyA_mono _ n)

theorem mergeAEntries_mono :
    ∀ (tes ses : List (AVal × AVal)) (ap : Bool) (n : Nat), n ≤ (mergeAEntries tes ses ap n).2
  | tes, [], ap, n => by simp [mergeAEntries]
  | tes, (k, sv) :: rest, ap, n => by
    simp only [mergeAEntries]
    rcases hal : alookup tes k with _ | tv
    · simp only
      have h1 := copyA_mono k n
      have h2 := copyA_mono sv (copyA k n).2
      have h3 := mergeAEntries_mono (tes ++ [((copyA k n).1, (copyA sv (copyA k n).2).1)])
        rest ap (copyA sv (copyA k n).2).2
      omega
    · simp only
      have h1 := mergeA_mono tv sv ap n
      have h3 := mergeAEntries_mono (astore tes k (mergeA tv sv ap n).1)
        rest ap (mergeA tv sv ap n).2
      omega

theorem mergeASEntries_mono :
    ∀ (tes ses : List (String × AVal)) (ap : Bool) (n : Nat), n ≤ (mergeASEntries tes ses ap n).2
  | tes, [], ap, n => by simp [mergeASEntries]
  | tes, (k, sv) :: rest, ap, n => by
    simp only [mergeASEntries]
    rcases hal : aslookup tes k with _ | tv
    · simp only
      have h1 := copyA_mono sv n
      have h3 := mergeASEntries_mono (tes ++ [(k, (copyA sv n).1)]) rest ap (copyA sv n).2
      omega
    · simp only
      have h1 := mergeA_mono tv sv ap n
      have h3 := mergeASEntries_mono (asstore tes k (mergeA tv sv ap n).1)
        rest ap (mergeA tv sv ap n).2
      omega

end

mutual

/-- No container of a `mergeA` result is aliased from the source: every
identity in the result either belonged to the target already or is a
fresh identity drawn at or after the starting counter. -/
theorem mergeA_ids : ∀ (t s : AVal) (ap : Bool) (n : Nat), leafKeysA s = true →
    ∀ i ∈ idsA (mergeA t s ap n).1, i ∈ idsA t ∨ n ≤ i
  | .aMap tid tes, s, ap, n => by
    cases s
    case aMap sid ses =>
      intro hlk i h
      rw [leafKeysA] at hlk
      simp only [mergeA, idsA, List.mem_cons] at h
      rcases h with h | h
      · exact Or.inl (by simp [idsA, h])
      · rcases mergeAEntries_ids tes ses ap n hlk i h with h2 | h2
        · exact Or.inl (by simp [idsA, h2])
        · exact Or.inr h2
    all_goals (intro hlk i h; simp only [mergeA] at h; exact Or.inr (copyA_ids _ n hlk i h))
  | .aSMap tid tes, s, ap, n => by
    cases s
    case aSMap sid ses =>
      intro hlk i h
      rw [leafKeysA] at hlk
      simp only [mergeA, idsA, List.mem_cons] at h
      rcases h with h | h
      · exact Or.inl (by simp [idsA, h])
      · rcases mergeASEntries_ids tes ses ap n hlk i h with h2 | h2
        · exact Or.inl (by simp [idsA, h2])
        · exact Or.inr h2
    all_goals (intro hlk i h; simp only [mergeA] at h; exact Or.inr (copyA_ids _ n hlk i h))
  | .aList tid txs, s, ap, n => by
    cases s
    case aList sid sxs =>
      intro hlk i h
      rw [leafKeysA] at hlk
      cases ap
      · simp only [mergeA, Bool.false_eq_true, if_false] at h
        exact Or.inr (copyA_ids _ n (by rw [leafKeysA]; exact hlk) i h)
      · simp only [mergeA, if_true, idsA, List.mem_cons] at h
        rcases h with h | h
        · exact Or.inl (by simp [idsA, h])
        · rw [idsAList_append, List.mem_append] at h
          rcases h with h | h
          · exact Or.inl (by simp [idsA, h])
          · exact Or.inr (copyAList_ids sxs n hlk i h)
    all_goals (intro hlk i h; simp only [mergeA] at h; exact Or.inr (copyA_ids _ n hlk i h))
  | .aLeaf w, s, ap, n => by
    cases s <;> (intro hlk i h; simp only [mergeA] at h; exact Or.inr (copyA_ids _ n hlk i h))

theorem mergeAEntries_ids : ∀ (tes ses : List (AVal × AVal)) (ap : Bool) (n : Nat),
    leafKeysAEntries ses = true →
    ∀ i ∈ idsAEntries (mergeAEntries tes ses ap n).1, i ∈ idsAEntries tes ∨ n ≤ i
  | tes, [], ap, n, _, i, h => by
    simp only [mergeAEntries] at h
    exact Or.inl h
  | tes, (k, sv) :: rest, ap, n, hlk, i, h => by
    rw [leafKeysAEntries] at hlk
    simp only [Bool.and_eq_true] at hlk
    obtain ⟨⟨hkleaf, hsv⟩, hrest⟩ := hlk
    obtain ⟨w, hw⟩ : ∃ w, k = .aLeaf w := by
      cases k <;> simp_all [isALeaf]
    subst hw
    simp only [mergeAEntries] at h
    rcases hal : alookup tes (.aLeaf w) with _ | tv
    · rw [hal] at h
      simp only [copyA] at h
      rcases mergeAEntries_ids (tes ++ [(.aLeaf w, (copyA sv n).1)]) rest ap
          (copyA sv n).2 hrest i h with h2 | h2
      · rw [idsAEntries_append, List.mem_append] at h2
        rcases h2 with h2 | h2
        · exact Or.inl h2
        · simp only [idsAEntries, idsA, List.mem_append] at h2
          rcases h2 with (h2 | h2) | h2
          · simp at h2
          · exact Or.inr (copyA_ids sv n hsv i h2)
          · simp [idsAEntries] at h2
      · have := copyA_mono sv n
        omega
    · rw [hal] at h
      rcases mergeAEntries_ids (astore tes (.aLeaf w) (mergeA tv sv ap n).1) rest ap
          (mergeA tv sv ap n).2 hrest i h with h2 | h2
      · rcases astore_ids h2 with h3 | h3 | h3
        · exact Or.inl h3
        · rcases mergeA_ids tv sv ap n hsv i h3 with h4 | h4
          · exact Or.inl (alookup_ids hal i h4)
          · exact Or.inr h4
        · simp [idsA] at h3
      · have := mergeA_mono tv sv ap n
        omega

theorem mergeASEntries_ids : ∀ (tes ses : List (String × AVal)) (ap : Bool) (n : Nat),
    leafKeysASEntries ses = true →
    ∀ i ∈ idsASEntries (mergeASEntries tes ses ap n).1, i ∈ idsASEntries tes ∨ n ≤ i
  | tes, [], ap, n, _, i, h => by
    simp only [mergeASEntries] at h
    exact Or.inl h
  | tes, (k, sv) :: rest, ap, n, hlk, i, h => by
    rw [leafKeysASEntries] at hlk
    simp only [Bool.and_eq_true] at hlk
    obtain ⟨hsv, hrest⟩ := hlk
    simp only [mergeASEntries] at h
    rcases hal : aslookup tes k with _ | tv
    · rw [hal] at h
      rcases mergeASEntries_ids (tes ++ [(k, (copyA sv n).1)]) rest ap
          (copyA sv n).2 hrest i h with h2 | h2
      · rw [idsASEntries_append, List.mem_append] at h2
        rcases h2 with h2 | h2
        · exact Or.inl h2
        · simp only [idsASEntries, List.mem_append] at h2
          rcases h2 with h2 | h2
          · exact Or.inr (copyA_ids sv n hsv i h2)
          · simp [idsASEntries] at h2
      · have := copyA_mono sv n
        omega
    · rw [hal] at h
      rcases mergeASEntries_ids (asstore tes k (mergeA tv sv ap n).1) rest ap
          (mergeA tv sv ap n).2 hrest i h with h2 | h2
      · rcases asstore_ids h2 with h3 | h3
        · exact Or.inl h3
        · rcases mergeA_ids tv sv ap n hsv i h3 with h4 | h4
          · exact Or.inl (aslookup_ids hal i h4)
          · exact Or.inr h4
      · have := mergeA_mono tv sv ap n
        omega

end

/-- Is this value a `Map`? -/
def isMapV : Value → Bool
  | vMap _ => true
  | _ => false

/-- Is this value a `List`? -/
def isListV : Value → Bool
  | vList _ => true
  | _ => false

/-! ## Claim C2 -/

/-- C2: merging two maps of the same variant (`Map` with `Map`,
`StringMap` with `StringMap`) keeps every target-only key unchanged,
rebinds every shared key to the recursive merge of the two values, copies
every source-only key in (a deep copy, which is structurally the source
value), and never aliases the source tree into the result: in the
allocation-instrumented model, no container identity of the source occurs
in the merged result, so mutating the result cannot affect the source. -/
theorem claim_C2_merge_same_variant_maps :
    (∀ (tes ses : List (Value × Value)) (ap : Bool),
        Merge (vMap tes) (vMap ses) ap = vMap (mergeMapEntries tes ses ap)) ∧
    (∀ (tes ses : List (String × Value)) (ap : Bool),
        Merge (vStringMap tes) (vStringMap ses) ap = vStringMap (mergeSMapEntries tes ses ap)) ∧
    (∀ (tes ses : List (Value × Value)) (ap : Bool) (k : Value),
        mapLookup ses k = none →
        mapLookup (mergeMapEntries tes ses ap) k = mapLookup tes k) ∧
    (∀ (tes ses : List (Value × Value)) (ap : Bool) (k tv sv : Value),
        nodupKeys ses = true →
        mapLookup tes k = some tv → mapLookup ses k = some sv →
        mapLookup (mergeMapEntries tes ses ap) k = some (Merge tv sv ap)) ∧
    (∀ (tes ses : List (Value × Value)) (ap : Bool) (k sv : Value),
        nodupKeys ses = true →
        mapLookup tes k = none → mapLookup ses k = some sv →
        mapLookup (mergeMapEntries tes ses ap) k = some (Copy sv)) ∧
    (∀ (tes ses : List (String × Value)) (ap : Bool) (k : String),
        smLookup ses k = none →
        smLookup (mergeSMapEntries tes ses ap) k = smLookup tes k) ∧
    (∀ (tes ses : List (String × Value)) (ap : Bool) (k : String) (tv sv : Value),
        sNodupKeys ses = true →
        smLookup tes k = some tv → smLookup ses k = some sv →
        smLookup (mergeSMapEntries tes ses ap) k = some (Merge tv sv ap)) ∧
    (∀ (tes ses : List (String × Value)) (ap : Bool) (k : String) (sv : Value),
        sNodupKeys ses = true →
        smLookup tes k = none → smLookup ses k = some sv →
        smLookup (mergeSMapEntries tes ses ap) k = some (Copy sv)) ∧
    (∀ (t s : AVal) (ap : Bool) (n : Nat), leafKeysA s = true →
        (∀ i ∈ idsA s, i < n) → (∀ i ∈ idsA s, i ∉ idsA t) →
        ∀ i ∈ idsA (mergeA t s ap n).1, i ∉ idsA s) := by
  refine ⟨?_, ?_, ?_, ?_, ?_, ?_, ?_, ?_, ?_⟩
  · intro tes ses ap
    simp [Merge]
  · intro tes ses ap
    simp [Merge]
  · intro tes ses ap k h
    exact mergeMap_target_only ses tes ap k h
  · intro tes ses ap k tv sv h1 h2 h3
    exact mergeMap_both ses tes ap k tv sv h1 h2 h3
  · intro tes ses ap k sv h1 h2 h3
    rw [Copy_id]
    exact mergeMap_source_only ses tes ap k sv h1 h2 h3
  · intro tes ses ap k h
    exact mergeSMap_target_only ses tes ap k h
  · intro tes ses ap k tv sv h1 h2 h3
    exact mergeSMap_both ses tes ap k tv sv h1 h2 h3
  · intro tes ses ap k sv h1 h2 h3
    rw [Copy_id]
    exact mergeSMap_source_only ses tes ap k sv h1 h2 h3
  · intro t s ap n hlk hlt hdisj i hi hcontra
    rcases mergeA_ids t s ap n hlk i hi with h2 | h2
    · exact hdisj i hcontra h2
    · have := hlt i hcontra
      omega

/-- Witness for C2 at concrete inputs: `Merge({"y":2}, {"y":3}, false)`
rebinds `"y"` to the recursive merge, and the merged result of the
instrumented model shares no container identity with the source. -/
theorem claim_C2_witness :
    mapLookup (mergeMapEntries [(vString "y", vInt 2)] [(vString "y", vInt 3)] false)
      (vString "y") = some (Merge (vInt 2) (vInt 3) false) ∧
    (∀ i ∈ idsA (mergeA (.aMap 0 []) (.aSMap 1 []) false 2).1,
      i ∉ idsA (.aSMap 1 ([] : List (String × AVal)))) := by
  constructor
  · exact claim_C2_merge_same_variant_maps.2.2.2.1 _ _ _ _ _ _ rfl rfl rfl
  · refine claim_C2_merge_same_variant_maps.2.2.2.2.2.2.2.2 _ _ _ _ rfl ?_ ?_
    · intro i h
      simp [idsA, idsASEntries] at h
      omega
    · intro i h
      simp [idsA, idsASEntries] at h
      simp [idsA, idsAEntries, h]

/-! ## Claim C3 -/

/-- C3: merging two `List`s with `appendLists = true` concatenates —
the result is the target's elements followed by (deep copies of) the
source's elements, with length `len(target) + len(source)`; every other
combination whose variants do not both match `Map`/`Map`,
`StringMap`/`StringMap`, or `List`/`List`-with-append yields a deep copy
of the source, discarding the target — structurally the source value
itself, and in the instrumented model built of entirely fresh containers
sharing no identity with the source. -/
theorem claim_C3_merge_lists_mismatch :
    (∀ txs sxs : List Value,
        Merge (vList txs) (vList sxs) true = vList (txs ++ sxs) ∧
        (txs ++ sxs).length = txs.length + sxs.length) ∧
    (∀ (t s : Value) (ap : Bool),
        (isMapV t && isMapV s) = false →
        (isStringMapV t && isStringMapV s) = false →
        (ap && (isListV t && isListV s)) = false →
        Merge t s ap = Copy s ∧ Copy s = s) ∧
    (∀ (sxs : List AVal) (n : Nat), leafKeysAList sxs = true →
        (∀ i ∈ idsAList sxs, i < n) →
        ∀ i ∈ idsAList (copyAList sxs n).1, i ∉ idsAList sxs) ∧
    (∀ (s : AVal) (n : Nat), leafKeysA s = true →
        (∀ i ∈ idsA s, i < n) →
        ∀ i ∈ idsA (copyA s n).1, i ∉ idsA s) := by
  refine ⟨?_, ?_, ?_, ?_⟩
  · intro txs sxs
    constructor
    · simp [Merge, copyList_id]
    · simp
  · intro t s ap h1 h2 h3
    refine ⟨?_, Copy_id s⟩
    cases t <;> cases s <;> simp_all [Merge, isMapV, isStringMapV, isListV]
  · intro sxs n hlk hlt i hi hcontra
    have := copyAList_ids sxs n hlk i hi
    have := hlt i hcontra
    omega
  · intro s n hlk hlt i hi hcontra
    have := copyA_ids s n hlk i hi
    have := hlt i hcontra
    omega

/-- Witness for C3 at concrete inputs. -/
theorem claim_C3_witness :
    Merge (vList [vInt 1]) (vList [vInt 2]) true = vList [vInt 1, vInt 2] ∧
    Merge (vMap []) (vList [vInt 2]) false = Copy (vList [vInt 2]) ∧
    (∀ i ∈ idsA (copyA (.aList 0 []) 1).1, i ∉ idsA (.aList 0 ([] : List AVal))) := by
  refine ⟨?_, ?_, ?_⟩
  · exact (claim_C3_merge_lists_mismatch.1 [vInt 1] [vInt 2]).1
  · exact (claim_C3_merge_lists_mismatch.2.1 (vMap []) (vList [vInt 2]) false rfl rfl rfl).1
  · refine claim_C3_merge_lists_mismatch.2.2.2 _ _ rfl ?_
    intro i h
    simp [idsA, idsAList] at h
    omega

/-! ## Claim C8 -/

/-- C8: `Copy` (and `ValidCopy`, which on ARD values always succeeds)
returns a tree structurally identical to its input, and — in the
allocation-instrumented model — every container of the result carries a
fresh identity at or above the starting counter, hence no container of
the result is aliased from the input; leaf scalars are passed through by
value. -/
theorem claim_C8_copy_no_aliasing :
    (∀ v, Copy v = v) ∧
    (∀ v, ValidCopy v = .ok v) ∧
    (∀ (a : AVal) (n : Nat), eraseA (copyA a n).1 = eraseA a) ∧
    (∀ (a : AVal) (n : Nat), leafKeysA a = true → ∀ i ∈ idsA (copyA a n).1, n ≤ i) ∧
    (∀ (a : AVal) (n : Nat), leafKeysA a = true → (∀ i ∈ idsA a, i < n) →
        ∀ i ∈ idsA (copyA a n).1, i ∉ idsA a) := by
  refine ⟨Copy_id, ?_, copyA_erase, copyA_ids, ?_⟩
  · intro v
    rw [ValidCopy_ok, Copy_id]
  · intro a n hlk hlt i hi hcontra
    have := copyA_ids a n hlk i hi
    have := hlt i hcontra
    omega

/-- Witness for C8 at concrete inputs. -/
theorem claim_C8_witness :
    Copy (vMap [(vInt 1, vString "one")]) = vMap [(vInt 1, vString "one")] ∧
    (∀ i ∈ idsA (copyA (.aMap 3 [(.aLeaf (vInt 1), .aLeaf vNull)]) 4).1, 4 ≤ i) ∧
    (∀ i ∈ idsA (copyA (.aMap 3 [(.aLeaf (vInt 1), .aLeaf vNull)]) 4).1,
      i ∉ idsA (.aMap 3 [((.aLeaf (vInt 1) : AVal), (.aLeaf vNull : AVal))])) := by
  refine ⟨claim_C8_copy_no_aliasing.1 _, ?_, ?_⟩
  · exact claim_C8_copy_no_aliasing.2.2.2.1 _ 4 rfl
  · refine claim_C8_copy_no_aliasing.2.2.2.2 _ 4 rfl ?_
    intro i h
    simp [idsA, idsAEntries] at h
    omega

/-! ## Decimal formatting and parsing

The extended-JSON codec renders integers with `strconv.FormatInt` /
`strconv.FormatUint` and parses them with `strconv.ParseInt(s, 10, 64)` /
`strconv.ParseUint(s, 10, 64)`.  Modelled from the spec: the strconv
library is an external collaborator; the model below implements the
base-10 grammar these functions accept — an optional sign (`ParseInt`
only) followed by one or more ASCII digits, with the 64-bit range
check — and the standard decimal rendering. -/

/-- The ASCII digit character for `d < 10`. -/
def digitChar (d : Nat) : Char := Char.ofNat (48 + d)

/-- The decimal digits of `n`, least significant first. -/
def natDigitsRev (n : Nat) : List Nat :=
  if h : n < 10 then [n] else n % 10 :: natDigitsRev (n / 10)
termination_by n
decreasing_by
  exact Nat.div_lt_self (by omega) (by omega)

/-- `strconv.FormatUint(n, 10)`. -/
def formatNat (n : Nat) : String := String.mk ((natDigitsRev n).reverse.map digitChar)

/-- `strconv.FormatInt(i, 10)`: a leading minus sign for negatives. -/
def formatInt (i : Int) : String :=
  if i < 0 then String.mk ('-' :: (formatNat (-i).toNat).data) else formatNat i.toNat

/-- Is this an ASCII digit? -/
def isDigitChar (c : Char) : Bool := 48 ≤ c.toNat && c.toNat ≤ 57

/-- The numeric value of a digit string (most significant first). -/
def digitsToNat (cs : List Char) : Nat := cs.foldl (fun acc c => acc * 10 + (c.toNat - 48)) 0

/-- The digit-string grammar of `strconv.ParseUint(s, 10, 64)` over a
character list: non-empty, all digits, value below `2^64`. -/
def parseUintChars (cs : List Char) : Option Nat :=
  if cs = [] then none
  else if cs.all isDigitChar then
    if digitsToNat cs < 2 ^ 64 then some (digitsToNat cs) else none
  else none

/-- `strconv.ParseUint(s, 10, 64)` (no sign permitted). -/
def parseUint (s : String) : Option Nat := parseUintChars s.data

/-- `strconv.ParseInt(s, 10, 64)`: optional sign, digits via `ParseUint`,
then the `int64` range check. -/
def parseInt (s : String) : Option Int :=
  match s.data with
  | [] => none
  | c :: rest =>
    if c = '+' then
      match parseUintChars rest with
      | some n => if n ≤ 2 ^ 63 - 1 then some (n : Int) else none
      | none => none
    else if c = '-' then
      match parseUintChars rest with
      | some n => if n ≤ 2 ^ 63 then some (-(n : Int)) else none
      | none => none
    else
      match parseUintChars (c :: rest) with
      | some n => if n ≤ 2 ^ 63 - 1 then some (n : Int) else none
      | none => none

theorem natDigitsRev_ne_nil (n : Nat) : natDigitsRev n ≠ [] := by
  rw [natDigitsRev]
  split <;> simp

theorem natDigitsRev_lt (n : Nat) : ∀ d ∈ natDigitsRev n, d < 10 := by
  induction n using Nat.strong_induction_on with
  | _ n ih =>
    rw [natDigitsRev]
    split
    · intro d hd
      simp at hd
      omega
    · intro d hd
      rcases List.mem_cons.mp hd with h | h
      · omega
      · exact ih (n / 10) (Nat.div_lt_self (by omega) (by omega)) d h

theorem digitsRev_fold (n : Nat) :
    ((natDigitsRev n).reverse).foldl (fun a d => a * 10 + d) 0 = n := by
  induction n using Nat.strong_induction_on with
  | _ n ih =>
    rw [natDigitsRev]
    split
    · simp
    · rename_i h
      rw [List.reverse_cons, List.foldl_append]
      rw [ih (n / 10) (Nat.div_lt_self (by omega) (by omega))]
      simp
      omega

theorem digitChar_toNat {d : Nat} (h : d < 10) : (digitChar d).toNat = 48 + d := by
  interval_cases d <;> decide

theorem digitChar_isDigit {d : Nat} (h : d < 10) : isDigitChar (digitChar d) = true := by
  interval_cases d <;> decide

/-- `digitsToNat` over rendered digits recovers the folded value. -/
theorem digitsToNat_map_digitChar (ds : List Nat) (h : ∀ d ∈ ds, d < 10) :
    digitsToNat (ds.map digitChar) = ds.foldl (fun a d => a * 10 + d) 0 := by
  rw [digitsToNat]
  exact foldl_shift ds h 0
where
  /-- The two folds agree from any equal starting accumulator. -/
  foldl_shift : ∀ (ds : List Nat), (∀ d ∈ ds, d < 10) → ∀ (a : Nat),
      (ds.map digitChar).foldl (fun acc c => acc * 10 + (c.toNat - 48)) a
        = ds.foldl (fun acc d => acc * 10 + d) a
    | [], _, a => by simp
    | d :: rest, h, a => by
      have hd : d < 10 := h d (List.mem_cons_self ..)
      simp only [List.map_cons, List.foldl_cons]
      rw [digitChar_toNat hd]
      have : 48 + d - 48 = d := by omega
      rw [this]
      exact foldl_shift rest (fun d2 h2 => h d2 (List.mem_cons_of_mem _ h2)) _

/-- Parsing undoes decimal formatting for `n < 2^64`. -/
theorem parseUintChars_formatNat {n : Nat} (h : n < 2 ^ 64) :
    parseUintChars (formatNat n).data = some n := by
  have hdata : (formatNat n).data = (natDigitsRev n).reverse.map digitChar := rfl
  rw [hdata, parseUintChars]
  have hne : (natDigitsRev n).reverse.map digitChar ≠ [] := by
    simp [natDigitsRev_ne_nil n]
  rw [if_neg hne]
  have hall : ((natDigitsRev n).reverse.map digitChar).all isDigitChar = true := by
    apply List.all_eq_true.mpr
    intro c hc
    obtain ⟨d, hd, hcd⟩ := List.mem_map.mp hc
    have : d < 10 := natDigitsRev_lt n d (List.mem_reverse.mp hd)
    rw [← hcd]
    exact digitChar_isDigit this
  rw [if_pos hall]
  have hval : digitsToNat ((natDigitsRev n).reverse.map digitChar) = n := by
    rw [digitsToNat_map_digitChar _ (fun d hd => natDigitsRev_lt n d (List.mem_reverse.mp hd))]
    exact digitsRev_fold n
  rw [hval, if_pos h]

/-- The head of a rendered decimal is a digit, never a sign. -/
theorem formatNat_head (n : Nat) :
    ∃ c cs, (formatNat n).data = c :: cs ∧ isDigitChar c = true := by
  have hdata : (formatNat n).data = (natDigitsRev n).reverse.map digitChar := rfl
  rcases hrev : (natDigitsRev n).reverse with _ | ⟨d, ds⟩
  · exact absurd (by simpa using congrArg List.reverse hrev) (natDigitsRev_ne_nil n)
  · refine ⟨digitChar d, ds.map digitChar, by rw [hdata, hrev]; simp, ?_⟩
    have : d ∈ natDigitsRev n := by
      rw [← List.mem_reverse, hrev]
      exact List.mem_cons_self ..
    exact digitChar_isDigit (natDigitsRev_lt n d this)

/-- `ParseInt` of a minus sign followed by a rendered decimal. -/
theorem parseInt_neg_case {m : Nat} (h64 : m < 2 ^ 64) (h63 : m ≤ 2 ^ 63) :
    parseInt (String.mk ('-' :: (formatNat m).data)) = some (-(m : Int)) := by
  simp only [parseInt]
  rw [parseUintChars_formatNat h64]
  simp
  omega

/-- `ParseInt` of a bare rendered decimal. -/
theorem parseInt_nonneg_case {m : Nat} (h64 : m < 2 ^ 64) (h63 : m ≤ 2 ^ 63 - 1) :
    parseInt (formatNat m) = some (m : Int) := by
  obtain ⟨c, cs, hd, hdig⟩ := formatNat_head m
  have hcp : ¬(c = '+') := by
    intro hc
    subst hc
    revert hdig
    decide
  have hcm : ¬(c = '-') := by
    intro hc
    subst hc
    revert hdig
    decide
  simp only [parseInt, hd]
  rw [if_neg hcp, if_neg hcm]
  rw [show c :: cs = (formatNat m).data from hd.symm, parseUintChars_formatNat h64]
  simp only
  rw [if_pos h63]

/-- `ParseInt` undoes `FormatInt` on the `int64` range. -/
theorem parseInt_formatInt {i : Int} (h1 : -(2 ^ 63) ≤ i) (h2 : i < 2 ^ 63) :
    parseInt (formatInt i) = some i := by
  by_cases hneg : i < 0
  · rw [formatInt, if_pos hneg]
    rw [parseInt_neg_case (by omega) (by omega)]
    congr 1
    omega
  · rw [formatInt, if_neg hneg]
    rw [parseInt_nonneg_case (by omega) (by omega)]
    congr 1
    omega

/-! ## Base64

The extended-JSON codec renders bytes with `util.ToBase64` and decodes
with `util.FromBase64`.  Modelled from the spec: the util library is an
external collaborator wrapping standard base64; the model below is RFC
4648 standard base64 with padding over byte lists. -/

/-- The base64 character for a sextet `d < 64`. -/
def b64Char (d : Nat) : Char :=
  Char.ofNat
    (if d < 26 then 65 + d
     else if d < 52 then 97 + (d - 26)
     else if d < 62 then 48 + (d - 52)
     else if d = 62 then 43
     else 47)

/-- The sextet value of a base64 character. -/
def b64Val (c : Char) : Option Nat :=
  if 65 ≤ c.toNat ∧ c.toNat ≤ 90 then some (c.toNat - 65)
  else if 97 ≤ c.toNat ∧ c.toNat ≤ 122 then some (c.toNat - 97 + 26)
  else if 48 ≤ c.toNat ∧ c.toNat ≤ 57 then some (c.toNat - 48 + 52)
  else if c = '+' then some 62
  else if c = '/' then some 63
  else none

theorem b64Val_b64Char {d : Nat} (h : d < 64) : b64Val (b64Char d) = some d := by
  interval_cases d <;> decide

/-- Base64-encode a byte list (RFC 4648, with `=` padding). -/
def toBase64Chars : List Nat → List Char
  | [] => []
  | [a] => [b64Char (a / 4), b64Char ((a % 4) * 16), '=', '=']
  | [a, b] => [b64Char (a / 4), b64Char ((a % 4) * 16 + b / 16), b64Char ((b % 16) * 4), '=']
  | a :: b :: c :: rest =>
    b64Char (a / 4) :: b64Char ((a % 4) * 16 + b / 16) ::
      b64Char ((b % 16) * 4 + c / 64) :: b64Char (c % 64) :: toBase64Chars rest

/-- `util.ToBase64`. -/
def ToBase64 (bs : List Nat) : String := String.mk (toBase64Chars bs)

/-- Base64-decode a character list: groups of four characters, the final
group possibly carrying one or two `=` padding characters. -/
def fromBase64Chars : List Char → Option (List Nat)
  | [] => some []
  | c1 :: c2 :: c3 :: c4 :: rest =>
    if rest = [] ∧ c3 = '=' ∧ c4 = '=' then
      match b64Val c1, b64Val c2 with
      | some s1, some s2 => some [s1 * 4 + s2 / 16]
      | _, _ => none
    else if rest = [] ∧ c4 = '=' then
      match b64Val c1, b64Val c2, b64Val c3 with
      | some s1, some s2, some s3 => some [s1 * 4 + s2 / 16, (s2 % 16) * 16 + s3 / 4]
      | _, _, _ => none
    else
      match b64Val c1, b64Val c2, b64Val c3, b64Val c4 with
      | some s1, some s2, some s3, some s4 =>
        match fromBase64Chars rest with
        | some bs =>
          some ((s1 * 4 + s2 / 16) :: ((s2 % 16) * 16 + s3 / 4) :: ((s3 % 4) * 64 + s4) :: bs)
        | none => none
      | _, _, _, _ => none
  | _ => none

/-- `util.FromBase64`. -/
def FromBase64 (s : String) : Option (List Nat) := fromBase64Chars s.data

theorem b64Char_ne_pad {d : Nat} (h : d < 64) : b64Char d ≠ '=' := by
  interval_cases d <;> decide

/-- Decoding undoes encoding on byte lists. -/
theorem fromBase64_toBase64 : ∀ (bs : List Nat), (∀ x ∈ bs, x < 256) →
    fromBase64Chars (toBase64Chars bs) = some bs
  | [], _ => by simp [toBase64Chars, fromBase64Chars]
  | [a], h => by
    have ha : a < 256 := h a (by simp)
    rw [toBase64Chars, fromBase64Chars]
    rw [if_pos ⟨rfl, rfl, rfl⟩]
    rw [b64Val_b64Char (by omega), b64Val_b64Char (by omega)]
    simp only
    refine congrArg some ?_
    have e1 : a / 4 * 4 + (a % 4 * 16) / 16 = a := by omega
    rw [e1]
  | [a, b], h => by
    have ha : a < 256 := h a (by simp)
    have hb : b < 256 := h b (by simp)
    rw [toBase64Chars, fromBase64Chars]
    rw [if_neg (fun hcon => b64Char_ne_pad (d := b % 16 * 4) (by omega) hcon.2.1)]
    rw [if_pos ⟨rfl, rfl⟩]
    rw [b64Val_b64Char (by omega), b64Val_b64Char (by omega), b64Val_b64Char (by omega)]
    simp only
    refine congrArg some ?_
    have e1 : a / 4 * 4 + (a % 4 * 16 + b / 16) / 16 = a := by omega
    have e2 : (a % 4 * 16 + b / 16) % 16 * 16 + (b % 16 * 4) / 4 = b := by omega
    rw [e1, e2]
  | a :: b :: c :: rest, h => by
    have ha : a < 256 := h a (by simp)
    have hb : b < 256 := h b (by simp)
    have hc : c < 256 := h c (by simp)
    have hrest := fromBase64_toBase64 rest (fun x hx => h x (by simp [hx]))
    rw [toBase64Chars, fromBase64Chars]
    rw [if_neg (fun hcon => b64Char_ne_pad (d := b % 16 * 4 + c / 64) (by omega) hcon.2.1)]
    rw [if_neg (fun hcon => b64Char_ne_pad (d := c % 64) (by omega) hcon.2)]
    rw [b64Val_b64Char (by omega), b64Val_b64Char (by omega), b64Val_b64Char (by omega),
       b64Val_b64Char (by omega)]
    simp only
    rw [hrest]
    simp only
    refine congrArg some ?_
    have e1 : a / 4 * 4 + (a % 4 * 16 + b / 16) / 16 = a := by omega
    have e2 : (a % 4 * 16 + b / 16) % 16 * 16 + (b % 16 * 4 + c / 64) / 4 = b := by omega
    have e3 : (b % 16 * 4 + c / 64) % 4 * 64 + c % 64 = c := by omega
    rw [e1, e2, e3]

/-! ## Extended JSON: packing (src/xjson.go) -/

def XJSONIntegerCode : String := "$ard.integer"
def XJSONUIntegerCode : String := "$ard.uinteger"
def XJSONBytesCode : String := "$ard.bytes"
def XJSONMapCode : String := "$ard.map"

/-- The four sentinel code strings, in the priority order `UnpackXJSON`
probes them. -/
def sentinelCodes : List String :=
  [XJSONIntegerCode, XJSONUIntegerCode, XJSONBytesCode, XJSONMapCode]

/-- The packed tree produced by `PackXJSON`: the wrapper types
`XJSONInteger`, `XJSONUInteger`, `XJSONBytes`, `XJSONMap` of src/xjson.go,
plus lists, string maps and pass-through leaves. -/
inductive XV where
  | wLeaf : Value → XV
  | wInt : Int → XV
  | wUInt : Nat → XV
  | wBytes : List Nat → XV
  | wList : List XV → XV
  | wStringMap : List (String × XV) → XV
  | wXMap : List (XV × XV) → XV

/-- Is this value a string? -/
def isStringV : Value → Bool
  | vString _ => true
  | _ => false

/-- Does the map have a non-string key (the condition that switches
`PackXJSON`'s `Map` case to the `XJSONMap` representation)? -/
def hasNonStringKey (es : List (Value × Value)) : Bool :=
  es.any (fun e => !(isStringV e.1))

mutual

/-- Embedded from `PackXJSON` (src/xjson.go, lines 54-152).  All signed
integer widths become `XJSONInteger`, all unsigned widths
`XJSONUInteger`, byte slices `XJSONBytes`; lists pack element-wise;
a `StringMap` or `Map` whose single key is a sentinel code is first
escaped (`escapeXjsonStringMap`/`escapeXjsonMap`); otherwise a
`StringMap` packs its values, and a `Map` becomes an `XJSONMap` when it
has a non-string key and a `StringMap` otherwise.  The source's
`(value, false)` pass-through returns the original container when nothing
was converted; that container has the same content as the rebuilt one,
which the model returns uniformly. -/
def PackXJSON : Value → XV
  | vInt i => .wInt i
  | vUInt n => .wUInt n
  | vBytes bs => .wBytes bs
  | vList xs => .wList (packList xs)
  | vStringMap es =>
    match escapeXjsonStringMap es with
    | some e => e
    | none => .wStringMap (packSEntries es)
  | vMap es =>
    match escapeXjsonMap es with
    | some e => e
    | none =>
      if hasNonStringKey es then .wXMap (packXEntries es)
      else .wStringMap (packMapString es)
  | v => .wLeaf v

def packList : List Value → List XV
  | [] => []
  | x :: rest => PackXJSON x :: packList rest

def packSEntries : List (String × Value) → List (String × XV)
  | [] => []
  | (k, v) :: rest => (k, PackXJSON v) :: packSEntries rest

/-- The `XJSONMap` branch of the `Map` case: string keys are stored as
is, non-string keys are packed. -/
def packXEntries : List (Value × Value) → List (XV × XV)
  | [] => []
  | (k, v) :: rest =>
    match k with
    | vString s => (.wLeaf (vString s), PackXJSON v) :: packXEntries rest
    | _ => (PackXJSON k, PackXJSON v) :: packXEntries rest

/-- The `StringMap` branch of the `Map` case (taken when every key is a
string). -/
def packMapString : List (Value × Value) → List (String × XV)
  | [] => []
  | (k, v) :: rest =>
    match k with
    | vString s => (s, PackXJSON v) :: packMapString rest
    | _ => packMapString rest

/-- Embedded from `escapeXjsonStringMap` (src/xjson.go, lines 376-393):
a single-entry map whose (sole) key is exactly a sentinel code is
re-escaped by doubling the leading dollar.  The source probes the map
with the four code lookups; on a one-entry map the lookup of `Code`
succeeds exactly when the sole key equals `Code`. -/
def escapeXjsonStringMap : List (String × Value) → Option XV
  | [(k, v)] =>
    if k = XJSONIntegerCode then some (.wStringMap [("$" ++ XJSONIntegerCode, PackXJSON v)])
    else if k = XJSONUIntegerCode then
      some (.wStringMap [("$" ++ XJSONUIntegerCode, PackXJSON v)])
    else if k = XJSONBytesCode then some (.wStringMap [("$" ++ XJSONBytesCode, PackXJSON v)])
    else if k = XJSONMapCode then some (.wStringMap [("$" ++ XJSONMapCode, PackXJSON v)])
    else none
  | _ => none

/-- Embedded from `escapeXjsonMap` (src/xjson.go, lines 357-374); the
lookup `map_[Code]` on a one-entry `Map` succeeds exactly when the sole
key is `==` to the code string. -/
def escapeXjsonMap : List (Value × Value) → Option XV
  | [(k, v)] =>
    if goKeyEq k (vString XJSONIntegerCode) then
      some (.wStringMap [("$" ++ XJSONIntegerCode, PackXJSON v)])
    else if goKeyEq k (vString XJSONUIntegerCode) then
      some (.wStringMap [("$" ++ XJSONUIntegerCode, PackXJSON v)])
    else if goKeyEq k (vString XJSONBytesCode) then
      some (.wStringMap [("$" ++ XJSONBytesCode, PackXJSON v)])
    else if goKeyEq k (vString XJSONMapCode) then
      some (.wStringMap [("$" ++ XJSONMapCode, PackXJSON v)])
    else none
  | _ => none

end

/-! ## Extended JSON: the JSON wire image of a packed tree

`PrepareForEncodingXJSON` hands the packed tree to a JSON encoder; the
wrapper types render themselves through their `MarshalJSON` methods
(src/xjson.go: `XJSONInteger`/`XJSONUInteger` as a one-key object holding
the decimal string, `XJSONBytes` as a one-key object holding the base64
string, `XJSONMap` as a one-key object holding a list of
`{"key": K, "value": V}` objects).  Decoding the resulting JSON yields
string-keyed maps, lists and leaves.  `wireOf` is that composition:
the tree `UnpackXJSON` receives after an encode/decode cycle.  JSON
round-trips strings, booleans, null and finite floats exactly;
`time.Time` marshals to an RFC 3339 string (abstracted below); NaN would
make `json.Marshal` fail (also abstracted; the safe fragment excludes
both). -/

mutual

def wireOf : XV → Value
  | .wLeaf (vTime t) => vString ("time:" ++ formatNat t)
  | .wLeaf v => v
  | .wInt i => vStringMap [(XJSONIntegerCode, vString (formatInt i))]
  | .wUInt n => vStringMap [(XJSONUIntegerCode, vString (formatNat n))]
  | .wBytes bs => vStringMap [(XJSONBytesCode, vString (ToBase64 bs))]
  | .wList xs => vList (wireList xs)
  | .wStringMap es => vStringMap (wireSEntries es)
  | .wXMap es => vStringMap [(XJSONMapCode, vList (wireXEntries es))]

def wireList : List XV → List Value
  | [] => []
  | x :: rest => wireOf x :: wireList rest

def wireSEntries : List (String × XV) → List (String × Value)
  | [] => []
  | (k, v) :: rest => (k, wireOf v) :: wireSEntries rest

def wireXEntries : List (XV × XV) → List Value
  | [] => []
  | (k, v) :: rest => vStringMap [("key", wireOf k), ("value", wireOf v)] :: wireXEntries rest

end

/-! ## Extended JSON: unpacking (src/xjson.go)

`UnpackXJSON`'s `Map` case re-enters itself on a `StringMap` with
stringified keys, so the recursion is justified by a measure `msz` under
which stringifying the keys of a `Map` strictly shrinks the value. -/

mutual

/-- Termination measure for `UnpackXJSON`: like a size, but map keys
count only through a constant, so replacing `Map` keys by strings
shrinks the measure. -/
def msz : Value → Nat
  | vList xs => 1 + mszList xs
  | vMap es => 2 + mszEntries es
  | vStringMap es => 1 + mszSEntries es
  | _ => 1

def mszList : List Value → Nat
  | [] => 0
  | x :: rest => msz x + mszList rest

def mszEntries : List (Value × Value) → Nat
  | [] => 0
  | (k, v) :: rest => msz k + (1 + msz v) + mszEntries rest

def mszSEntries : List (String × Value) → Nat
  | [] => 0
  | (_, v) :: rest => (1 + msz v) + mszSEntries rest

end

theorem msz_pos (v : Value) : 1 ≤ msz v := by
  cases v <;> simp [msz] <;> omega

/-- Modelled from the spec: the canonical key stringification
(`yamlkeys.KeyString`, an external library): a pure, deterministic string
for any map-key value — a string key is itself, primitives render as in
`ValueToString`.  No theorem below depends on its exact output. -/
def MapKeyToString : Value → String
  | vString s => s
  | vBool b => if b then "true" else "false"
  | vInt i => formatInt i
  | vUInt n => formatNat n
  | vFloat .nan => "NaN"
  | vFloat (.num q) => formatInt q.num ++ "/" ++ formatNat q.den
  | vTime t => "time:" ++ formatNat t
  | vNull => "null"
  | vBytes _ => "bytes"
  | vList _ => "list"
  | vMap _ => "map"
  | vStringMap _ => "stringmap"

/-- The key-stringification step of `UnpackXJSON`'s `Map` case
(`map_[MapKeyToString(key)] = value`). -/
def stringifyEntries : List (Value × Value) → List (String × Value)
  | [] => []
  | (k, v) :: rest => (MapKeyToString k, v) :: stringifyEntries rest

theorem mszSEntries_stringify_le (es : List (Value × Value)) :
    mszSEntries (stringifyEntries es) ≤ mszEntries es := by
  induction es with
  | nil => simp [stringifyEntries, mszSEntries, mszEntries]
  | cons e rest ih =>
    obtain ⟨k, v⟩ := e
    rw [stringifyEntries, mszSEntries, mszEntries]
    have := msz_pos k
    omega

theorem smLookup_msz {es : List (String × Value)} {k : String} {v : Value}
    (h : smLookup es k = some v) : msz v + 1 ≤ mszSEntries es := by
  induction es with
  | nil => simp [smLookup] at h
  | cons e rest ih =>
    obtain ⟨k0, v0⟩ := e
    rw [smLookup] at h
    rw [mszSEntries]
    by_cases hk : (k0 == k) = true
    · rw [if_pos hk] at h
      have : v0 = v := by simpa using h
      subst this
      omega
    · rw [if_neg hk] at h
      have := ih h
      omega

/-- The `$$`-escape scan of `UnpackXJSON` (the `for` loop over the
one-entry map testing `strings.HasPrefix(key, "$$")`). -/
def findEscapedKey : List (String × Value) → Option (String × Value)
  | [] => none
  | (k, v) :: rest => if "$$".data.isPrefixOf k.data then some (k, v) else findEscapedKey rest

theorem findEscapedKey_msz {es : List (String × Value)} {k : String} {v : Value}
    (h : findEscapedKey es = some (k, v)) : msz v + 1 ≤ mszSEntries es := by
  induction es with
  | nil => simp [findEscapedKey] at h
  | cons e rest ih =>
    obtain ⟨k0, v0⟩ := e
    rw [findEscapedKey] at h
    rw [mszSEntries]
    by_cases hk : "$$".data.isPrefixOf k0.data = true
    · rw [if_pos hk] at h
      have : v0 = v := by
        have := h
        simp at this
        exact this.2
      subst this
      omega
    · rw [if_neg hk] at h
      have := ih h
      omega

/-- Embedded from `UnpackXJSONInteger` (src/xjson.go, lines 238-247):
the payload under the integer code must be a string parseable by
`strconv.ParseInt(s, 10, 64)`. -/
def UnpackXJSONInteger (es : List (String × Value)) : Option Int :=
  match smLookup es XJSONIntegerCode with
  | some (vString s) => parseInt s
  | _ => none

/-- Embedded from `UnpackXJSONUInteger` (src/xjson.go, lines 262-271). -/
def UnpackXJSONUInteger (es : List (String × Value)) : Option Nat :=
  match smLookup es XJSONUIntegerCode with
  | some (vString s) => parseUint s
  | _ => none

/-- Embedded from `UnpackXJSONBytes` (src/xjson.go, lines 286-295). -/
def UnpackXJSONBytes (es : List (String × Value)) : Option (List Nat) :=
  match smLookup es XJSONBytesCode with
  | some (vString s) => FromBase64 s
  | _ => none

mutual

/-- Embedded from `UnpackXJSON` (src/xjson.go, lines 154-223).  Lists
unpack element-wise; a `Map` stringifies its keys and re-enters as a
`StringMap`; a one-entry `StringMap` is probed against the four sentinel
codes in order (integer, uinteger, bytes, map), then against the `$$`
escape (strip one leading `$`, producing a `Map` regardless of
`useStringMaps` — Go `key[1:]` is modelled as dropping one character);
any other map converts entry-wise into a `Map` or `StringMap` according
to `useStringMaps`. -/
def UnpackXJSON : Value → Bool → Value
  | vList xs, u => vList (unpackList xs u)
  | vMap es, u => UnpackXJSON (vStringMap (stringifyEntries es)) u
  | vStringMap es, u =>
    if es.length = 1 then
      match UnpackXJSONInteger es with
      | some i => vInt i
      | none =>
        match UnpackXJSONUInteger es with
        | some n => vUInt n
        | none =>
          match UnpackXJSONBytes es with
          | some bs => vBytes bs
          | none =>
            match unpackXJSONMap es u with
            | some m => vMap m
            | none =>
              match h2 : findEscapedKey es with
              | some (k, v1) =>
                vMap [(vString (String.mk (k.data.drop 1)), UnpackXJSON v1 u)]
              | none =>
                if u then vStringMap (unpackSEntriesSM es u)
                else vMap (unpackSEntriesM es u)
    else
      if u then vStringMap (unpackSEntriesSM es u)
      else vMap (unpackSEntriesM es u)
  | v, _ => v
termination_by v u => 4 * msz v
decreasing_by
  all_goals
    first
      | (simp only [msz]
         have hh := mszSEntries_stringify_le es
         omega)
      | (have hh := findEscapedKey_msz h2
         simp only [msz]
         omega)
      | (simp only [msz]
         omega)

/-- The element loop of the `List` case. -/
def unpackList : List Value → Bool → List Value
  | [], _ => []
  | x :: rest, u => UnpackXJSON x u :: unpackList rest u
termination_by xs u => 4 * mszList xs + 2
decreasing_by
  all_goals
    first
      | (simp only [mszList]
         omega)
      | (have hh := msz_pos x
         simp only [mszList]
         omega)

/-- The generic conversion loop with `useStringMaps = true`. -/
def unpackSEntriesSM : List (String × Value) → Bool → List (String × Value)
  | [], _ => []
  | (k, v) :: rest, u => (k, UnpackXJSON v u) :: unpackSEntriesSM rest u
termination_by es u => 4 * mszSEntries es + 2
decreasing_by
  all_goals
    first
      | (simp only [mszSEntries]
         omega)
      | (have hh := msz_pos v
         simp only [mszSEntries]
         omega)

/-- The generic conversion loop with `useStringMaps = false` (the string
keys become `Map` keys). -/
def unpackSEntriesM : List (String × Value) → Bool → List (Value × Value)
  | [], _ => []
  | (k, v) :: rest, u => (vString k, UnpackXJSON v u) :: unpackSEntriesM rest u
termination_by es u => 4 * mszSEntries es + 2
decreasing_by
  all_goals
    first
      | (simp only [mszSEntries]
         omega)
      | (have hh := msz_pos v
         simp only [mszSEntries]
         omega)

/-- Embedded from `UnpackXJSONMap` (src/xjson.go, lines 315-330): the
payload under the map code must be a `List`, every element of which
parses as a key/value entry; a single malformed entry fails the whole
unpacking. -/
def unpackXJSONMap (es : List (String × Value)) (u : Bool) : Option (List (Value × Value)) :=
  match h : smLookup es XJSONMapCode with
  | some (vList entries) => unpackXEntries entries u []
  | _ => none
termination_by 4 * mszSEntries es + 3
decreasing_by
  all_goals
    (have hh := smLookup_msz h
     simp only [msz] at hh
     omega)

/-- The entry loop of `UnpackXJSONMap` (`map___[entry.Key] = entry.Value`
accumulates into a fresh `Map`). -/
def unpackXEntries : List Value → Bool → List (Value × Value) → Option (List (Value × Value))
  | [], _, acc => some acc
  | e :: rest, u, acc =>
    match unpackXJSONMapEntry e u with
    | some (k, v) => unpackXEntries rest u (mapStore acc k v)
    | none => none
termination_by es u acc => 4 * mszList es + 2
decreasing_by
  all_goals
    first
      | (simp only [mszList]
         omega)
      | (have hh := msz_pos e
         simp only [mszList]
         omega)

/-- Embedded from `UnpackXJSONMapEntry` (src/xjson.go, lines 341-355): a
`StringMap` with `"key"` and `"value"` entries, both unpacked
recursively. -/
def unpackXJSONMapEntry (e : Value) (u : Bool) : Option (Value × Value) :=
  match e with
  | vStringMap ses =>
    match hk : smLookup ses "key" with
    | some kv =>
      match hv : smLookup ses "value" with
      | some vv => some (UnpackXJSON kv u, UnpackXJSON vv u)
      | none => none
    | none => none
  | _ => none
termination_by 4 * msz e + 1
decreasing_by
  all_goals
    first
      | (have hh := smLookup_msz hk
         simp only [msz]
         omega)
      | (have hh := smLookup_msz hv
         simp only [msz]
         omega)

end

/-! ## The extended-JSON round-trip fragment -/

/-- Generic unpacking of `deepAll` at a `Map` node. -/
theorem deepAll_map_parts {p : Value → Bool} {es : List (Value × Value)}
    (h : deepAll p (vMap es) = true) :
    p (vMap es) = true ∧
    ∀ k v, (k, v) ∈ es → deepAll p k = true ∧ deepAll p v = true := by
  rw [deepAll] at h
  simp only [Bool.and_eq_true] at h
  exact ⟨h.1, fun k v hm => deepAllEntries_mem h.2 hm⟩

/-- Generic unpacking of `deepAll` at a `StringMap` node. -/
theorem deepAll_smap_parts {p : Value → Bool} {es : List (String × Value)}
    (h : deepAll p (vStringMap es) = true) :
    p (vStringMap es) = true ∧ ∀ k v, (k, v) ∈ es → deepAll p v = true := by
  rw [deepAll] at h
  simp only [Bool.and_eq_true] at h
  exact ⟨h.1, fun k v hm => deepAllSEntries_mem h.2 hm⟩

/-- Generic unpacking of `deepAll` at a `List` node. -/
theorem deepAll_list_parts {p : Value → Bool} {xs : List Value}
    (h : deepAll p (vList xs) = true) :
    p (vList xs) = true ∧ ∀ x ∈ xs, deepAll p x = true := by
  rw [deepAll] at h
  simp only [Bool.and_eq_true] at h
  exact ⟨h.1, fun x hx => deepAllList_mem h.2 hx⟩

/-- Local safety for the extended-JSON round trip with
`useStringMaps = false`: no `StringMap` (the unpacker rebuilds every
string-keyed wire map as a `Map`), no timestamp (`time.Time` marshals to
a string and is never restored), no NaN (`json.Marshal` rejects it),
integers within the ranges the decimal codec preserves, byte values below
256 (as Go's `byte` guarantees), and no single-entry `Map` whose sole
string key starts with `"$$"` (the unpacker would strip a dollar the
packer never doubled). -/
def xSafeLocal : Value → Bool
  | vInt i => decide (-(2 ^ 63) ≤ i) && decide (i < 2 ^ 63)
  | vUInt n => decide (n < 2 ^ 64)
  | vBytes bs => bs.all (fun x => decide (x < 256))
  | vFloat .nan => false
  | vTime _ => false
  | vStringMap _ => false
  | vMap es =>
    match es with
    | [(vString k, _)] => !("$$".data.isPrefixOf k.data)
    | _ => true
  | _ => true

/-- Every node of the tree is safe for the round trip. -/
def XSafe (v : Value) : Bool := deepAll xSafeLocal v

/-- Unpacking `WFv` at a `Map` node. -/
theorem WFv_map_parts {es : List (Value × Value)} (h : WFv (vMap es) = true) :
    nodupKeys es = true ∧
    ∀ k v, (k, v) ∈ es → isComparable k = true ∧ WFv k = true ∧ WFv v = true := by
  obtain ⟨hloc, hrest⟩ := deepAll_map_parts h
  rw [localWF] at hloc
  simp only [Bool.and_eq_true] at hloc
  refine ⟨hloc.2, fun k v hm => ?_⟩
  have hc := List.all_eq_true.mp hloc.1 _ hm
  exact ⟨by simpa using hc, (hrest k v hm).1, (hrest k v hm).2⟩

/-- Storing under a key absent from a Go map appends the binding. -/
theorem mapStore_append_of_none {es : List (Value × Value)} {k v : Value}
    (h : mapLookup es k = none) : mapStore es k v = es ++ [(k, v)] := by
  induction es with
  | nil => simp [mapStore]
  | cons e rest ih =>
    obtain ⟨k0, v0⟩ := e
    rw [mapLookup] at h
    rw [mapStore]
    by_cases hk : goKeyEq k0 k = true
    · simp [hk] at h
    · simp only [hk, if_false, Bool.false_eq_true] at h ⊢
      rw [List.cons_append]
      exact congrArg _ (ih h)

/-- Two strings with different character lists differ. -/
theorem string_beq_false {a b : String} (h : a ≠ b) : (a == b) = false := by
  rw [Bool.eq_false_iff]
  intro hc
  exact h (eq_of_beq hc)

/-- A key with the `"$$"` prefix is distinct from any string without it
(such as the four sentinel codes). -/
theorem dollar_key_ne {k c : String} (hp : ("$$".data.isPrefixOf k.data) = true)
    (hnp : ("$$".data.isPrefixOf c.data) = false) : (k == c) = false := by
  apply string_beq_false
  intro hc
  rw [hc, hnp] at hp
  exact Bool.false_ne_true hp

/-- The integer probe fails on a one-entry map with a different key. -/
theorem UnpackXJSONInteger_single_ne {k : String} {w : Value}
    (h : (k == XJSONIntegerCode) = false) : UnpackXJSONInteger [(k, w)] = none := by
  simp [UnpackXJSONInteger, smLookup, h]

/-- The unsigned-integer probe fails on a one-entry map with a different
key. -/
theorem UnpackXJSONUInteger_single_ne {k : String} {w : Value}
    (h : (k == XJSONUIntegerCode) = false) : UnpackXJSONUInteger [(k, w)] = none := by
  simp [UnpackXJSONUInteger, smLookup, h]

/-- The bytes probe fails on a one-entry map with a different key. -/
theorem UnpackXJSONBytes_single_ne {k : String} {w : Value}
    (h : (k == XJSONBytesCode) = false) : UnpackXJSONBytes [(k, w)] = none := by
  simp [UnpackXJSONBytes, smLookup, h]

/-- The map probe fails on a one-entry map with a different key. -/
theorem unpackXJSONMap_single_ne {k : String} {w : Value} {u : Bool}
    (h : (k == XJSONMapCode) = false) : unpackXJSONMap [(k, w)] u = none := by
  have hl : smLookup [(k, w)] XJSONMapCode = none := by simp [smLookup, h]
  simp only [unpackXJSONMap]
  split
  · rename_i entries heq
    rw [hl] at heq
    exact Option.noConfusion heq
  · rfl

/-- The `$$`-escape scan finds a prefixed singleton key. -/
theorem findEscapedKey_single_pos {k : String} {w : Value}
    (h : ("$$".data.isPrefixOf k.data) = true) :
    findEscapedKey [(k, w)] = some (k, w) := by
  simp [findEscapedKey, h]

/-- The `$$`-escape scan rejects an unprefixed singleton key. -/
theorem findEscapedKey_single_neg {k : String} {w : Value}
    (h : ("$$".data.isPrefixOf k.data) = false) :
    findEscapedKey [(k, w)] = none := by
  simp [findEscapedKey, h]

/-! ### Dispatch lemmas for the `StringMap` case of `UnpackXJSON` -/

/-- A one-entry wire map accepted by the integer probe unpacks to that
integer. -/
theorem unpack_single_int {es : List (String × Value)} {i : Int} (u : Bool)
    (hlen : es.length = 1) (h : UnpackXJSONInteger es = some i) :
    UnpackXJSON (vStringMap es) u = vInt i := by
  simp only [UnpackXJSON]
  rw [if_pos hlen, h]

/-- A one-entry wire map rejected by the integer probe but accepted by the
unsigned probe unpacks to that unsigned integer. -/
theorem unpack_single_uint {es : List (String × Value)} {n : Nat} (u : Bool)
    (hlen : es.length = 1) (h1 : UnpackXJSONInteger es = none)
    (h2 : UnpackXJSONUInteger es = some n) :
    UnpackXJSON (vStringMap es) u = vUInt n := by
  simp only [UnpackXJSON]
  rw [if_pos hlen, h1, h2]

/-- A one-entry wire map accepted only by the bytes probe unpacks to those
bytes. -/
theorem unpack_single_bytes {es : List (String × Value)} {bs : List Nat} (u : Bool)
    (hlen : es.length = 1) (h1 : UnpackXJSONInteger es = none)
    (h2 : UnpackXJSONUInteger es = none) (h3 : UnpackXJSONBytes es = some bs) :
    UnpackXJSON (vStringMap es) u = vBytes bs := by
  simp only [UnpackXJSON]
  rw [if_pos hlen, h1, h2, h3]

/-- A one-entry wire map accepted only by the map probe unpacks to that
map. -/
theorem unpack_single_map {es : List (String × Value)} {m : List (Value × Value)} (u : Bool)
    (hlen : es.length = 1) (h1 : UnpackXJSONInteger es = none)
    (h2 : UnpackXJSONUInteger es = none) (h3 : UnpackXJSONBytes es = none)
    (h4 : unpackXJSONMap es u = some m) :
    UnpackXJSON (vStringMap es) u = vMap m := by
  simp only [UnpackXJSON]
  rw [if_pos hlen, h1, h2, h3, h4]

/-- A one-entry wire map rejected by all probes whose key carries the
`$$` escape unpacks to a `Map` with one dollar stripped. -/
theorem unpack_single_escape {es : List (String × Value)} {k : String} {w : Value} (u : Bool)
    (hlen : es.length = 1) (h1 : UnpackXJSONInteger es = none)
    (h2 : UnpackXJSONUInteger es = none) (h3 : UnpackXJSONBytes es = none)
    (h4 : unpackXJSONMap es u = none) (h5 : findEscapedKey es = some (k, w)) :
    UnpackXJSON (vStringMap es) u
      = vMap [(vString (String.mk (k.data.drop 1)), UnpackXJSON w u)] := by
  simp only [UnpackXJSON]
  rw [if_pos hlen]
  repeat' split
  all_goals simp_all

/-- A one-entry wire map rejected by every probe and without the escape
prefix falls to the generic conversion. -/
theorem unpack_single_plain {es : List (String × Value)} (u : Bool)
    (hlen : es.length = 1) (h1 : UnpackXJSONInteger es = none)
    (h2 : UnpackXJSONUInteger es = none) (h3 : UnpackXJSONBytes es = none)
    (h4 : unpackXJSONMap es u = none) (h5 : findEscapedKey es = none) :
    UnpackXJSON (vStringMap es) u
      = if u then vStringMap (unpackSEntriesSM es u) else vMap (unpackSEntriesM es u) := by
  simp only [UnpackXJSON]
  rw [if_pos hlen]
  repeat' split
  all_goals simp_all

/-- A wire map that is not one-entry falls to the generic conversion. -/
theorem unpack_smap_not1 {es : List (String × Value)} (u : Bool)
    (hlen : ¬(es.length = 1)) :
    UnpackXJSON (vStringMap es) u
      = if u then vStringMap (unpackSEntriesSM es u) else vMap (unpackSEntriesM es u) := by
  simp only [UnpackXJSON]
  rw [if_neg hlen]

/-! ### Round-trip helpers for the containers -/

/-- `packXEntries` treats every entry uniformly: `PackXJSON` on a string
key is itself the pass-through leaf the source stores. -/
theorem packXEntries_cons (k v : Value) (rest : List (Value × Value)) :
    packXEntries ((k, v) :: rest) = (PackXJSON k, PackXJSON v) :: packXEntries rest := by
  cases k <;> simp [packXEntries, PackXJSON]

/-- Element-wise round trip for lists. -/
theorem unpackList_rt {xs : List Value}
    (h : ∀ x ∈ xs, UnpackXJSON (wireOf (PackXJSON x)) false = x) :
    unpackList (wireList (packList xs)) false = xs := by
  induction xs with
  | nil => simp [packList, wireList, unpackList]
  | cons x rest ih =>
    simp only [packList, wireList, unpackList]
    rw [h x (List.mem_cons_self ..), ih (fun y hy => h y (List.mem_cons_of_mem _ hy))]

/-- `packMapString` keeps one entry per entry when every key is a
string. -/
theorem packMapString_length {es : List (Value × Value)}
    (hstr : hasNonStringKey es = false) : (packMapString es).length = es.length := by
  induction es with
  | nil => simp [packMapString]
  | cons e rest ih =>
    obtain ⟨k, v⟩ := e
    rw [hasNonStringKey, List.any_cons] at hstr
    simp only [Bool.or_eq_false_iff] at hstr
    have hk : isStringV k = true := by
      have := hstr.1
      simp at this
      exact this
    have hrest : hasNonStringKey rest = false := hstr.2
    cases k <;> simp [isStringV] at hk
    simp [packMapString, ih hrest]

/-- The JSON wire image keeps one entry per packed entry. -/
theorem wireSEntries_length (es : List (String × XV)) :
    (wireSEntries es).length = es.length := by
  induction es with
  | nil => simp [wireSEntries]
  | cons e rest ih =>
    obtain ⟨k, v⟩ := e
    simp [wireSEntries, ih]

/-- Entry-wise round trip for a string-keyed `Map` through
`packMapString` and the generic `useStringMaps = false` conversion. -/
theorem unpackSEntriesM_pms {es : List (Value × Value)}
    (hstr : hasNonStringKey es = false)
    (h : ∀ k v, (k, v) ∈ es → UnpackXJSON (wireOf (PackXJSON v)) false = v) :
    unpackSEntriesM (wireSEntries (packMapString es)) false = es := by
  induction es with
  | nil => simp [packMapString, wireSEntries, unpackSEntriesM]
  | cons e rest ih =>
    obtain ⟨k, v⟩ := e
    rw [hasNonStringKey, List.any_cons] at hstr
    simp only [Bool.or_eq_false_iff] at hstr
    have hk : isStringV k = true := by
      have := hstr.1
      simp at this
      exact this
    have hrest : hasNonStringKey rest = false := hstr.2
    cases k <;> simp [isStringV] at hk
    rename_i s
    simp only [packMapString, wireSEntries, unpackSEntriesM]
    rw [h _ v (List.mem_cons_self ..),
       ih hrest (fun k2 v2 hm => h k2 v2 (List.mem_cons_of_mem _ hm))]

/-- Entry-wise round trip for the `XJSONMap` wrapper payload: the decoded
entries accumulate (`map___[entry.Key] = entry.Value`) into the original
map, each key being fresh at its step. -/
theorem unpackXEntries_rt : ∀ (es acc : List (Value × Value)),
    (∀ k v, (k, v) ∈ es → mapLookup acc k = none) →
    nodupKeys es = true →
    (∀ k v, (k, v) ∈ es →
      UnpackXJSON (wireOf (PackXJSON k)) false = k ∧
      UnpackXJSON (wireOf (PackXJSON v)) false = v) →
    unpackXEntries (wireXEntries (packXEntries es)) false acc = some (acc ++ es)
  | [], acc, _, _, _ => by simp [packXEntries, wireXEntries, unpackXEntries]
  | (k, v) :: rest, acc, hacc, hnodup, hrt => by
    rw [nodupKeys] at hnodup
    simp only [Bool.and_eq_true] at hnodup
    rw [packXEntries_cons]
    have hne : (("key" : String) == "value") = false := by decide
    have hl1 : smLookup [("key", wireOf (PackXJSON k)), ("value", wireOf (PackXJSON v))] "key"
        = some (wireOf (PackXJSON k)) := by simp [smLookup]
    have hl2 : smLookup [("key", wireOf (PackXJSON k)), ("value", wireOf (PackXJSON v))] "value"
        = some (wireOf (PackXJSON v)) := by simp [smLookup, hne]
    have hentry : unpackXJSONMapEntry
        (vStringMap [("key", wireOf (PackXJSON k)), ("value", wireOf (PackXJSON v))]) false
        = some (k, v) := by
      simp only [unpackXJSONMapEntry]
      split
      · rename_i kv heq
        rw [hl1] at heq
        obtain rfl := Option.some.inj heq
        split
        · rename_i vv heq2
          rw [hl2] at heq2
          obtain rfl := Option.some.inj heq2
          rw [(hrt k v (List.mem_cons_self ..)).1, (hrt k v (List.mem_cons_self ..)).2]
        · rename_i heq2
          rw [hl2] at heq2
          exact Option.noConfusion heq2
      · rename_i heq
        rw [hl1] at heq
        exact Option.noConfusion heq
    simp only [wireXEntries, unpackXEntries, hentry]
    rw [mapStore_append_of_none (hacc k v (List.mem_cons_self ..))]
    have hacc2 : ∀ k2 v2, (k2, v2) ∈ rest → mapLookup (acc ++ [(k, v)]) k2 = none := by
      intro k2 v2 hm
      rw [mapLookup_append_right (hacc k2 v2 (List.mem_cons_of_mem _ hm))]
      have hne2 : goKeyEq k k2 = false := by
        have := List.all_eq_true.mp hnodup.1 _ hm
        simpa using this
      simp [mapLookup, hne2]
    rw [unpackXEntries_rt rest (acc ++ [(k, v)]) hacc2 hnodup.2
        (fun k2 v2 hm => hrt k2 v2 (List.mem_cons_of_mem _ hm))]
    simp

/-- Round trip of the `$`-doubled escape: the wire map keyed
`"$" ++ code` hits no probe, the escape scan strips one dollar back off,
and a `Map` keyed by the code itself comes back. -/
theorem unpack_escaped_code {code : String} (hc : code ∈ sentinelCodes) (w : Value)
    (u : Bool) :
    UnpackXJSON (vStringMap [("$" ++ code, w)]) u
      = vMap [(vString code, UnpackXJSON w u)] := by
  have hmk : ∀ c : String, String.mk (("$" ++ c).data.drop 1) = c := fun c => rfl
  simp only [sentinelCodes, List.mem_cons, List.not_mem_nil, or_false] at hc
  rcases hc with rfl | rfl | rfl | rfl <;>
    rw [unpack_single_escape u (by rfl)
        (UnpackXJSONInteger_single_ne (by decide))
        (UnpackXJSONUInteger_single_ne (by decide))
        (UnpackXJSONBytes_single_ne (by decide))
        (unpackXJSONMap_single_ne (by decide))
        (findEscapedKey_single_pos (by decide)), hmk]

/-- Only a string is Go-`==` to a string. -/
theorem goKeyEq_string_inv {k : Value} {s : String} (h : goKeyEq k (vString s) = true) :
    k = vString s := by
  cases k <;> simp [goKeyEq] at h
  rw [h]

/-- The round trip `UnpackXJSON ∘ wire ∘ PackXJSON` with
`useStringMaps = false` is the identity on representable, round-trip-safe
values (size-bounded induction). -/
theorem unpack_pack_bounded :
    ∀ (n : Nat) (v : Value), sizeOf v ≤ n → WFv v = true → XSafe v = true →
      UnpackXJSON (wireOf (PackXJSON v)) false = v := by
  intro n
  induction n with
  | zero =>
    intro v hs _ _
    cases v <;> simp at hs
  | succ n ih =>
    intro v hs hw hx
    cases v
    case vNull => simp [PackXJSON, wireOf, UnpackXJSON]
    case vBool b => simp [PackXJSON, wireOf, UnpackXJSON]
    case vString s => simp [PackXJSON, wireOf, UnpackXJSON]
    case vFloat f =>
      cases f
      · simp [XSafe, deepAll, xSafeLocal] at hx
      · simp [PackXJSON, wireOf, UnpackXJSON]
    case vTime t => simp [XSafe, deepAll, xSafeLocal] at hx
    case vStringMap es => simp [XSafe, deepAll, xSafeLocal] at hx
    case vInt i =>
      have hr : -(2 ^ 63) ≤ i ∧ i < 2 ^ 63 := by
        simp [XSafe, deepAll, xSafeLocal] at hx
        exact hx
      simp only [PackXJSON, wireOf]
      exact unpack_single_int false rfl
        (by simp [UnpackXJSONInteger, smLookup, parseInt_formatInt hr.1 hr.2])
    case vUInt m =>
      have hr : m < 2 ^ 64 := by
        simp [XSafe, deepAll, xSafeLocal] at hx
        exact hx
      simp only [PackXJSON, wireOf]
      exact unpack_single_uint false rfl
        (UnpackXJSONInteger_single_ne (by decide))
        (by simp [UnpackXJSONUInteger, smLookup, parseUint, parseUintChars_formatNat hr])
    case vBytes bs =>
      have hlt : ∀ x ∈ bs, x < 256 := by
        simp [XSafe, deepAll, xSafeLocal] at hx
        exact hx
      simp only [PackXJSON, wireOf]
      exact unpack_single_bytes false rfl
        (UnpackXJSONInteger_single_ne (by decide))
        (UnpackXJSONUInteger_single_ne (by decide))
        (by simp [UnpackXJSONBytes, smLookup, FromBase64, ToBase64,
                  fromBase64_toBase64 bs hlt])
    case vList xs =>
      rw [WFv] at hw
      rw [XSafe] at hx
      have hwp := deepAll_list_parts hw
      have hxp := deepAll_list_parts hx
      simp only [PackXJSON, wireOf, UnpackXJSON]
      rw [unpackList_rt]
      intro x hxm
      have hsz := sizeOf_elem_lt_list hxm
      exact ih x (by omega) (by rw [WFv]; exact hwp.2 x hxm) (by rw [XSafe]; exact hxp.2 x hxm)
    case vMap es =>
      obtain ⟨hnodup, hkv⟩ := WFv_map_parts hw
      rw [XSafe] at hx
      have hxp := deepAll_map_parts hx
      have hrtv : ∀ k v2, (k, v2) ∈ es → UnpackXJSON (wireOf (PackXJSON v2)) false = v2 := by
        intro k v2 hm
        have hsz := sizeOf_val_lt_map hm
        exact ih v2 (by omega) (hkv k v2 hm).2.2 (by rw [XSafe]; exact (hxp.2 k v2 hm).2)
      have hrtk : ∀ k v2, (k, v2) ∈ es → UnpackXJSON (wireOf (PackXJSON k)) false = k := by
        intro k v2 hm
        have hsz := sizeOf_key_lt_map hm
        exact ih k (by omega) (hkv k v2 hm).2.1 (by rw [XSafe]; exact (hxp.2 k v2 hm).1)
      simp only [PackXJSON]
      by_cases hns : hasNonStringKey es = true
      · -- at least one non-string key: the XJSONMap wrapper path
        have hesc : escapeXjsonMap es = none := by
          rcases es with _ | ⟨⟨k, v2⟩, rest⟩
          · simp [escapeXjsonMap]
          · rcases rest with _ | ⟨e2, rest2⟩
            · have hkf : isStringV k = false := by
                simp [hasNonStringKey] at hns
                simpa using hns
              have hgk : ∀ s : String, goKeyEq k (vString s) = false := by
                intro s
                by_contra hc
                simp only [Bool.not_eq_false] at hc
                rw [goKeyEq_string_inv hc] at hkf
                simp [isStringV] at hkf
              simp [escapeXjsonMap, hgk]
            · simp [escapeXjsonMap]
        rw [hesc, if_pos hns]
        have hrtm := unpackXEntries_rt es [] (fun _ _ _ => rfl) hnodup
          (fun k v2 hm => ⟨hrtk k v2 hm, hrtv k v2 hm⟩)
        have hum : unpackXJSONMap
            [(XJSONMapCode, vList (wireXEntries (packXEntries es)))] false = some es := by
          have hl : smLookup [(XJSONMapCode, vList (wireXEntries (packXEntries es)))]
              XJSONMapCode = some (vList (wireXEntries (packXEntries es))) := by
            simp [smLookup]
          simp only [unpackXJSONMap]
          split
          · rename_i entries heq
            rw [hl] at heq
            have h2 : vList (wireXEntries (packXEntries es)) = vList entries :=
              Option.some.inj heq
            have h3 : entries = wireXEntries (packXEntries es) := by
              cases h2
              rfl
            rw [h3, hrtm]
            simp
          · rename_i heq
            simp_all
        simp only [wireOf]
        rw [unpack_single_map false (by rfl)
            (UnpackXJSONInteger_single_ne (by decide))
            (UnpackXJSONUInteger_single_ne (by decide))
            (UnpackXJSONBytes_single_ne (by decide))
            hum]
      · -- every key is a string: the StringMap wire path
        simp only [Bool.not_eq_true] at hns
        rcases es with _ | ⟨⟨k, v2⟩, rest⟩
        · simp only [escapeXjsonMap, hasNonStringKey, List.any_nil, Bool.false_eq_true,
                     if_false, packMapString, wireOf, wireSEntries]
          rw [unpack_smap_not1 false (by simp)]
          simp [unpackSEntriesM]
        · rcases rest with _ | ⟨e2, rest2⟩
          · -- a one-entry map with a string key
            have hks : isStringV k = true := by
              simp [hasNonStringKey] at hns
              simpa using hns
            cases k <;> simp [isStringV] at hks
            rename_i s
            have hpre : ("$$".data.isPrefixOf s.data) = false := by
              have := hxp.1
              simp only [xSafeLocal] at this
              simpa using this
            by_cases h1 : s = XJSONIntegerCode
            · subst h1
              have hesc : escapeXjsonMap [(vString XJSONIntegerCode, v2)]
                  = some (.wStringMap [("$" ++ XJSONIntegerCode, PackXJSON v2)]) := by
                simp [escapeXjsonMap, goKeyEq]
              rw [hesc]
              simp only [wireOf, wireSEntries]
              rw [unpack_escaped_code (by simp [sentinelCodes]) (wireOf (PackXJSON v2)) false]
              rw [hrtv _ v2 (List.mem_cons_self ..)]
            · by_cases h2 : s = XJSONUIntegerCode
              · subst h2
                have hesc : escapeXjsonMap [(vString XJSONUIntegerCode, v2)]
                    = some (.wStringMap [("$" ++ XJSONUIntegerCode, PackXJSON v2)]) := by
                  simp [escapeXjsonMap, goKeyEq, XJSONUIntegerCode, XJSONIntegerCode]
                rw [hesc]
                simp only [wireOf, wireSEntries]
                rw [unpack_escaped_code (by simp [sentinelCodes]) (wireOf (PackXJSON v2)) false]
                rw [hrtv _ v2 (List.mem_cons_self ..)]
              · by_cases h3 : s = XJSONBytesCode
                · subst h3
                  have hesc : escapeXjsonMap [(vString XJSONBytesCode, v2)]
                      = some (.wStringMap [("$" ++ XJSONBytesCode, PackXJSON v2)]) := by
                    simp [escapeXjsonMap, goKeyEq, XJSONBytesCode, XJSONIntegerCode,
                          XJSONUIntegerCode]
                  rw [hesc]
                  simp only [wireOf, wireSEntries]
                  rw [unpack_escaped_code (by simp [sentinelCodes]) (wireOf (PackXJSON v2)) false]
                  rw [hrtv _ v2 (List.mem_cons_self ..)]
                · by_cases h4 : s = XJSONMapCode
                  · subst h4
                    have hesc : escapeXjsonMap [(vString XJSONMapCode, v2)]
                        = some (.wStringMap [("$" ++ XJSONMapCode, PackXJSON v2)]) := by
                      simp [escapeXjsonMap, goKeyEq, XJSONMapCode, XJSONIntegerCode,
                            XJSONUIntegerCode, XJSONBytesCode]
                    rw [hesc]
                    simp only [wireOf, wireSEntries]
                    rw [unpack_escaped_code (by simp [sentinelCodes]) (wireOf (PackXJSON v2)) false]
                    rw [hrtv _ v2 (List.mem_cons_self ..)]
                  · -- an ordinary string key: the generic conversion restores it
                    have hesc : escapeXjsonMap [(vString s, v2)] = none := by
                      simp [escapeXjsonMap, goKeyEq, h1, h2, h3, h4]
                    have hns2 : hasNonStringKey [(vString s, v2)] = false := by
                      simp [hasNonStringKey, isStringV]
                    rw [hesc, if_neg (by simp [hns2])]
                    simp only [packMapString, wireOf, wireSEntries]
                    rw [unpack_single_plain false (by rfl)
                        (UnpackXJSONInteger_single_ne (string_beq_false h1))
                        (UnpackXJSONUInteger_single_ne (string_beq_false h2))
                        (UnpackXJSONBytes_single_ne (string_beq_false h3))
                        (unpackXJSONMap_single_ne (string_beq_false h4))
                        (findEscapedKey_single_neg hpre)]
                    simp only [if_false, Bool.false_eq_true, unpackSEntriesM]
                    rw [hrtv _ v2 (List.mem_cons_self ..)]
          · -- two or more entries, all string keys
            have hesc : escapeXjsonMap ((k, v2) :: e2 :: rest2) = none := by
              simp [escapeXjsonMap]
            have hlen : ¬((wireSEntries (packMapString ((k, v2) :: e2 :: rest2))).length = 1) := by
              rw [wireSEntries_length, packMapString_length hns]
              simp
            rw [hesc, if_neg (by simp [hns])]
            simp only [wireOf]
            rw [unpack_smap_not1 false hlen]
            simp only [if_false, Bool.false_eq_true]
            rw [unpackSEntriesM_pms hns hrtv]

/-! ### Deriving the equality-safe fragment for the round trip -/

/-- Assembling `deepAllList` from pointwise facts. -/
theorem deepAllList_of {p : Value → Bool} :
    ∀ {xs : List Value}, (∀ x ∈ xs, deepAll p x = true) → deepAllList p xs = true
  | [], _ => by simp [deepAllList]
  | x :: rest, h => by
    rw [deepAllList]
    simp only [Bool.and_eq_true]
    exact ⟨h x (List.mem_cons_self ..),
           deepAllList_of (fun y hy => h y (List.mem_cons_of_mem _ hy))⟩

/-- Assembling `deepAllEntries` from pointwise facts. -/
theorem deepAllEntries_of {p : Value → Bool} :
    ∀ {es : List (Value × Value)},
      (∀ k v, (k, v) ∈ es → deepAll p k = true ∧ deepAll p v = true) →
      deepAllEntries p es = true
  | [], _ => by simp [deepAllEntries]
  | (k, v) :: rest, h => by
    rw [deepAllEntries]
    simp only [Bool.and_eq_true]
    exact ⟨⟨(h k v (List.mem_cons_self ..)).1, (h k v (List.mem_cons_self ..)).2⟩,
           deepAllEntries_of (fun k2 v2 hm => h k2 v2 (List.mem_cons_of_mem _ hm))⟩

/-- A representable, byte-free, round-trip-safe value is in the safe
fragment of `Equals` (size-bounded induction; round-trip safety supplies
the absence of NaN). -/
theorem eqSafe_of_bounded :
    ∀ (n : Nat) (v : Value), sizeOf v ≤ n → WFv v = true → noBytes v = true →
      XSafe v = true → eqSafe v = true := by
  intro n
  induction n with
  | zero =>
    intro v hs _ _ _
    cases v <;> simp at hs
  | succ n ih =>
    intro v hs hw hb hx
    cases v
    case vBytes bs => simp [noBytes, deepAll, noBytesLeaf] at hb
    case vFloat f =>
      cases f
      · simp [XSafe, deepAll, xSafeLocal] at hx
      · simp [eqSafe, deepAll, eqSafeLocal, localWF, noBytesLeaf, noNanLeaf]
    case vTime t => simp [XSafe, deepAll, xSafeLocal] at hx
    case vStringMap es => simp [XSafe, deepAll, xSafeLocal] at hx
    case vList xs =>
      rw [WFv] at hw
      rw [noBytes] at hb
      rw [XSafe] at hx
      have hwp := deepAll_list_parts hw
      have hbp := deepAll_list_parts hb
      have hxp := deepAll_list_parts hx
      rw [eqSafe, deepAll]
      simp only [Bool.and_eq_true]
      refine ⟨by simp [eqSafeLocal, localWF, noBytesLeaf, noNanLeaf], deepAllList_of ?_⟩
      intro x hm
      have hsz := sizeOf_elem_lt_list hm
      have := ih x (by omega) (by rw [WFv]; exact hwp.2 x hm)
        (by rw [noBytes]; exact hbp.2 x hm) (by rw [XSafe]; exact hxp.2 x hm)
      rw [eqSafe] at this
      exact this
    case vMap es =>
      have hwloc := (deepAll_map_parts hw).1
      have hwp := deepAll_map_parts (p := localWF) hw
      rw [noBytes] at hb
      rw [XSafe] at hx
      have hbp := deepAll_map_parts hb
      have hxp := deepAll_map_parts hx
      rw [eqSafe, deepAll]
      simp only [Bool.and_eq_true]
      refine ⟨by simp [eqSafeLocal, noBytesLeaf, noNanLeaf]; exact hwloc, deepAllEntries_of ?_⟩
      intro k v2 hm
      have hszk := sizeOf_key_lt_map hm
      have hszv := sizeOf_val_lt_map hm
      constructor
      · have := ih k (by omega) (hwp.2 k v2 hm).1
          (by rw [noBytes]; exact (hbp.2 k v2 hm).1) (by rw [XSafe]; exact (hxp.2 k v2 hm).1)
        rw [eqSafe] at this
        exact this
      · have := ih v2 (by omega) (hwp.2 k v2 hm).2
          (by rw [noBytes]; exact (hbp.2 k v2 hm).2) (by rw [XSafe]; exact (hxp.2 k v2 hm).2)
        rw [eqSafe] at this
        exact this
    all_goals simp [eqSafe, deepAll, eqSafeLocal, localWF, noBytesLeaf, noNanLeaf]

/-! ## Claim C1 -/

/-- C1 counterexample: the round trip is not `Equals`-true on the claim's
whole class.  (1) A byte sequence round-trips structurally, but the
system's `Equals` then panics on the two `[]byte` values (Go `==` on two
slices), so the round-tripped value is not "equal to v" under the
system's equality.  (2) A string-keyed map whose sole key is the literal
`"$ard.integer"` does take the double-`$` escape, but the `$$`-unescape
branch always rebuilds a `Map` — so a `StringMap` input comes back as the
`Map` variant (here under `useStringMaps = true`, which preserves every
other string-keyed map), and `Equals` rejects the pair. -/
theorem claim_C1_counterexample :
    (UnpackXJSON (wireOf (PackXJSON (vBytes []))) false = vBytes [] ∧
     Equals (UnpackXJSON (wireOf (PackXJSON (vBytes []))) false) (vBytes []) = none) ∧
    (UnpackXJSON (wireOf (PackXJSON (vStringMap [("$ard.integer", vString "x")]))) true
       = vMap [(vString "$ard.integer", vString "x")] ∧
     Equals
       (UnpackXJSON (wireOf (PackXJSON (vStringMap [("$ard.integer", vString "x")]))) true)
       (vStringMap [("$ard.integer", vString "x")]) = some false) := by
  have hbytes : UnpackXJSON (wireOf (PackXJSON (vBytes []))) false = vBytes [] :=
    unpack_pack_bounded (sizeOf (vBytes ([] : List Nat))) _ le_rfl
      (by simp [WFv, deepAll, localWF]) (by simp [XSafe, deepAll, xSafeLocal])
  have hpack : PackXJSON (vStringMap [("$ard.integer", vString "x")])
      = .wStringMap [("$" ++ XJSONIntegerCode, .wLeaf (vString "x"))] := by
    simp [PackXJSON, escapeXjsonStringMap, XJSONIntegerCode]
  have hsm : UnpackXJSON (wireOf (PackXJSON (vStringMap [("$ard.integer", vString "x")]))) true
      = vMap [(vString "$ard.integer", vString "x")] := by
    rw [hpack]
    simp only [wireOf, wireSEntries]
    rw [unpack_escaped_code (by simp [sentinelCodes]) (vString "x") true]
    simp [UnpackXJSON, XJSONIntegerCode]
  refine ⟨⟨hbytes, ?_⟩, hsm, ?_⟩
  · rw [hbytes]
    simp [Equals, goEqDefault]
  · rw [hsm]
    simp [Equals]

/-- C1 (amended): with `useStringMaps = false`, unpacking the wire image
of a packed value restores the value exactly — for every representable
value (`WFv`) in the round-trip-safe fragment (`XSafe`: integers in the
64-bit ranges, genuine bytes, no `StringMap`, no timestamp, no NaN, and
no single-entry map whose sole string key starts with `"$$"`).  This
covers the claim's signed/unsigned integers, byte sequences, and maps
with non-string keys, and in particular the adversarial sole key
`"$ard.integer"`, restored via the double-`$` escape.  On the byte-free
part of the fragment the system's `Equals` also confirms the round trip
(at a byte sequence `Equals` panics even though the round trip is the
identity, and a safe `StringMap` input can come back as a `Map`). -/
theorem claim_C1_xjson_roundtrip :
    (∀ v, WFv v = true → XSafe v = true →
       UnpackXJSON (wireOf (PackXJSON v)) false = v) ∧
    (∀ v, WFv v = true → XSafe v = true → noBytes v = true →
       Equals (UnpackXJSON (wireOf (PackXJSON v)) false) v = some true) := by
  constructor
  · exact fun v hw hx => unpack_pack_bounded (sizeOf v) v le_rfl hw hx
  · intro v hw hx hb
    rw [unpack_pack_bounded (sizeOf v) v le_rfl hw hx]
    exact equals_refl_bounded (sizeOf v) v le_rfl
      (eqSafe_of_bounded (sizeOf v) v le_rfl hw hb hx)

/-- Witness for C1's amended theorem: a map with a non-string key, whose
sole (string-rendered) content includes the sentinel-escape situation. -/
theorem claim_C1_witness :
    UnpackXJSON (wireOf (PackXJSON (vMap [(vInt 7, vString "a")]))) false
      = vMap [(vInt 7, vString "a")] ∧
    Equals (UnpackXJSON (wireOf (PackXJSON (vMap [(vString "$ard.integer", vInt 5)]))) false)
      (vMap [(vString "$ard.integer", vInt 5)]) = some true := by
  constructor
  · exact claim_C1_xjson_roundtrip.1 _
      (by simp [WFv, deepAll, deepAllEntries, localWF, nodupKeys, isComparable])
      (by simp [XSafe, deepAll, deepAllEntries, xSafeLocal])
  · exact claim_C1_xjson_roundtrip.2 _
      (by simp [WFv, deepAll, deepAllEntries, localWF, nodupKeys, isComparable])
      (by simp [XSafe, deepAll, deepAllEntries, xSafeLocal]; decide)
      (by simp [noBytes, deepAll, deepAllEntries, noBytesLeaf])

/-! ## Claim C7 -/

/-- C7: a one-entry string-keyed map whose sole key is one of the four
sentinel codes but whose payload every probe rejects (malformed payload:
the hypotheses are exactly "each unpack probe returns no value", e.g. a
non-numeric string under `$ard.integer`) degrades to an ordinary one-key
map holding that key and the recursively unpacked payload — the function
total-returns a value, never an error. -/
theorem claim_C7_malformed_sentinel_degrades (code : String) (hc : code ∈ sentinelCodes)
    (w : Value) (u : Bool)
    (h1 : UnpackXJSONInteger [(code, w)] = none)
    (h2 : UnpackXJSONUInteger [(code, w)] = none)
    (h3 : UnpackXJSONBytes [(code, w)] = none)
    (h4 : unpackXJSONMap [(code, w)] u = none) :
    UnpackXJSON (vStringMap [(code, w)]) u
      = if u then vStringMap [(code, UnpackXJSON w u)]
        else vMap [(vString code, UnpackXJSON w u)] := by
  have h5 : findEscapedKey [(code, w)] = none := by
    apply findEscapedKey_single_neg
    simp only [sentinelCodes, List.mem_cons, List.not_mem_nil, or_false] at hc
    rcases hc with rfl | rfl | rfl | rfl <;> decide
  rw [unpack_single_plain u (by rfl) h1 h2 h3 h4 h5]
  by_cases hu : u = true
  · subst hu
    simp [unpackSEntriesSM]
  · simp only [Bool.not_eq_true] at hu
    subst hu
    simp [unpackSEntriesM]

/-- Witness for C7 at the spec's example `{"$ard.integer": "not-a-number"}`
(with `useStringMaps = false`). -/
theorem claim_C7_witness :
    UnpackXJSON (vStringMap [(XJSONIntegerCode, vString "not-a-number")]) false
      = vMap [(vString XJSONIntegerCode, vString "not-a-number")] := by
  have h1 : UnpackXJSONInteger [(XJSONIntegerCode, vString "not-a-number")] = none := by
    decide
  have h2 : UnpackXJSONUInteger [(XJSONIntegerCode, vString "not-a-number")] = none := by
    decide
  have h3 : UnpackXJSONBytes [(XJSONIntegerCode, vString "not-a-number")] = none := by
    decide
  have h4 : unpackXJSONMap [(XJSONIntegerCode, vString "not-a-number")] false = none :=
    unpackXJSONMap_single_ne (by decide)
  rw [claim_C7_malformed_sentinel_degrades XJSONIntegerCode (by simp [sentinelCodes])
      (vString "not-a-number") false h1 h2 h3 h4]
  simp [UnpackXJSON]

/-! ## Claim C10 -/

/-- C10: (1) a one-entry string-keyed wire map whose sole key starts with
`"$$"` always unpacks to an arbitrary-key `Map` with exactly one leading
dollar stripped from the key, whatever `useStringMaps` is; (2) the
packer's escape ignores any non-sentinel key, and (3) fires only on
one-entry maps keyed exactly by a sentinel code; (4) consequently the
codec does not round-trip a map whose sole key is already
`"$$ard.integer"` — it comes back keyed `"$ard.integer"`. -/
theorem claim_C10_double_dollar_escape :
    (∀ (k : String) (w : Value) (u : Bool), ("$$".data.isPrefixOf k.data) = true →
       UnpackXJSON (vStringMap [(k, w)]) u
         = vMap [(vString (String.mk (k.data.drop 1)), UnpackXJSON w u)]) ∧
    (∀ (k : String) (v : Value), k ∉ sentinelCodes → escapeXjsonStringMap [(k, v)] = none) ∧
    (∀ es, escapeXjsonStringMap es ≠ none → ∃ c v, c ∈ sentinelCodes ∧ es = [(c, v)]) ∧
    UnpackXJSON (wireOf (PackXJSON (vMap [(vString "$$ard.integer", vString "x")]))) false
      ≠ vMap [(vString "$$ard.integer", vString "x")] := by
  have hstrip : ∀ (k : String) (w : Value) (u : Bool), ("$$".data.isPrefixOf k.data) = true →
      UnpackXJSON (vStringMap [(k, w)]) u
        = vMap [(vString (String.mk (k.data.drop 1)), UnpackXJSON w u)] := by
    intro k w u hp
    exact unpack_single_escape u (by rfl)
      (UnpackXJSONInteger_single_ne (dollar_key_ne hp (by decide)))
      (UnpackXJSONUInteger_single_ne (dollar_key_ne hp (by decide)))
      (UnpackXJSONBytes_single_ne (dollar_key_ne hp (by decide)))
      (unpackXJSONMap_single_ne (dollar_key_ne hp (by decide)))
      (findEscapedKey_single_pos hp)
  refine ⟨hstrip, ?_, ?_, ?_⟩
  · intro k v hk
    have h1 : ¬(k = XJSONIntegerCode) := fun hc => hk (by simp [sentinelCodes, hc])
    have h2 : ¬(k = XJSONUIntegerCode) := fun hc => hk (by simp [sentinelCodes, hc])
    have h3 : ¬(k = XJSONBytesCode) := fun hc => hk (by simp [sentinelCodes, hc])
    have h4 : ¬(k = XJSONMapCode) := fun hc => hk (by simp [sentinelCodes, hc])
    simp [escapeXjsonStringMap, h1, h2, h3, h4]
  · intro es h
    rcases es with _ | ⟨⟨k, v⟩, rest⟩
    · simp [escapeXjsonStringMap] at h
    · rcases rest with _ | ⟨e2, rest2⟩
      · by_cases h1 : k = XJSONIntegerCode
        · exact ⟨k, v, by simp [sentinelCodes, h1], rfl⟩
        · by_cases h2 : k = XJSONUIntegerCode
          · exact ⟨k, v, by simp [sentinelCodes, h2], rfl⟩
          · by_cases h3 : k = XJSONBytesCode
            · exact ⟨k, v, by simp [sentinelCodes, h3], rfl⟩
            · by_cases h4 : k = XJSONMapCode
              · exact ⟨k, v, by simp [sentinelCodes, h4], rfl⟩
              · simp [escapeXjsonStringMap, h1, h2, h3, h4] at h
      · simp [escapeXjsonStringMap] at h
  · have hpack : PackXJSON (vMap [(vString "$$ard.integer", vString "x")])
        = .wStringMap [("$$ard.integer", .wLeaf (vString "x"))] := by
      have hesc : escapeXjsonMap [(vString "$$ard.integer", vString "x")] = none := by
        simp [escapeXjsonMap, goKeyEq, XJSONIntegerCode, XJSONUIntegerCode, XJSONBytesCode,
              XJSONMapCode]
      have hns : hasNonStringKey [(vString "$$ard.integer", vString "x")] = false := by
        simp [hasNonStringKey, isStringV]
      simp only [PackXJSON, hesc, hns]
      simp [packMapString, PackXJSON]
    rw [hpack]
    simp only [wireOf, wireSEntries]
    rw [hstrip "$$ard.integer" (vString "x") false (by decide)]
    simp only [UnpackXJSON]
    intro hcon
    simp only [Value.vMap.injEq, List.cons.injEq, Prod.mk.injEq, Value.vString.injEq,
               and_true] at hcon
    exact absurd hcon (by decide)

/-- Witness for C10 at concrete inputs: the stripped key, a rejected
non-sentinel escape probe, and an escape hit decomposed. -/
theorem claim_C10_witness :
    UnpackXJSON (vStringMap [("$$k", vInt 3)]) true
      = vMap [(vString (String.mk ("$$k".data.drop 1)), UnpackXJSON (vInt 3) true)] ∧
    escapeXjsonStringMap [("plain", vInt 3)] = none := by
  constructor
  · exact claim_C10_double_dollar_escape.1 "$$k" (vInt 3) true (by decide)
  · exact claim_C10_double_dollar_escape.2.1 "plain" (vInt 3) (by decide)

/-! ## Nodes (src/node.go)

`Node` wraps a value together with its containing node and key so it can
be extracted, converted, traversed and modified; `NoNode` is the
singleton every failed step returns.  Go recognizes the sentinel by
pointer comparison (`self == NoNode`); the model carries that identity as
an explicit flag, true exactly for the sentinel.  Mutating operations
(`Set`, `Delete`, the map-creating walk of `ForceGet`) update shared maps
in place in Go; the model returns the updated node (with the container's
new value where the node keeps a reference to it) — the claims below
concern only results and success flags, which the model preserves. -/

/-- Embedded from `Node` (src/node.go, lines 16-23): the wrapped value,
the containing node's value (`none` for a nil container), the key within
the container, and the two mode flags. -/
structure NodeM where
  value : Value
  containerValue : Option Value
  key : Value
  nilMeansZero : Bool
  convertSimilar : Bool
  isNoNode : Bool

/-- Embedded from `With` (src/node.go, lines 27-29). -/
def With (data : Value) : NodeM := ⟨data, none, vString "", false, false, false⟩

/-- Embedded from `NoNode` (src/node.go, line 33):
`&Node{nil, nil, "", false, false}`, the distinguished sentinel. -/
def NoNode : NodeM := ⟨vNull, none, vString "", false, false, true⟩

/-- Embedded from `Node.NilMeansZero` (src/node.go, lines 37-43). -/
def NodeM.NilMeansZero (self : NodeM) : NodeM :=
  if self.isNoNode then NoNode
  else { self with nilMeansZero := true }

/-- Embedded from `Node.ConvertSimilar` (src/node.go, lines 48-54). -/
def NodeM.ConvertSimilar (self : NodeM) : NodeM :=
  if self.isNoNode then NoNode
  else { self with convertSimilar := true }

/-- Modelled from the spec: `strconv.FormatFloat(f, g, -1, w)` — a
deterministic decimal rendering of a float.  No theorem depends on its
exact output. -/
def formatFloat : GoFloat → String
  | .nan => "NaN"
  | .num q => formatInt q.num ++ "/" ++ formatNat q.den

/-- Embedded from `ValueToString` (src/strings.go): booleans through
`strconv.FormatBool`, the integer widths through `FormatInt`/`FormatUint`,
floats through `FormatFloat`, `time.Time` through its `String` method,
and everything else through `util.ToString` (modelled from the spec as a
deterministic rendering per value shape; on a string it is the string
itself). -/
def ValueToString : Value → String
  | vBool b => if b then "true" else "false"
  | vInt i => formatInt i
  | vUInt n => formatNat n
  | vFloat f => formatFloat f
  | vTime t => "time:" ++ formatNat t
  | vNull => "null"
  | vString s => s
  | vBytes _ => "bytes"
  | vList _ => "list"
  | vMap _ => "map"
  | vStringMap _ => "stringmap"

/-- Modelled from the spec: `util.ToInt64` converts any Go number to
`int64` (precision may be lost), failing on non-numbers.  No theorem
depends on the numeric details. -/
def ToInt64 : Value → Int × Bool
  | vInt i => (i, true)
  | vUInt n => (Int.ofNat n, true)
  | vFloat (.num q) => (q.num / (q.den : Int), true)
  | vFloat .nan => (0, true)
  | _ => (0, false)

/-- Modelled from the spec: `util.ToUInt64`. -/
def ToUInt64 : Value → Nat × Bool
  | vInt i => (i.toNat, true)
  | vUInt n => (n, true)
  | vFloat (.num q) => ((q.num / (q.den : Int)).toNat, true)
  | vFloat .nan => (0, true)
  | _ => (0, false)

/-- Modelled from the spec: `util.ToFloat64`. -/
def ToFloat64 : Value → GoFloat × Bool
  | vInt i => (.num (i : Rat), true)
  | vUInt n => (.num (n : Rat), true)
  | vFloat f => (f, true)
  | _ => (.num 0, false)

/-- Modelled from the spec: `strconv.ParseBool` accepts exactly
1/t/T/TRUE/true/True and 0/f/F/FALSE/false/False. -/
def ParseBool (s : String) : Option Bool :=
  if s = "1" ∨ s = "t" ∨ s = "T" ∨ s = "TRUE" ∨ s = "true" ∨ s = "True" then some true
  else if s = "0" ∨ s = "f" ∨ s = "F" ∨ s = "FALSE" ∨ s = "false" ∨ s = "False" then
    some false
  else none

/-- Embedded from `Node.String` (src/node.go, lines 64-85). -/
def NodeM.stringV (self : NodeM) : String × Bool :=
  if self.isNoNode then ("", false)
  else
    match self.value with
    | vString s => (s, true)
    | vNull => if self.nilMeansZero then ("", true) else ("", false)
    | v => if self.convertSimilar then (ValueToString v, true) else ("", false)

/-- Embedded from `Node.Bytes` (src/node.go, lines 95-120). -/
def NodeM.bytesV (self : NodeM) : List Nat × Bool :=
  if self.isNoNode then ([], false)
  else
    match self.value with
    | vBytes bs => (bs, true)
    | vNull => if self.nilMeansZero then ([], true) else ([], false)
    | v =>
      if self.convertSimilar then
        match v with
        | vString s =>
          match FromBase64 s with
          | some bs => (bs, true)
          | none => ([], false)
        | _ => ([], false)
      else ([], false)

/-- Embedded from `Node.Integer` (src/node.go, lines 132-161); the model
collapses the signed widths into `vInt`. -/
def NodeM.integerV (self : NodeM) : Int × Bool :=
  if self.isNoNode then (0, false)
  else
    match self.value with
    | vInt i => (i, true)
    | vNull => if self.nilMeansZero then (0, true) else (0, false)
    | v => if self.convertSimilar then ToInt64 v else (0, false)

/-- Embedded from `Node.UnsignedInteger` (src/node.go, lines 173-202). -/
def NodeM.unsignedIntegerV (self : NodeM) : Nat × Bool :=
  if self.isNoNode then (0, false)
  else
    match self.value with
    | vUInt n => (n, true)
    | vNull => if self.nilMeansZero then (0, true) else (0, false)
    | v => if self.convertSimilar then ToUInt64 v else (0, false)

/-- Embedded from `Node.Float` (src/node.go, lines 214-237). -/
def NodeM.floatV (self : NodeM) : GoFloat × Bool :=
  if self.isNoNode then (.num 0, false)
  else
    match self.value with
    | vFloat f => (f, true)
    | vNull => if self.nilMeansZero then (.num 0, true) else (.num 0, false)
    | v => if self.convertSimilar then ToFloat64 v else (.num 0, false)

/-- Embedded from `Node.Boolean` (src/node.go, lines 248-273): the
similar-conversion path renders through `Node.String` and parses with
`strconv.ParseBool`. -/
def NodeM.booleanV (self : NodeM) : Bool × Bool :=
  if self.isNoNode then (false, false)
  else
    match self.value with
    | vBool b => (b, true)
    | vNull => if self.nilMeansZero then (false, true) else (false, false)
    | _ =>
      if self.convertSimilar then
        match self.stringV with
        | (s, true) =>
          match ParseBool s with
          | some b => (b, true)
          | none => (false, false)
        | (_, false) => (false, false)
      else (false, false)

/-- Embedded from `Node.Map` (src/node.go, lines 282-310): among ARD host
values the reflective map-kind test of the similar-conversion arm holds
exactly for `map[string]any`, whose entries are copied with their keys as
interface values. -/
def NodeM.mapV (self : NodeM) : List (Value × Value) × Bool :=
  if self.isNoNode then ([], false)
  else
    match self.value with
    | vMap es => (es, true)
    | vNull => if self.nilMeansZero then ([], true) else ([], false)
    | v =>
      if self.convertSimilar then
        match v with
        | vStringMap ses => (ses.map (fun e => (vString e.1, e.2)), true)
        | _ => ([], false)
      else ([], false)

/-- Embedded from `Node.StringMap` (src/node.go, lines 320-348): the
similar-conversion arm stringifies the keys of a `Map` with
`MapKeyToString`. -/
def NodeM.stringMapV (self : NodeM) : List (Prod String Value) × Bool :=
  if self.isNoNode then ([], false)
  else
    match self.value with
    | vStringMap ses => (ses, true)
    | vNull => if self.nilMeansZero then ([], true) else ([], false)
    | v =>
      if self.convertSimilar then
        match v with
        | vMap es => (stringifyEntries es, true)
        | _ => ([], false)
      else ([], false)

/-- Embedded from `Node.List` (src/node.go, lines 357-387): among ARD
host values the reflective slice/array-kind test of the
similar-conversion arm holds exactly for `[]byte`, whose elements surface
as `uint8` interface values. -/
def NodeM.listV (self : NodeM) : List Value × Bool :=
  if self.isNoNode then ([], false)
  else
    match self.value with
    | vList xs => (xs, true)
    | vNull => if self.nilMeansZero then ([], true) else ([], false)
    | v =>
      if self.convertSimilar then
        match v with
        | vBytes bs => (bs.map (fun b => vUInt b), true)
        | _ => ([], false)
      else ([], false)

/-- The element loop of `Node.StringList`: a string element passes, any
other element passes through `ValueToString` only under similar
conversion. -/
def stringListOf (conv : Bool) : List Value → Option (List String)
  | [] => some []
  | vString s :: rest =>
    match stringListOf conv rest with
    | some ss => some (s :: ss)
    | none => none
  | v :: rest =>
    if conv then
      match stringListOf conv rest with
      | some ss => some (ValueToString v :: ss)
      | none => none
    else none

/-- Embedded from `Node.StringList` (src/node.go, lines 399-447).  The
`[]string` fast path cannot occur among ARD values (the source notes it
does not occur in valid ARD); the reflective slice/array arm holds
exactly for `[]byte` as in `Node.List`. -/
def NodeM.stringListV (self : NodeM) : List String × Bool :=
  if self.isNoNode then ([], false)
  else
    match self.value with
    | vList xs =>
      match stringListOf self.convertSimilar xs with
      | some ss => (ss, true)
      | none => ([], false)
    | vNull => if self.nilMeansZero then ([], true) else ([], false)
    | v =>
      if self.convertSimilar then
        match v with
        | vBytes bs => (bs.map (fun b => ValueToString (vUInt b)), true)
        | _ => ([], false)
      else ([], false)

/-- Embedded from `putInMap` (src/node.go, lines 661-672); the `none`
result stands for the panic arm, unreachable behind `Set`'s switch. -/
def putInMap : Value → Value → Value → Option Value
  | vMap es, key, value => some (vMap (mapStore es key value))
  | vStringMap ses, key, value => some (vStringMap (smStore ses (MapKeyToString key) value))
  | _, _, _ => none

/-- Embedded from `Node.Set` (src/node.go, lines 453-468): requires a
containing node holding a `Map` or `StringMap`; stores through
`putInMap` and records the new value. -/
def NodeM.setV (self : NodeM) (value : Value) : NodeM × Bool :=
  if self.isNoNode then (self, false)
  else
    match self.containerValue with
    | some (vMap es) =>
      ({ self with value := value, containerValue := putInMap (vMap es) self.key value },
       true)
    | some (vStringMap ses) =>
      ({ self with
          value := value
          containerValue := putInMap (vStringMap ses) self.key value }, true)
    | _ => (self, false)

/-- Embedded from `Node.Append` (src/node.go, lines 474-484): appends to
a `List` value and delegates to `Node.Set`. -/
def NodeM.appendV (self : NodeM) (value : Value) : NodeM × Bool :=
  if self.isNoNode then (self, false)
  else
    match self.value with
    | vList xs => self.setV (vList (xs ++ [value]))
    | _ => (self, false)

/-- Embedded from `Node.Delete` (src/node.go, lines 490-507): requires a
containing `Map` or `StringMap`; the source erases the key from the
shared container (visible only through other references to it) and clears
this node's value, container and key. -/
def NodeM.deleteV (self : NodeM) : NodeM × Bool :=
  if self.isNoNode then (self, false)
  else
    match self.containerValue with
    | some (vMap _) => ({ self with value := vNull, containerValue := none, key := vNull }, true)
    | some (vStringMap _) =>
      ({ self with value := vNull, containerValue := none, key := vNull }, true)
    | _ => (self, false)

/-- Is the value a `Map` or `StringMap` (the `isMap` result of
`getFromMap`)? -/
def isMapOrSMap : Value → Bool
  | vMap _ => true
  | vStringMap _ => true
  | _ => false

/-- Embedded from `getFromMap` (src/node.go, lines 635-659): the value
under the key together with the is-a-map flag, `none` when the key is
absent or the receiver is not a map. -/
def getFromMap : Value → Value → Option (Value × Bool)
  | vMap es, key =>
    match mapLookup es key with
    | some v => some (v, isMapOrSMap v)
    | none => none
  | vStringMap ses, key =>
    match smLookup ses (MapKeyToString key) with
    | some v => some (v, isMapOrSMap v)
    | none => none
  | _, _ => none

/-- The key walk of `Node.get` (src/node.go, lines 587-628): intermediate
keys must reach maps (created empty, of the container's variant, under
`force`); the final key yields the child node, or under `force` a node
with a nil value set into the current container. -/
def getLoop : NodeM → List Value → Bool → NodeM
  | current, [lastKey], force =>
    match getFromMap current.value lastKey with
    | some (v, _) =>
      ⟨v, some current.value, lastKey, current.nilMeansZero, current.convertSimilar, false⟩
    | none =>
      if force then
        ⟨vNull, some current.value, lastKey, current.nilMeansZero, current.convertSimilar,
         false⟩
      else NoNode
  | current, key :: rest, force =>
    match getFromMap current.value key with
    | some (m, true) =>
      getLoop ⟨m, some current.value, key, current.nilMeansZero, current.convertSimilar,
        false⟩ rest force
    | some (_, false) => NoNode
    | none =>
      if force then
        getLoop
          ⟨(match current.value with
            | vMap _ => vMap []
            | _ => vStringMap []),
           some current.value, key, current.nilMeansZero, current.convertSimilar, false⟩
          rest force
      else NoNode
  | _, [], _ => NoNode

/-- Embedded from `Node.get` (src/node.go, lines 571-632): the sentinel
and the empty key list short-circuit; only a `Map` or `StringMap` can be
traversed. -/
def NodeM.get (self : NodeM) (keys : List Value) (force : Bool) : NodeM :=
  if self.isNoNode then NoNode
  else if keys.isEmpty then NoNode
  else
    match self.value with
    | vMap es => getLoop ⟨vMap es, self.containerValue, self.key, self.nilMeansZero,
        self.convertSimilar, false⟩ keys force
    | vStringMap ses => getLoop ⟨vStringMap ses, self.containerValue, self.key,
        self.nilMeansZero, self.convertSimilar, false⟩ keys force
    | _ => NoNode

/-- Embedded from `Node.Get` (src/node.go, lines 520-522). -/
def NodeM.Get (self : NodeM) (keys : List Value) : NodeM := self.get keys false

/-- Embedded from `Node.ForceGet` (src/node.go, lines 542-544). -/
def NodeM.ForceGet (self : NodeM) (keys : List Value) : NodeM := self.get keys true

/-! ## Claim C9 -/

/-- C9: the `NoNode` sentinel is terminal and total.  `Get`, `ForceGet`
(for every key list), `NilMeansZero` and `ConvertSimilar` return `NoNode`
itself; every typed extractor returns its zero value with `found = false`;
`Set`, `Append` and `Delete` return `false` (leaving the node untouched).
Every operation is a total function on the sentinel — none reaches a
panic site (the only panic sites, in `putInMap`/`deleteFromMap`, sit
behind container type switches never consulted for `NoNode`) — so chained
traversals need no intermediate nil checks. -/
theorem claim_C9_nonode_terminal_total :
    (∀ keys, NodeM.Get NoNode keys = NoNode) ∧
    (∀ keys, NodeM.ForceGet NoNode keys = NoNode) ∧
    (∀ keys force, NodeM.get NoNode keys force = NoNode) ∧
    NodeM.NilMeansZero NoNode = NoNode ∧
    NodeM.ConvertSimilar NoNode = NoNode ∧
    NodeM.stringV NoNode = ("", false) ∧
    NodeM.bytesV NoNode = ([], false) ∧
    NodeM.integerV NoNode = (0, false) ∧
    NodeM.unsignedIntegerV NoNode = (0, false) ∧
    NodeM.floatV NoNode = (.num 0, false) ∧
    NodeM.booleanV NoNode = (false, false) ∧
    NodeM.mapV NoNode = ([], false) ∧
    NodeM.stringMapV NoNode = ([], false) ∧
    NodeM.listV NoNode = ([], false) ∧
    NodeM.stringListV NoNode = ([], false) ∧
    (∀ v, NodeM.setV NoNode v = (NoNode, false)) ∧
    (∀ v, NodeM.appendV NoNode v = (NoNode, false)) ∧
    NodeM.deleteV NoNode = (NoNode, false) := by
  refine ⟨fun keys => rfl, fun keys => rfl, fun keys force => rfl, rfl, rfl, rfl, rfl,
    rfl, rfl, rfl, rfl, rfl, rfl, rfl, rfl, fun v => rfl, fun v => rfl, rfl⟩

/-! ## Claim C4 -/

/-- C4 counterexample: `Equals` is not reflexive over all scalars.  At
`a = float64 NaN` the source's `default` arm computes Go `NaN == NaN`,
which is false; and at `a = []byte{}` Go `==` panics at run time
(comparing two values of the same uncomparable slice type), modelled as
`none` — in neither case is `Equals(a, a)` true. -/
theorem claim_C4_counterexample :
    Equals (vFloat .nan) (vFloat .nan) = some false ∧
    Equals (vBytes []) (vBytes []) = none := by
  constructor <;> simp [Equals, goEqDefault, goFloatEq]

/-- C4 (amended): `Equals` is reflexive on every representable value built
from same-variant maps, lists and scalars that contains no byte slice and
no float NaN, and symmetric on every pair of such values (`eqSafe`:
representable Go map keys, no byte slices — on which Go `==` panics — and
no NaN floats — for which `==` is irreflexive). -/
theorem claim_C4_equals_refl_symm :
    (∀ a, eqSafe a = true → Equals a a = some true) ∧
    (∀ a b, eqSafe a = true → eqSafe b = true → Equals a b = Equals b a) := by
  constructor
  · exact fun a ha => equals_refl_bounded (sizeOf a) a le_rfl ha
  · intro a b ha hb
    have hne1 := equals_ne_none_bounded (sizeOf a + sizeOf b) a b le_rfl ha hb
    have hne2 := equals_ne_none_bounded (sizeOf b + sizeOf a) b a le_rfl hb ha
    rcases hab : Equals a b with _ | bv
    · exact absurd hab hne1
    · rcases hba : Equals b a with _ | bv2
      · exact absurd hba hne2
      · cases bv <;> cases bv2 <;> try rfl
        · have := equals_true_symm_bounded (sizeOf b + sizeOf a) b a le_rfl hb ha hba
          rw [hab] at this
          simp at this
        · have := equals_true_symm_bounded (sizeOf a + sizeOf b) a b le_rfl ha hb hab
          rw [hba] at this
          simp at this

/-- Witness for C4's amended theorem at concrete inputs. -/
theorem claim_C4_witness :
    Equals (vMap [(vString "a", vInt 1)]) (vMap [(vString "a", vInt 1)]) = some true ∧
    Equals (vInt 1) (vString "a") = Equals (vString "a") (vInt 1) := by
  constructor
  · exact claim_C4_equals_refl_symm.1 _
      (by simp [eqSafe, deepAll, deepAllEntries, eqSafeLocal, localWF, noBytesLeaf,
                noNanLeaf, nodupKeys, isComparable])
  · exact claim_C4_equals_refl_symm.2 _ _
      (by simp [eqSafe, deepAll, eqSafeLocal, localWF, noBytesLeaf, noNanLeaf])
      (by simp [eqSafe, deepAll, eqSafeLocal, localWF, noBytesLeaf, noNanLeaf])

/-! ## Claim C5 -/

/-- C5: for every `Map` `m` and every `StringMap` `s`, `Equals(m, s)` and
`Equals(s, m)` are both false — regardless of content, so in particular
even when the two have identical logical content after canonical key
stringification; cross-variant comparison requires normalizing first. -/
theorem claim_C5_map_never_equals_stringmap
    (mes : List (Value × Value)) (ses : List (String × Value)) :
    Equals (vMap mes) (vStringMap ses) = some false ∧
    Equals (vStringMap ses) (vMap mes) = some false := by
  constructor
  · simp [Equals]
  · simp [Equals]

/-! ## Claim C6 -/

/-- C6 counterexample: the claim states that no ARD value — including a
`StringMap` — falls through to the unknown fallback of `GetTypeName`.  In
the source, `StringMap` matches no arm of the type switch (the doc comment
on `GetTypeName` says so explicitly), so an ARD `StringMap` does fall
through to the `%T` fallback, which is not a canonical type name. -/
theorem claim_C6_counterexample :
    GetTypeName (vStringMap []) ∉ canonicalTypeNames ∧
    GetTypeName (vStringMap []) = stringMapHostTypeName := by
  constructor
  · decide
  · rfl

/-- C6 (amended): `GetTypeName` maps every ARD value that is not a
`StringMap` to one of the canonical type names (Map, List, String,
Boolean, Integer, Float, Null, Bytes, Timestamp); a `StringMap` — alone
among ARD values — falls through to the unknown fallback carrying the host
type's name. -/
theorem claim_C6_type_names (v : Value) :
    (isStringMapV v = false → GetTypeName v ∈ canonicalTypeNames) ∧
    (isStringMapV v = true → GetTypeName v = stringMapHostTypeName) := by
  cases v <;> refine ⟨fun h => ?_, fun h => ?_⟩ <;>
    simp_all [isStringMapV, GetTypeName, canonicalTypeNames]

/-- Witness for C6's amended theorem at concrete inputs. -/
theorem claim_C6_type_names_witness :
    GetTypeName (vInt 0) ∈ canonicalTypeNames ∧
    GetTypeName (vStringMap []) = stringMapHostTypeName :=
  ⟨(claim_C6_type_names (vInt 0)).1 rfl, (claim_C6_type_names (vStringMap [])).2 rfl⟩

end Ard
